import Mathlib

/-!
# Verification of the Pokemon Battle Arena AI core

Shallow embedding of the decision-making and simulation core of the
Pokemon Battle Arena game (`models.py`, `utils.py`, `phase_3.py`,
`team_rocket_ai_agent.py`, `config.py`) together with proofs about it.

Modelling conventions:
* Python `int` is `Int`; Python `float` arithmetic on game quantities is
  modelled exactly over `ℚ` (the game only multiplies/divides small
  rationals, so this is the intended real-number semantics).
* Python `//` (floor division) is `Int.fdiv`; `int(x)` on a float is
  truncation toward zero (`pytrunc`); `round(x)` is round-half-to-even
  (`pyround`).
* Python `dict` is an insertion-ordered association list; `d.get(k, v)`
  is lookup with default.
* Code that can raise an uncaught exception (KeyError on a missing
  `ELIXIRS` key, IndexError on an out-of-range list index,
  ZeroDivisionError on `maxhp == 0`) is `Option`-valued; `none` models
  the exception propagating out of the call.
* UI-only float fields of the dataclasses (`displayhp`, `boboffset`)
  are outside the model: no battle-logic code reads them.
-/

namespace PBA

/-! ## config.py -/

def TYPEADV : List ((String × String) × ℚ) :=
  [(("Fire", "Electric"), 13/10), (("Electric", "Water"), 13/10), (("Water", "Fire"), 13/10)]

def FIELDBOOST : ℚ := 6/5

/-- `ELIXIRS = {"Small": (25, 15), "Medium": (50, 30), "Large": (80, 50)}`:
tier name ↦ (heal amount, cost). -/
def ELIXIRS : List (String × (Int × Int)) :=
  [("Small", (25, 15)), ("Medium", (50, 30)), ("Large", (80, 50))]

def GRIDW : Int := 24
def GRIDH : Int := 11

def DIRS : List (Int × Int) := [(1, 0), (-1, 0), (0, 1), (0, -1)]

/-! ## models.py : core data structures -/

structure Pokemon where
  name : String
  ptype : String
  maxhp : Int := 100
  hp : Int := 100
  atk : Int := 22
  dfn : Int := 10
  alive : Bool := true
deriving DecidableEq, Repr

def Pokemon.takedamage (p : Pokemon) (dmg : Int) : Pokemon :=
  if !p.alive then p
  else
    let hp := max 0 (p.hp - dmg)
    { p with hp := hp, alive := if hp = 0 then false else p.alive }

def Pokemon.heal (p : Pokemon) (amt : Int) : Pokemon :=
  if !p.alive then p
  else { p with hp := min p.maxhp (p.hp + amt) }

structure Agent where
  name : String
  team : List Pokemon
  coins : Int := 0
  fuel : Int := 0
  elixirs : List (String × Int) := []
  position : ℚ × ℚ := (0, 0)
  targetpos : ℚ × ℚ := (0, 0)
  current_path : List (Int × Int) := []
  path_index : Int := 0
deriving DecidableEq, Repr

structure BattleState where
  fieldtype : String
  ashactive : Int := 0
  rocketactive : Int := 0
deriving DecidableEq, Repr

inductive BActEnum where
  | ATTACK | DEFEND | SWAP | HEAL
deriving DecidableEq, Repr

/-- `BattleAction(kind, arg)` where `arg : Optional[Union[int, str]]`. -/
structure BattleAction where
  kind : BActEnum
  arg : Option (Int ⊕ String) := none
deriving DecidableEq, Repr

/-! ## Claim C3 / C4 : Pokemon hp invariants -/

/-- A single health mutation: `inl d` is `takedamage(d)`, `inr a` is `heal(a)`. -/
def HpOp := Int ⊕ Int

def hpOpAmount : HpOp → Int
  | .inl d => d
  | .inr a => a

def applyHpOp (p : Pokemon) : HpOp → Pokemon
  | .inl d => p.takedamage d
  | .inr a => p.heal a

def applyHpOps (p : Pokemon) (ops : List HpOp) : Pokemon :=
  ops.foldl applyHpOp p

/-- Well-formedness of a creature's health state: `hp ∈ [0, maxhp]` and
`alive` holds exactly when `hp ≠ 0`. -/
def PokemonWF (p : Pokemon) : Prop :=
  0 ≤ p.hp ∧ p.hp ≤ p.maxhp ∧ (p.alive = true ↔ p.hp ≠ 0)

instance (p : Pokemon) : Decidable (PokemonWF p) := by
  unfold PokemonWF; infer_instance

theorem takedamage_dead {p : Pokemon} (h : p.alive = false) (d : Int) :
    p.takedamage d = p := by
  simp [Pokemon.takedamage, h]

theorem heal_dead {p : Pokemon} (h : p.alive = false) (a : Int) :
    p.heal a = p := by
  simp [Pokemon.heal, h]

theorem applyHpOp_dead {p : Pokemon} (h : p.alive = false) (o : HpOp) :
    applyHpOp p o = p := by
  cases o with
  | inl d => exact takedamage_dead h d
  | inr a => exact heal_dead h a

theorem applyHpOps_dead {p : Pokemon} (h : p.alive = false) (ops : List HpOp) :
    applyHpOps p ops = p := by
  induction ops with
  | nil => rfl
  | cons o rest ih => simp [applyHpOps, List.foldl, applyHpOp_dead h] at ih ⊢; exact ih

theorem pokemonWF_takedamage {p : Pokemon} (hwf : PokemonWF p) {d : Int} (hd : 0 ≤ d) :
    PokemonWF (p.takedamage d) := by
  obtain ⟨h0, h1, h2⟩ := hwf
  by_cases ha : p.alive
  · have hne : p.hp ≠ 0 := h2.mp ha
    unfold Pokemon.takedamage
    simp only [ha, Bool.not_true, Bool.false_eq_true, if_false]
    refine ⟨by simp only; omega, by simp only; omega, ?_⟩
    by_cases hz : max 0 (p.hp - d) = 0
    · simp [hz]
    · simp [hz, ha]
  · rw [Bool.not_eq_true] at ha
    rw [takedamage_dead ha]
    exact ⟨h0, h1, h2⟩

theorem pokemonWF_heal {p : Pokemon} (hwf : PokemonWF p) {a : Int} (ha : 0 ≤ a) :
    PokemonWF (p.heal a) := by
  obtain ⟨h0, h1, h2⟩ := hwf
  by_cases hl : p.alive
  · have hne : p.hp ≠ 0 := h2.mp hl
    unfold Pokemon.heal
    simp only [hl, Bool.not_true, Bool.false_eq_true, if_false]
    refine ⟨by simp only; omega, by simp only; omega, ?_⟩
    simp only [hl, true_iff]
    omega
  · rw [Bool.not_eq_true] at hl
    rw [heal_dead hl]
    exact ⟨h0, h1, h2⟩

theorem pokemonWF_applyHpOp {p : Pokemon} (hwf : PokemonWF p) {o : HpOp}
    (h : 0 ≤ hpOpAmount o) : PokemonWF (applyHpOp p o) := by
  cases o with
  | inl d => exact pokemonWF_takedamage hwf h
  | inr a => exact pokemonWF_heal hwf h

theorem pokemonWF_applyHpOps {p : Pokemon} (hwf : PokemonWF p) {ops : List HpOp}
    (h : ∀ o ∈ ops, 0 ≤ hpOpAmount o) : PokemonWF (applyHpOps p ops) := by
  induction ops generalizing p with
  | nil => exact hwf
  | cons o rest ih =>
    have := pokemonWF_applyHpOp hwf (h o (by simp))
    simpa [applyHpOps, List.foldl] using
      ih this (fun o' ho' => h o' (by simp [ho']))

/-- **C3 (counterexample).** The claim quantifies over *arbitrary* integer
amounts, but `heal` with a negative amount can drive `hp` below 0:
from a well-formed creature with `hp = 10`, `heal(-20)` leaves `hp = -10`,
outside `[0, maxhp]`. -/
theorem C3_hp_range_cex :
    PokemonWF { name := "P", ptype := "Fire", maxhp := 100, hp := 10 : Pokemon } ∧
      (applyHpOps { name := "P", ptype := "Fire", maxhp := 100, hp := 10 : Pokemon }
        [Sum.inr (-20)]).hp < 0 := by
  constructor
  · decide
  · decide

/-- **C3 (amended).** For every initially well-formed Pokemon and every
sequence of `takedamage`/`heal` calls with *nonnegative* amounts, after every
call the hp stays in `[0, maxhp]` and `alive` is false iff `hp = 0`; and once
`alive` is false it never becomes true again (this last part needs no
sign restriction: both mutators are no-ops on a dead creature). -/
theorem C3_hp_invariant (p : Pokemon) (l₁ l₂ : List HpOp)
    (hwf : PokemonWF p)
    (hnn : ∀ o ∈ l₁, 0 ≤ hpOpAmount o) :
    PokemonWF (applyHpOps p l₁) ∧
      ((applyHpOps p l₁).alive = false →
        (applyHpOps p (l₁ ++ l₂)).alive = false) := by
  have hwf1 : PokemonWF (applyHpOps p l₁) := pokemonWF_applyHpOps hwf hnn
  refine ⟨hwf1, fun hdead => ?_⟩
  have : applyHpOps p (l₁ ++ l₂) = applyHpOps (applyHpOps p l₁) l₂ := by
    simp [applyHpOps, List.foldl_append]
  rw [this, applyHpOps_dead hdead]
  exact hdead

/-- Witness for `C3_hp_invariant` at a concrete input. -/
theorem C3_hp_invariant_witness :
    PokemonWF (applyHpOps { name := "P", ptype := "Water", maxhp := 100, hp := 40 : Pokemon }
        [Sum.inl 15, Sum.inr 80]) ∧
      ((applyHpOps { name := "P", ptype := "Water", maxhp := 100, hp := 40 : Pokemon }
        [Sum.inl 15, Sum.inr 80]).alive = false →
        (applyHpOps { name := "P", ptype := "Water", maxhp := 100, hp := 40 : Pokemon }
          ([Sum.inl 15, Sum.inr 80] ++ [Sum.inl 7])).alive = false) :=
  C3_hp_invariant _ [Sum.inl 15, Sum.inr 80] [Sum.inl 7] (by decide)
    (by intro o ho; fin_cases ho <;> decide)

/-- **C4 (counterexample).** `takedamage` has no guard against negative
amounts: `takedamage(-1)` on a creature with `hp = 50` *raises* hp to 51,
so a non-positive amount is not a no-op. -/
theorem C4_negative_amount_cex :
    (-1 : Int) ≤ 0 ∧
      ({ name := "P", ptype := "Fire", hp := 50 : Pokemon }.takedamage (-1)).hp ≠
        ({ name := "P", ptype := "Fire", hp := 50 : Pokemon }).hp := by
  constructor
  · decide
  · decide

/-- **C4 (amended).** Only the amount-zero case of the claim holds: for a
well-formed Pokemon, `takedamage 0` and `heal 0` leave the creature
completely unchanged.  Strictly negative amounts are *not* treated as zero
effect (`takedamage` of a negative amount heals, `heal` of a negative amount
damages). -/
theorem C4_zero_amount_noop (p : Pokemon)
    (h0 : 0 ≤ p.hp) (h1 : p.hp ≤ p.maxhp) (h2 : p.alive = true → p.hp ≠ 0) :
    p.takedamage 0 = p ∧ p.heal 0 = p := by
  obtain ⟨nm, pt, mx, hp, at_, df, al⟩ := p
  simp only at h0 h1 h2
  constructor
  · by_cases ha : al = true
    · have hne : hp ≠ 0 := h2 ha
      have hmax : max 0 (hp - 0) = hp := by omega
      simp [Pokemon.takedamage, ha, hmax, hne]
      omega
    · rw [Bool.not_eq_true] at ha
      simp [Pokemon.takedamage, ha]
  · by_cases ha : al = true
    · have hmin : min mx (hp + 0) = hp := by omega
      simp [Pokemon.heal, ha, hmin]
      omega
    · rw [Bool.not_eq_true] at ha
      simp [Pokemon.heal, ha]

/-- Witness for `C4_zero_amount_noop` at a concrete input. -/
theorem C4_zero_amount_noop_witness :
    ({ name := "P", ptype := "Fire", hp := 50 : Pokemon }.takedamage 0 =
        { name := "P", ptype := "Fire", hp := 50 : Pokemon }) ∧
      ({ name := "P", ptype := "Fire", hp := 50 : Pokemon }.heal 0 =
        { name := "P", ptype := "Fire", hp := 50 : Pokemon }) :=
  C4_zero_amount_noop _ (by decide) (by decide) (by decide)

/-! ## utils.py : FuzzyLogic -/

def membership_low (value min_val max_val : ℚ) : ℚ :=
  if value ≤ min_val then 1
  else if value ≥ max_val then 0
  else (max_val - value) / (max_val - min_val)

def membership_medium (value low mid high : ℚ) : ℚ :=
  if value ≤ low ∨ value ≥ high then 0
  else if value = mid then 1
  else if value < mid then (value - low) / (mid - low)
  else (high - value) / (high - mid)

def membership_high (value min_val max_val : ℚ) : ℚ :=
  if value ≥ max_val then 1
  else if value ≤ min_val then 0
  else (value - min_val) / (max_val - min_val)

def should_heal (pokemon_hp_percent : ℚ) (has_elixir : Bool) (enemy_hp_percent : ℚ) : ℚ :=
  if !has_elixir then 0
  else
    let hp_low := membership_low pokemon_hp_percent 20 50
    let hp_medium := membership_medium pokemon_hp_percent 30 50 70
    let hp_high := membership_high pokemon_hp_percent 60 80
    let enemy_low := membership_low enemy_hp_percent 20 50
    let enemy_high := membership_high enemy_hp_percent 50 80
    let rule1 := min hp_low (1 - enemy_low) * (9/10)
    let rule2 := min hp_medium enemy_high * (6/10)
    let rule3 := hp_high * 0
    let rule4 := min hp_low enemy_low * (4/10)
    max (max (max rule1 rule2) rule3) rule4

def should_swap (active_type enemy_type : String) (bench_has_advantage : Bool)
    (active_hp_percent : ℚ) : ℚ :=
  if !bench_has_advantage then 0
  else
    let has_disadvantage : ℚ :=
      if (TYPEADV.lookup (enemy_type, active_type)).isSome then 1 else 0
    let hp_critical := membership_low active_hp_percent 10 30
    let hp_low := membership_low active_hp_percent 20 50
    let hp_high := membership_high active_hp_percent 50 80
    let rule1 := min hp_critical has_disadvantage * (19/20)
    let rule2 := min hp_low has_disadvantage * (3/4)
    let rule3 := has_disadvantage * (1/2)
    let rule4 := min hp_high (1 - has_disadvantage) * 0
    max (max (max rule1 rule2) rule3) rule4

/-! ## Claim C6 : swap confidence -/

/-- **C6 (counterexample).** The "flat 0.5" rule is `has_disadvantage * 0.5`,
not a flat 0.5: when the bench has an advantage but the enemy's type does
*not* advantage the active creature (here enemy Electric vs active Fire),
every rule is 0 and the returned confidence is 0 < 0.5. -/
theorem C6_swap_half_cex :
    should_swap "Fire" "Electric" true 100 < 1/2 := by
  have h : (TYPEADV.lookup ("Electric", "Fire")).isSome = false := by decide
  simp only [should_swap, h, Bool.not_true, Bool.false_eq_true, if_false]
  norm_num [membership_low, membership_high]

/-- **C6 (amended).** Whenever `bench_has_advantage` is true *and* the
enemy's type holds a type advantage over the active creature's type, the
confidence returned by `should_swap` is at least 0.5, regardless of the
HP percentage (via the rule `has_disadvantage * 0.5`). -/
theorem C6_swap_half (active_type enemy_type : String) (hp : ℚ)
    (hadv : (TYPEADV.lookup (enemy_type, active_type)).isSome = true) :
    1/2 ≤ should_swap active_type enemy_type true hp := by
  unfold should_swap
  simp only [Bool.not_true, Bool.false_eq_true, if_false, hadv, if_true]
  refine le_trans (by norm_num) (le_trans (le_max_right (max _ _) ((1 : ℚ) * (1/2)))
    (le_max_left _ _))

/-- Witness for `C6_swap_half` at a concrete input. -/
theorem C6_swap_half_witness : 1/2 ≤ should_swap "Fire" "Water" true 88 :=
  C6_swap_half "Fire" "Water" 88 (by decide)

/-! ## phase_3.py : battle logic -/

/-- Python list indexing `l[i]`, including negative-index wrap-around;
`none` models an IndexError. -/
def pyIdx (l : List α) (i : Int) : Option α :=
  if 0 ≤ i then l.get? i.toNat
  else if 0 ≤ i + l.length then l.get? (i + l.length).toNat
  else none

/-- In-place mutation of the object at Python index `i` of a list
(`l[i].method(...)`): apply `f` at that position. `none` is an IndexError. -/
def pySet (l : List α) (i : Int) (f : α → α) : Option (List α) :=
  match pyIdx l i with
  | none => none
  | some a => some (l.set (if 0 ≤ i then i.toNat else (i + l.length).toNat) (f a))

/-- Python `int(x)` on a float: truncation toward zero. -/
def pytrunc (q : ℚ) : Int := if q < 0 then -⌊-q⌋ else ⌊q⌋

/-- Python 3 `round(x)`: round half to even. -/
def pyround (q : ℚ) : Int :=
  let n := ⌊q⌋
  let r := q - (n : ℚ)
  if r < 1/2 then n
  else if 1/2 < r then n + 1
  else if n % 2 = 0 then n else n + 1

/-- `computedamage(attacker, defender, fieldtype)` with the
`random.uniform(0.8, 1.2)` draw made an explicit parameter `u`. -/
def computedamage (attacker defender : Pokemon) (fieldtype : String) (u : ℚ) : Int :=
  let base : Int := max 5 (attacker.atk - Int.fdiv defender.dfn 2)
  let m1 : ℚ := match TYPEADV.lookup (attacker.ptype, defender.ptype) with
    | some c => 1 * c
    | none => 1
  let m2 : ℚ := if attacker.ptype = fieldtype then m1 * FIELDBOOST else m1
  let mult : ℚ := m2 * u
  pyround ((base : ℚ) * mult)

/-- Decrement the count of tier `s` in an elixir dict
(`agent.elixirs[s] -= 1`). -/
def decElixir : List (String × Int) → String → List (String × Int)
  | [], _ => []
  | (k, v) :: rest, s => if k == s then (k, v - 1) :: rest else (k, v) :: decElixir rest s

/-- The inner `apply(agent, act, activeidxref)` of `stepbattle_simulation`:
resolves a SWAP/HEAL sub-action, returning the (possibly updated) agent and
active index.  `none` models an uncaught exception (KeyError when a HEAL
names an owned tier missing from `ELIXIRS`, IndexError on a bad active
index during a heal). -/
def applyAct (agent : Agent) (act : BattleAction) (activeidx : Int) : Option (Agent × Int) :=
  match act.kind, act.arg with
  | BActEnum.SWAP, some (Sum.inl j) =>
    if 0 ≤ j ∧ j < agent.team.length ∧
        ((agent.team.get? j.toNat).map Pokemon.alive).getD false = true then
      some (agent, j)
    else some (agent, activeidx)
  | BActEnum.HEAL, some (Sum.inr s) =>
    if (agent.elixirs.lookup s).getD 0 > 0 then
      match ELIXIRS.lookup s with
      | none => none
      | some (healamt, _) =>
        match pySet agent.team activeidx (fun p => p.heal healamt) with
        | none => none
        | some team' =>
          some ({ agent with team := team', elixirs := decElixir agent.elixirs s }, activeidx)
    else some (agent, activeidx)
  | _, _ => some (agent, activeidx)

/-- The attack sub-step of the battle turn: the creature at index `ai` of
`attacker` attacks the creature at index `di` of `defender`; `defended`
records whether the defender chose DEFEND this turn.  Mirrors the
short-circuit evaluation of the Python `and` chain.  Returns the updated
defender team. -/
def attackStep (attacker : Agent) (ai : Int) (defender : Agent) (di : Int)
    (fieldtype : String) (u : ℚ) (defended : Bool) : Option (List Pokemon) := do
  let ap ← pyIdx attacker.team ai
  if ap.alive then do
    let dp ← pyIdx defender.team di
    if dp.alive then
      let dmg := computedamage ap dp fieldtype u
      let dmg := if defended then pytrunc ((dmg : ℚ) * (1/2)) else dmg
      pySet defender.team di (fun q => q.takedamage dmg)
    else pure defender.team
  else pure defender.team

/-- The post-attack faint advance: if the creature at the active index is no
longer alive, move to the first living creature in roster order (unchanged
if none is living). -/
def advanceIdx (team : List Pokemon) (idx : Int) : Option Int := do
  let p ← pyIdx team idx
  if !p.alive then
    match team.findIdx? (fun q => q.alive) with
    | some i => pure (i : Int)
    | none => pure idx
  else pure idx

/-- `stepbattle_simulation(ash, rocket, bs, ashact, rocketact)`, with the two
per-attack `random.uniform(0.8, 1.2)` draws passed as `u1` (Ash's attack)
and `u2` (Team Rocket's attack).  Returns the updated agents and battle
state; `none` models an uncaught exception. -/
def stepbattle_simulation (ash rocket : Agent) (bs : BattleState)
    (ashact rocketact : BattleAction) (u1 u2 : ℚ) :
    Option (Agent × Agent × BattleState) := do
  let (ash, ashidx) ← applyAct ash ashact bs.ashactive
  let (rocket, rocidx) ← applyAct rocket rocketact bs.rocketactive
  let ashdef := ashact.kind == BActEnum.DEFEND
  let rocdef := rocketact.kind == BActEnum.DEFEND
  let rocketTeam ← (if ashact.kind == BActEnum.ATTACK then
      attackStep ash ashidx rocket rocidx bs.fieldtype u1 rocdef
    else pure rocket.team)
  let rocket := { rocket with team := rocketTeam }
  let ashTeam ← (if rocketact.kind == BActEnum.ATTACK then
      attackStep rocket rocidx ash ashidx bs.fieldtype u2 ashdef
    else pure ash.team)
  let ash := { ash with team := ashTeam }
  let ashidx' ← advanceIdx ash.team ashidx
  let rocidx' ← advanceIdx rocket.team rocidx
  pure (ash, rocket,
    { fieldtype := bs.fieldtype, ashactive := ashidx', rocketactive := rocidx' })

/-! ## Claim C9 : defensive handling of illegal actions -/

/-- **C9 (counterexample).** The transition function does *not* always
complete without error on a malformed HEAL: a HEAL naming a tier that the
agent owns with positive count (here `"Bogus" ↦ 1`) but that is missing from
the `ELIXIRS` table hits `ELIXIRS[act.arg]` and raises KeyError
(modelled as `none`). -/
theorem C9_illegal_action_cex :
    stepbattle_simulation
      { name := "A", team := [{ name := "P", ptype := "Fire" }],
        elixirs := [("Bogus", 1)] }
      { name := "R", team := [{ name := "Q", ptype := "Fire" }] }
      { fieldtype := "Water" }
      { kind := BActEnum.HEAL, arg := some (Sum.inr "Bogus") }
      { kind := BActEnum.DEFEND } 1 1 = none := by
  decide

/-- **C9 (amended).** A SWAP whose argument is not an in-range index of a
living creature (out-of-range, dead target, non-integer, or missing
argument) leaves the agent and the active index unchanged, and a HEAL whose
argument is not a tier name with positive owned count (count ≤ 0 under the
dict-get default — which covers unknown tiers the agent does not own — or a
non-string/missing argument) leaves the agent (hence every creature's hp and
every elixir count) unchanged; all these sub-actions complete without
error.  A HEAL naming an *owned* tier absent from the `ELIXIRS` table,
however, raises KeyError (see the counterexample). -/
theorem C9_illegal_action_noop (agent : Agent) (idx j : Int) (s : String)
    (hswap : ¬(0 ≤ j ∧ j < agent.team.length ∧
      ((agent.team.get? j.toNat).map Pokemon.alive).getD false = true))
    (hheal : (agent.elixirs.lookup s).getD 0 ≤ 0) :
    applyAct agent { kind := BActEnum.SWAP, arg := some (Sum.inl j) } idx
        = some (agent, idx) ∧
      applyAct agent { kind := BActEnum.SWAP, arg := some (Sum.inr s) } idx
        = some (agent, idx) ∧
      applyAct agent { kind := BActEnum.SWAP, arg := none } idx
        = some (agent, idx) ∧
      applyAct agent { kind := BActEnum.HEAL, arg := some (Sum.inr s) } idx
        = some (agent, idx) ∧
      applyAct agent { kind := BActEnum.HEAL, arg := some (Sum.inl j) } idx
        = some (agent, idx) ∧
      applyAct agent { kind := BActEnum.HEAL, arg := none } idx
        = some (agent, idx) := by
  refine ⟨?_, rfl, rfl, ?_, rfl, rfl⟩
  · simp only [applyAct]
    rw [if_neg hswap]
  · simp only [applyAct]
    rw [if_neg (not_lt.mpr hheal)]

/-- `pyround` of an integer is that integer. -/
theorem pyround_int (n : Int) : pyround ((n : ℚ)) = n := by
  unfold pyround
  norm_num

/-- `computedamage` with no type advantage, no field boost and random
multiplier 1 is just the base damage. -/
theorem computedamage_plain {a d : Pokemon} {ft : String}
    (hadv : TYPEADV.lookup (a.ptype, d.ptype) = none) (hft : ¬a.ptype = ft) :
    computedamage a d ft 1 = max 5 (a.atk - Int.fdiv d.dfn 2) := by
  unfold computedamage
  rw [hadv]
  simp only [if_neg hft]
  have h1 : ((max 5 (a.atk - Int.fdiv d.dfn 2) : Int) : ℚ) * (1 * 1) =
      ((max 5 (a.atk - Int.fdiv d.dfn 2) : Int) : ℚ) := by ring
  rw [h1, pyround_int]

/-! ## Claim C8 : faint advance of the active index -/

/-- Characterization of `stepbattle_simulation` in terms of its sub-steps. -/
theorem stepbattle_eq {ash rocket : Agent} {bs : BattleState}
    {ashact rocketact : BattleAction} {u1 u2 : ℚ}
    {a1 r1 : Agent} {ai ri : Int} {rt at' : List Pokemon} {ai' ri' : Int}
    (hA : applyAct ash ashact bs.ashactive = some (a1, ai))
    (hR : applyAct rocket rocketact bs.rocketactive = some (r1, ri))
    (hRT : (if ashact.kind == BActEnum.ATTACK then
        attackStep a1 ai r1 ri bs.fieldtype u1 (rocketact.kind == BActEnum.DEFEND)
      else pure r1.team) = some rt)
    (hAT : (if rocketact.kind == BActEnum.ATTACK then
        attackStep { r1 with team := rt } ri a1 ai bs.fieldtype u2
          (ashact.kind == BActEnum.DEFEND)
      else pure a1.team) = some at')
    (hAI : advanceIdx at' ai = some ai')
    (hRI : advanceIdx rt ri = some ri') :
    stepbattle_simulation ash rocket bs ashact rocketact u1 u2 =
      some ({ a1 with team := at' }, { r1 with team := rt },
        { fieldtype := bs.fieldtype, ashactive := ai', rocketactive := ri' }) := by
  simp only [Option.pure_def] at hRT hAT
  simp only [stepbattle_simulation, hA, hR, Option.bind_eq_bind, Option.some_bind,
    Option.pure_def, hRT, hAT, hAI, hRI]

/-- Inversion: a successful `stepbattle_simulation` ends with the faint
advance applied to the final teams. -/
theorem stepbattle_some_inv {ash rocket : Agent} {bs : BattleState}
    {ashact rocketact : BattleAction} {u1 u2 : ℚ}
    {aF rF : Agent} {bsF : BattleState} {a1 r1 : Agent} {ai ri : Int}
    (hA : applyAct ash ashact bs.ashactive = some (a1, ai))
    (hR : applyAct rocket rocketact bs.rocketactive = some (r1, ri))
    (hstep : stepbattle_simulation ash rocket bs ashact rocketact u1 u2
      = some (aF, rF, bsF)) :
    advanceIdx aF.team ai = some bsF.ashactive ∧
      advanceIdx rF.team ri = some bsF.rocketactive := by
  simp only [stepbattle_simulation, hA, hR, Option.bind_eq_bind, Option.some_bind] at hstep
  obtain ⟨rt, hrt, hstep⟩ := Option.bind_eq_some.mp hstep
  obtain ⟨at', hat, hstep⟩ := Option.bind_eq_some.mp hstep
  obtain ⟨ai', hai, hstep⟩ := Option.bind_eq_some.mp hstep
  obtain ⟨ri', hri, hstep⟩ := Option.bind_eq_some.mp hstep
  simp only [pure, Option.some.injEq, Prod.mk.injEq] at hstep
  obtain ⟨ha, hr, hbs⟩ := hstep
  subst ha hr hbs
  exact ⟨hai, hri⟩

/-- What the faint advance does, in terms of "smallest living index". -/
theorem advanceIdx_spec {team : List Pokemon} {idx idx' : Int} {pd : Pokemon}
    (h : advanceIdx team idx = some idx') (hpd : pyIdx team idx = some pd) :
    (pd.alive = true → idx' = idx) ∧
      (pd.alive = false →
        ((∃ p ∈ team, p.alive = true) →
          ∃ k : Nat, idx' = (k : Int) ∧
            (∃ q, team.get? k = some q ∧ q.alive = true) ∧
            (∀ m < k, ∀ q, team.get? m = some q → q.alive = false)) ∧
        ((∀ p ∈ team, p.alive = false) → idx' = idx)) := by
  simp only [advanceIdx, hpd, Option.bind_eq_bind, Option.some_bind] at h
  constructor
  · intro halive
    simp only [halive, Bool.not_true, Bool.false_eq_true, if_false] at h
    simpa [pure] using h.symm
  · intro hdead
    simp only [hdead, Bool.not_false, if_true] at h
    cases hfi : team.findIdx? (fun q => q.alive) with
    | some i =>
      rw [hfi] at h
      simp only [pure, Option.some.injEq] at h
      obtain ⟨hi, hpi, hmin⟩ := List.findIdx?_eq_some_iff_getElem.mp hfi
      constructor
      · intro _
        refine ⟨i, h.symm, ⟨team.get ⟨i, hi⟩, ?_, ?_⟩, ?_⟩
        · exact (List.get?_eq_get hi)
        · simpa using hpi
        · intro m hm q hq
          have hml : m < team.length := lt_trans hm hi
          have := hmin m hm
          rw [List.get?_eq_get hml] at hq
          cases hq
          simpa using this
      · intro hall
        have : (team.get ⟨i, hi⟩).alive = false := hall _ (team.get_mem _ _)
        rw [show team.get ⟨i, hi⟩ = team[i] from rfl] at this
        rw [this] at hpi
        cases hpi
    | none =>
      rw [hfi] at h
      simp only [pure, Option.some.injEq] at h
      have hall := List.findIdx?_eq_none_iff.mp hfi
      constructor
      · intro ⟨p, hp, halive⟩
        have := hall p hp
        rw [halive] at this
        cases this
      · intro _
        exact h.symm

/-- Evaluation rule for `attackStep` when both creatures are alive. -/
theorem attackStep_eval {attacker : Agent} {ai : Int} {defender : Agent} {di : Int}
    {ft : String} {u : ℚ} {defended : Bool} {ap dp : Pokemon} {dmg : Int}
    {team' : List Pokemon}
    (hap : pyIdx attacker.team ai = some ap) (hapAlive : ap.alive = true)
    (hdp : pyIdx defender.team di = some dp) (hdpAlive : dp.alive = true)
    (hdmg : (if defended then pytrunc ((computedamage ap dp ft u : ℚ) * (1/2))
      else computedamage ap dp ft u) = dmg)
    (hset : pySet defender.team di (fun q => q.takedamage dmg) = some team') :
    attackStep attacker ai defender di ft u defended = some team' := by
  simp only [attackStep, hap, hdp, Option.bind_eq_bind, Option.some_bind, hapAlive,
    hdpAlive, if_true]
  rw [hdmg]
  exact hset

/-- Concrete creatures and agents for the C8 counterexample. -/
def c8D : Pokemon := { name := "D", ptype := "Fire", hp := 0, alive := false }
def c8L : Pokemon := { name := "L", ptype := "Fire", hp := 5, dfn := 0 }
def c8S : Pokemon := { name := "S", ptype := "Fire", atk := 20 }
def c8Ash : Agent := { name := "Ash", team := [c8D, c8L] }
def c8R : Agent := { name := "R", team := [c8S] }

/-- **C8 (counterexample).** "If no creature on the roster is alive, the
active index is left unchanged" fails when the pre-call index differs from
the index installed by a successful SWAP in the same call: Ash's roster is
[dead, alive(hp 5)] with active index 0; Ash swaps to index 1 and Team
Rocket's attack kills creature 1.  Afterwards no Ash creature is alive, yet
the active index has changed from 0 to 1. -/
theorem C8_faint_advance_cex :
    ((stepbattle_simulation c8Ash c8R { fieldtype := "Water" }
        { kind := BActEnum.SWAP, arg := some (Sum.inl 1) }
        { kind := BActEnum.ATTACK } 1 1).map
      (fun r => (r.2.2.ashactive, r.1.team.all (fun p => !p.alive)))) =
      some (1, true) := by
  have hc : computedamage c8S c8L "Water" 1 = 20 := by
    rw [computedamage_plain (by decide) (by decide)]
    decide
  have hAT : attackStep c8R 0 c8Ash 1 "Water" 1 false =
      some [c8D, c8L.takedamage 20] :=
    attackStep_eval rfl rfl rfl rfl (by simpa using hc) rfl
  have hstep := stepbattle_eq
    (rfl : applyAct c8Ash { kind := BActEnum.SWAP, arg := some (Sum.inl 1) }
      (({ fieldtype := "Water" } : BattleState).ashactive) = some (c8Ash, 1))
    (rfl : applyAct c8R { kind := BActEnum.ATTACK }
      (({ fieldtype := "Water" } : BattleState).rocketactive) = some (c8R, 0))
    (rfl : (if ({ kind := BActEnum.SWAP, arg := some (Sum.inl 1) }
          : BattleAction).kind == BActEnum.ATTACK then
        attackStep c8Ash 1 c8R 0 (({ fieldtype := "Water" } : BattleState).fieldtype) 1
          (({ kind := BActEnum.ATTACK } : BattleAction).kind == BActEnum.DEFEND)
      else pure c8R.team) = some c8R.team)
    (show (if ({ kind := BActEnum.ATTACK } : BattleAction).kind == BActEnum.ATTACK then
        attackStep { c8R with team := c8R.team } 0 c8Ash 1
          (({ fieldtype := "Water" } : BattleState).fieldtype) 1
          (({ kind := BActEnum.SWAP, arg := some (Sum.inl 1) }
            : BattleAction).kind == BActEnum.DEFEND)
      else pure c8Ash.team) = some [c8D, c8L.takedamage 20] from hAT)
    (rfl : advanceIdx [c8D, c8L.takedamage 20] 1 = some 1)
    (rfl : advanceIdx c8R.team 0 = some 0)
  rw [hstep]
  decide

/-- **C8 (amended).** After every successful call to the transition
function, for each side, relative to the active index `ai`/`ri` selected by
that side's swap sub-action (which is the pre-call index unless a successful
SWAP changed it): if the creature at that index is not alive and at least
one roster creature is alive, the final active index is the smallest roster
index holding a living creature; if the creature at that index is alive, or
no roster creature is alive, the final active index equals that post-swap
index (not necessarily the pre-call one). -/
theorem C8_faint_advance {ash rocket : Agent} {bs : BattleState}
    {ashact rocketact : BattleAction} {u1 u2 : ℚ}
    {aF rF : Agent} {bsF : BattleState} {a1 r1 : Agent} {ai ri : Int}
    (hA : applyAct ash ashact bs.ashactive = some (a1, ai))
    (hR : applyAct rocket rocketact bs.rocketactive = some (r1, ri))
    (hstep : stepbattle_simulation ash rocket bs ashact rocketact u1 u2
      = some (aF, rF, bsF)) :
    (∀ pd, pyIdx aF.team ai = some pd →
      (pd.alive = true → bsF.ashactive = ai) ∧
      (pd.alive = false →
        ((∃ p ∈ aF.team, p.alive = true) →
          ∃ k : Nat, bsF.ashactive = (k : Int) ∧
            (∃ q, aF.team.get? k = some q ∧ q.alive = true) ∧
            (∀ m < k, ∀ q, aF.team.get? m = some q → q.alive = false)) ∧
        ((∀ p ∈ aF.team, p.alive = false) → bsF.ashactive = ai))) ∧
    (∀ pd, pyIdx rF.team ri = some pd →
      (pd.alive = true → bsF.rocketactive = ri) ∧
      (pd.alive = false →
        ((∃ p ∈ rF.team, p.alive = true) →
          ∃ k : Nat, bsF.rocketactive = (k : Int) ∧
            (∃ q, rF.team.get? k = some q ∧ q.alive = true) ∧
            (∀ m < k, ∀ q, rF.team.get? m = some q → q.alive = false)) ∧
        ((∀ p ∈ rF.team, p.alive = false) → bsF.rocketactive = ri))) := by
  obtain ⟨hadvA, hadvR⟩ := stepbattle_some_inv hA hR hstep
  constructor
  · intro pd hpd
    exact advanceIdx_spec hadvA hpd
  · intro pd hpd
    exact advanceIdx_spec hadvR hpd

/-- Concrete agents for the C8 witness (the spec scenario: active index on a
fainted creature, one living bench creature). -/
def c8wAsh : Agent :=
  { name := "Ash", team := [{ name := "D", ptype := "Fire", hp := 0, alive := false },
      { name := "L", ptype := "Fire" }] }

def c8wR : Agent := { name := "R", team := [{ name := "S", ptype := "Fire" }] }

/-- Witness for `C8_faint_advance`: the spec's scenario — a side with roster
[dead, alive] whose active index points at the fainted creature; after a
DEFEND/DEFEND transition call, the final index (1) is the smallest living
index. -/
def c8pd : Pokemon := { name := "D", ptype := "Fire", hp := 0, alive := false }

theorem C8_faint_advance_witness :
    (c8pd.alive = true → (1 : Int) = 0) ∧
      (c8pd.alive = false →
        ((∃ p ∈ c8wAsh.team, p.alive = true) →
          ∃ k : Nat, (1 : Int) = (k : Int) ∧
            (∃ q, c8wAsh.team.get? k = some q ∧ q.alive = true) ∧
            (∀ m < k, ∀ q, c8wAsh.team.get? m = some q → q.alive = false)) ∧
        ((∀ p ∈ c8wAsh.team, p.alive = false) → (1 : Int) = 0)) := by
  have h := C8_faint_advance
    (rfl : applyAct c8wAsh { kind := BActEnum.DEFEND }
      (({ fieldtype := "Water" } : BattleState).ashactive) = some (c8wAsh, 0))
    (rfl : applyAct c8wR { kind := BActEnum.DEFEND }
      (({ fieldtype := "Water" } : BattleState).rocketactive) = some (c8wR, 0))
    (rfl : stepbattle_simulation c8wAsh c8wR { fieldtype := "Water" }
      { kind := BActEnum.DEFEND } { kind := BActEnum.DEFEND } 1 1 =
      some ({ c8wAsh with team := c8wAsh.team }, { c8wR with team := c8wR.team },
        { fieldtype := "Water", ashactive := 1, rocketactive := 0 }))
  exact h.1 c8pd (by decide)

/-! ## Claim C5 : Defend halves the final rounded damage -/

theorem pyIdx_nonneg {l : List α} {i : Int} (h : 0 ≤ i) : pyIdx l i = l.get? i.toNat := by
  simp [pyIdx, h]

theorem pyIdx_some_lt {l : List α} {i : Int} {a : α} (h0 : 0 ≤ i)
    (h : pyIdx l i = some a) : i.toNat < l.length ∧ l.get? i.toNat = some a := by
  rw [pyIdx_nonneg h0] at h
  refine ⟨?_, h⟩
  by_contra hlen
  rw [List.get?_eq_none.mpr (le_of_not_lt hlen)] at h
  cases h

theorem pySet_valid {l : List α} {i : Int} {a : α} (h0 : 0 ≤ i)
    (h : pyIdx l i = some a) (f : α → α) :
    pySet l i f = some (l.set i.toNat (f a)) := by
  unfold pySet
  rw [h]
  simp [h0]

theorem pyIdx_set_self {l : List α} {i : Int} {b : α} (h0 : 0 ≤ i)
    (h : i.toNat < l.length) : pyIdx (l.set i.toNat b) i = some b := by
  rw [pyIdx_nonneg h0, List.get?_eq_getElem?]
  exact List.getElem?_set_self (by simpa using h)

theorem advanceIdx_alive {team : List Pokemon} {idx : Int} {p : Pokemon}
    (h : pyIdx team idx = some p) (halive : p.alive = true) :
    advanceIdx team idx = some idx := by
  simp [advanceIdx, h, Option.bind_eq_bind, Option.some_bind, halive]

theorem advanceIdx_some {team : List Pokemon} {idx : Int} {p : Pokemon}
    (h : pyIdx team idx = some p) : ∃ v, advanceIdx team idx = some v := by
  simp only [advanceIdx, h, Option.bind_eq_bind, Option.some_bind]
  by_cases ha : p.alive
  · exact ⟨idx, by simp [ha]⟩
  · rw [Bool.not_eq_true] at ha
    simp only [ha, Bool.not_false, if_true]
    cases hf : team.findIdx? (fun q => q.alive) with
    | some i => exact ⟨(i : Int), rfl⟩
    | none => exact ⟨idx, rfl⟩

/-- A live creature taking survivable nonnegative damage stays alive and
loses exactly that many hit points. -/
theorem takedamage_live {p : Pokemon} {d : Int} (halive : p.alive = true)
    (h0 : 0 ≤ d) (hlt : d < p.hp) :
    (p.takedamage d).alive = true ∧ (p.takedamage d).hp = p.hp - d := by
  unfold Pokemon.takedamage
  have hmax : max 0 (p.hp - d) = p.hp - d := by omega
  have hne : ¬(p.hp - d = 0) := by omega
  simp [halive, hmax, hne]

theorem pytrunc_nonneg {q : ℚ} (h : 0 ≤ q) : 0 ≤ pytrunc q := by
  unfold pytrunc
  rw [if_neg (not_lt.mpr h)]
  exact Int.le_floor.mpr (by exact_mod_cast h)

theorem pytrunc_half_le {d : Int} (h : 0 ≤ d) : pytrunc ((d : ℚ) * (1/2)) ≤ d := by
  have hd : (0:ℚ) ≤ (d:ℚ) := by exact_mod_cast h
  have h2 : (0:ℚ) ≤ (d:ℚ) * (1/2) := by linarith
  unfold pytrunc
  rw [if_neg (not_lt.mpr h2)]
  calc ⌊(d:ℚ) * (1/2)⌋ ≤ ⌊(d:ℚ)⌋ := Int.floor_le_floor (by linarith)
    _ = d := Int.floor_intCast d

/-- **C5 (amended).** In a turn where Ash attacks, comparing the defender's
(Team Rocket's) active creature across the Defend turn and the otherwise
identical Attack turn with the same random draw for Ash's attack: the Defend
turn applies `int(d * 0.5)` — half of the final rounded damage `d`,
truncated toward zero — where `d` is the damage the non-defending turn
applies.  (For odd `d` this is `(d-1)/2`, not exactly half.) -/
theorem C5_defend_halves (ash rocket : Agent) (bs : BattleState) (u1 u2 u2' : ℚ)
    {ap dp : Pokemon}
    (hai0 : 0 ≤ bs.ashactive) (hri0 : 0 ≤ bs.rocketactive)
    (hap : pyIdx ash.team bs.ashactive = some ap) (hapAlive : ap.alive = true)
    (hdp : pyIdx rocket.team bs.rocketactive = some dp) (hdpAlive : dp.alive = true)
    (hd0 : 0 ≤ computedamage ap dp bs.fieldtype u1)
    (hdlt : computedamage ap dp bs.fieldtype u1 < dp.hp) :
    ((stepbattle_simulation ash rocket bs { kind := BActEnum.ATTACK }
        { kind := BActEnum.DEFEND } u1 u2).bind
      (fun r => pyIdx r.2.1.team bs.rocketactive)) =
      some (dp.takedamage
        (pytrunc ((computedamage ap dp bs.fieldtype u1 : ℚ) * (1/2)))) ∧
    ((stepbattle_simulation ash rocket bs { kind := BActEnum.ATTACK }
        { kind := BActEnum.ATTACK } u1 u2').bind
      (fun r => pyIdx r.2.1.team bs.rocketactive)) =
      some (dp.takedamage (computedamage ap dp bs.fieldtype u1)) ∧
    dp.hp - (dp.takedamage
        (pytrunc ((computedamage ap dp bs.fieldtype u1 : ℚ) * (1/2)))).hp =
      pytrunc (((dp.hp -
        (dp.takedamage (computedamage ap dp bs.fieldtype u1)).hp : Int) : ℚ) * (1/2)) := by
  set d := computedamage ap dp bs.fieldtype u1 with hd
  have hdh0 : 0 ≤ pytrunc ((d : ℚ) * (1/2)) :=
    pytrunc_nonneg (by positivity)
  have hdhlt : pytrunc ((d : ℚ) * (1/2)) < dp.hp :=
    lt_of_le_of_lt (pytrunc_half_le hd0) hdlt
  obtain ⟨hriLt, _⟩ := pyIdx_some_lt hri0 hdp
  obtain ⟨haiLt, _⟩ := pyIdx_some_lt hai0 hap
  have hliveD := takedamage_live hdpAlive hdh0 hdhlt
  have hliveN := takedamage_live hdpAlive hd0 hdlt
  set rteamD := rocket.team.set bs.rocketactive.toNat
    (dp.takedamage (pytrunc ((d : ℚ) * (1/2)))) with hrteamD
  -- the Defend run
  have hRTD : attackStep ash bs.ashactive rocket bs.rocketactive bs.fieldtype u1 true =
      some rteamD :=
    attackStep_eval hap hapAlive hdp hdpAlive (by rw [if_pos rfl, ← hd]) (pySet_valid hri0 hdp _)
  have hATD : (if ({ kind := BActEnum.DEFEND } : BattleAction).kind == BActEnum.ATTACK then
      attackStep { rocket with team := rteamD } bs.rocketactive ash bs.ashactive
        bs.fieldtype u2 (({ kind := BActEnum.ATTACK } : BattleAction).kind == BActEnum.DEFEND)
    else pure ash.team) = some ash.team := rfl
  have hstepD := stepbattle_eq
    (rfl : applyAct ash { kind := BActEnum.ATTACK } bs.ashactive = some (ash, bs.ashactive))
    (rfl : applyAct rocket { kind := BActEnum.DEFEND } bs.rocketactive
      = some (rocket, bs.rocketactive))
    (by simpa using hRTD)
    hATD
    (advanceIdx_alive hap hapAlive)
    (advanceIdx_alive (by rw [hrteamD]; exact pyIdx_set_self hri0 hriLt) hliveD.1)
  -- the non-Defend run
  have hRTN : attackStep ash bs.ashactive rocket bs.rocketactive bs.fieldtype u1 false =
      some (rocket.team.set bs.rocketactive.toNat (dp.takedamage d)) :=
    attackStep_eval hap hapAlive hdp hdpAlive (by rw [if_neg (by simp), ← hd])
      (pySet_valid hri0 hdp _)
  have hATN : attackStep
      { rocket with team := rocket.team.set bs.rocketactive.toNat (dp.takedamage d) }
      bs.rocketactive ash bs.ashactive bs.fieldtype u2' false =
      some (ash.team.set bs.ashactive.toNat
        (ap.takedamage (computedamage (dp.takedamage d) ap bs.fieldtype u2'))) := by
    refine attackStep_eval ?_ hliveN.1 hap hapAlive
      (by rw [if_neg (by simp)]) (pySet_valid hai0 hap _)
    show pyIdx (rocket.team.set bs.rocketactive.toNat (dp.takedamage d)) bs.rocketactive
      = some (dp.takedamage d)
    exact pyIdx_set_self hri0 hriLt
  obtain ⟨aiN, haiN⟩ := advanceIdx_some
    (pyIdx_set_self (b := ap.takedamage (computedamage (dp.takedamage d) ap bs.fieldtype u2'))
      hai0 haiLt)
  have hstepN := stepbattle_eq
    (rfl : applyAct ash { kind := BActEnum.ATTACK } bs.ashactive = some (ash, bs.ashactive))
    (rfl : applyAct rocket { kind := BActEnum.ATTACK } bs.rocketactive
      = some (rocket, bs.rocketactive))
    (hRTN) (hATN) (haiN)
    (advanceIdx_alive (pyIdx_set_self hri0 hriLt) hliveN.1)
  refine ⟨?_, ?_, ?_⟩
  · rw [hstepD]
    simp only [Option.bind_eq_bind, Option.some_bind]
    exact pyIdx_set_self hri0 hriLt
  · rw [hstepN]
    simp only [Option.bind_eq_bind, Option.some_bind]
    exact pyIdx_set_self hri0 hriLt
  · rw [hliveD.2, hliveN.2]
    have h3 : dp.hp - (dp.hp - d) = d := by omega
    rw [h3]
    omega

/-- Concrete creatures and agents for the C5 counterexample and witness. -/
def c5AP : Pokemon := { name := "AP", ptype := "Fire", atk := 23 }

def c5RP : Pokemon := { name := "RP", ptype := "Fire", dfn := 20 }

def c5A : Agent := { name := "A", team := [c5AP] }

def c5R : Agent := { name := "R", team := [c5RP] }

/-- **C5 (counterexample).** The final rounded damage of the non-defending
turn is 13 (odd), and the Defend turn applies `int(13 * 0.5) = 6`, which is
*not* half of 13: the hp decrease is 6 versus 13, and `6 ≠ 13/2`. -/
theorem C5_defend_halves_cex :
    ((stepbattle_simulation c5A c5R { fieldtype := "Water" } { kind := BActEnum.ATTACK }
        { kind := BActEnum.DEFEND } 1 1).map (fun r => r.2.1.team.map Pokemon.hp))
      = some [94] ∧
    ((stepbattle_simulation c5A c5R { fieldtype := "Water" } { kind := BActEnum.ATTACK }
        { kind := BActEnum.ATTACK } 1 1).map (fun r => r.2.1.team.map Pokemon.hp))
      = some [87] ∧
    ¬(((100 - 94 : Int) : ℚ) = ((100 - 87 : Int) : ℚ) / 2) := by
  have hc1 : computedamage c5AP c5RP "Water" 1 = 13 := by
    rw [computedamage_plain (by decide) (by decide)]
    decide
  have hc2 : computedamage (c5RP.takedamage 13) c5AP "Water" 1 = 17 := by
    rw [computedamage_plain (by decide) (by decide)]
    decide
  have hRTD : attackStep c5A 0 c5R 0 "Water" 1 true = some [c5RP.takedamage 6] :=
    attackStep_eval rfl rfl rfl rfl
      (by rw [if_pos rfl, hc1]; norm_num [pytrunc]) rfl
  have hstepD := stepbattle_eq
    (rfl : applyAct c5A { kind := BActEnum.ATTACK }
      (({ fieldtype := "Water" } : BattleState).ashactive) = some (c5A, 0))
    (rfl : applyAct c5R { kind := BActEnum.DEFEND }
      (({ fieldtype := "Water" } : BattleState).rocketactive) = some (c5R, 0))
    (show _ = some [c5RP.takedamage 6] from hRTD)
    (rfl : (if ({ kind := BActEnum.DEFEND } : BattleAction).kind == BActEnum.ATTACK then
        attackStep { c5R with team := [c5RP.takedamage 6] } 0 c5A 0
          (({ fieldtype := "Water" } : BattleState).fieldtype) 1
          (({ kind := BActEnum.ATTACK } : BattleAction).kind == BActEnum.DEFEND)
      else pure c5A.team) = some c5A.team)
    (rfl : advanceIdx c5A.team 0 = some 0)
    (rfl : advanceIdx [c5RP.takedamage 6] 0 = some 0)
  have hRTN : attackStep c5A 0 c5R 0 "Water" 1 false = some [c5RP.takedamage 13] :=
    attackStep_eval rfl rfl rfl rfl
      (by rw [if_neg (by simp)]; exact hc1) rfl
  have hATN : attackStep { c5R with team := [c5RP.takedamage 13] } 0 c5A 0 "Water" 1 false =
      some [c5AP.takedamage 17] :=
    attackStep_eval rfl rfl rfl rfl
      (by rw [if_neg (by simp)]; exact hc2) rfl
  have hstepN := stepbattle_eq
    (rfl : applyAct c5A { kind := BActEnum.ATTACK }
      (({ fieldtype := "Water" } : BattleState).ashactive) = some (c5A, 0))
    (rfl : applyAct c5R { kind := BActEnum.ATTACK }
      (({ fieldtype := "Water" } : BattleState).rocketactive) = some (c5R, 0))
    (show _ = some [c5RP.takedamage 13] from hRTN)
    (show _ = some [c5AP.takedamage 17] from hATN)
    (rfl : advanceIdx [c5AP.takedamage 17] 0 = some 0)
    (rfl : advanceIdx [c5RP.takedamage 13] 0 = some 0)
  refine ⟨?_, ?_, ?_⟩
  · rw [hstepD]
    decide
  · rw [hstepN]
    decide
  · norm_num

/-- Witness for `C5_defend_halves` at a concrete input (damage 13,
halved-truncated to 6). -/
theorem C5_defend_halves_witness :
    ((stepbattle_simulation c5A c5R { fieldtype := "Water" } { kind := BActEnum.ATTACK }
        { kind := BActEnum.DEFEND } 1 1).bind
      (fun r => pyIdx r.2.1.team (0 : Int))) =
      some (c5RP.takedamage
        (pytrunc ((computedamage c5AP c5RP "Water" 1 : ℚ) * (1/2)))) ∧
    ((stepbattle_simulation c5A c5R { fieldtype := "Water" } { kind := BActEnum.ATTACK }
        { kind := BActEnum.ATTACK } 1 1).bind
      (fun r => pyIdx r.2.1.team (0 : Int))) =
      some (c5RP.takedamage (computedamage c5AP c5RP "Water" 1)) ∧
    c5RP.hp - (c5RP.takedamage
        (pytrunc ((computedamage c5AP c5RP "Water" 1 : ℚ) * (1/2)))).hp =
      pytrunc (((c5RP.hp -
        (c5RP.takedamage (computedamage c5AP c5RP "Water" 1)).hp : Int) : ℚ) * (1/2)) := by
  have h13 : computedamage c5AP c5RP "Water" 1 = 13 := by
    rw [computedamage_plain (by decide) (by decide)]
    decide
  exact C5_defend_halves c5A c5R { fieldtype := "Water" } 1 1 1 (by decide) (by decide)
    rfl rfl rfl rfl (by rw [h13]; decide) (by rw [h13]; decide)

/-! ## team_rocket_ai_agent.py : evaluation, legal actions, cloning -/

/-- Evaluate battle state — "PERFECTLY EQUAL for both agents". -/
def evalstate (ash : Agent) (rocket : Agent) (bs : BattleState) : Int :=
  let ashhp := (ash.team.map Pokemon.hp).sum
  let rockethp := (rocket.team.map Pokemon.hp).sum
  let ashalive : Int := (ash.team.filter (fun p => p.alive)).length
  let rocketalive : Int := (rocket.team.filter (fun p => p.alive)).length
  (ashhp - rockethp) + (ashalive - rocketalive) * 30

/-- Python true division; `none` models ZeroDivisionError. -/
def qdiv (a b : ℚ) : Option ℚ := if b = 0 then none else some (a / b)

def elixirHealAmt (s : String) : Option Int := (ELIXIRS.lookup s).map (fun x => x.1)

/-- `max(avail, key=lambda n: ELIXIRS[n][0])` on a nonempty tail, carrying the
current best (Python `max` keeps the first of equal maxima); `none` models
the KeyError raised when a tier is missing from `ELIXIRS`. -/
def pymaxElixirGo (best : String) (bestv : Int) : List String → Option String
  | [] => some best
  | k :: rest => do
    let v ← elixirHealAmt k
    if v > bestv then pymaxElixirGo k v rest else pymaxElixirGo best bestv rest

def pymaxElixir : List String → Option String
  | [] => none
  | k :: rest => do
    let v ← elixirHealAmt k
    pymaxElixirGo k v rest

/-- `legalactions(agent, activeidx, opppokemon)`: always [ATTACK, DEFEND],
plus at most one fuzzy-gated SWAP (first type-advantaged living bench
creature) and at most one fuzzy-gated HEAL (owned tier with the largest
heal amount).  `none` models an uncaught exception (IndexError on a bad
active index, ZeroDivisionError on `maxhp == 0`, KeyError on an owned
tier missing from `ELIXIRS`). -/
def legalactions (agent : Agent) (activeidx : Int) (opppokemon : Pokemon) :
    Option (List BattleAction) := do
  let acts0 : List BattleAction := [{ kind := BActEnum.ATTACK }, { kind := BActEnum.DEFEND }]
  let activepoke ← pyIdx agent.team activeidx
  let best_swap_idx : Option Int := (agent.team.enum.find? (fun ip =>
    (decide ((ip.1 : Int) ≠ activeidx)) && ip.2.alive &&
      (TYPEADV.lookup (ip.2.ptype, opppokemon.ptype)).isSome)).map (fun ip => (ip.1 : Int))
  let acts1 ← (match best_swap_idx with
    | none => pure acts0
    | some bi => do
      let hpq ← qdiv (activepoke.hp : ℚ) (activepoke.maxhp : ℚ)
      let swap_strength := should_swap activepoke.ptype opppokemon.ptype true (hpq * 100)
      if swap_strength > 1/2 then
        pure (acts0 ++ [{ kind := BActEnum.SWAP, arg := some (Sum.inl bi) }])
      else pure acts0)
  let has_elixir := agent.elixirs.any (fun kv => kv.2 > 0)
  if has_elixir = true ∧ activepoke.hp < activepoke.maxhp then do
    let hpq ← qdiv (activepoke.hp : ℚ) (activepoke.maxhp : ℚ)
    let ehpq ← qdiv (opppokemon.hp : ℚ) (opppokemon.maxhp : ℚ)
    let heal_strength := should_heal (hpq * 100) true (ehpq * 100)
    if heal_strength > 2/5 then
      let avail := (agent.elixirs.filter (fun kv => kv.2 > 0)).map (fun kv => kv.1)
      if avail.isEmpty then pure acts1
      else do
        let be ← pymaxElixir avail
        pure (acts1 ++ [{ kind := BActEnum.HEAL, arg := some (Sum.inr be) }])
    else pure acts1
  else pure acts1

/-- Deep clone agent for minimax simulation (`current_path`/`path_index`
fall back to the dataclass defaults, as in the source constructor call). -/
def cloneagent (a : Agent) : Agent :=
  { name := a.name,
    team := a.team.map (fun p =>
      { name := p.name, ptype := p.ptype, maxhp := p.maxhp, hp := p.hp,
        atk := p.atk, dfn := p.dfn, alive := p.alive }),
    coins := a.coins, fuel := a.fuel, elixirs := a.elixirs,
    position := a.position, targetpos := a.targetpos }

/-! ## Claim C7 : legalactions always offers ATTACK and DEFEND -/

/-- **C7 (counterexample).** `legalactions` does not always return: with a
type-advantaged living bench creature and an active creature whose
`maxhp = 0`, the hp-percentage division raises ZeroDivisionError. -/
theorem C7_attack_defend_cex :
    legalactions
      { name := "A", team := [{ name := "Z", ptype := "Fire", maxhp := 0, hp := 0 },
          { name := "W", ptype := "Water" }] } 0
      { name := "O", ptype := "Fire" } = none := by
  decide

/-- Every successful `legalactions` result extends `[ATTACK, DEFEND]`. -/
theorem legalactions_shape {agent : Agent} {activeidx : Int} {opp : Pokemon}
    {l : List BattleAction} (h : legalactions agent activeidx opp = some l) :
    ∃ rest, l = [{ kind := BActEnum.ATTACK }, { kind := BActEnum.DEFEND }] ++ rest := by
  simp only [legalactions, Option.bind_eq_bind] at h
  obtain ⟨ap, hap, h⟩ := Option.bind_eq_some.mp h
  obtain ⟨acts1, hacts1, h⟩ := Option.bind_eq_some.mp h
  have hshape1 : ∃ r1, acts1 =
      [{ kind := BActEnum.ATTACK }, { kind := BActEnum.DEFEND }] ++ r1 := by
    split at hacts1
    · exact ⟨[], by simpa [pure] using hacts1.symm⟩
    · obtain ⟨q, hq, hacts1⟩ := Option.bind_eq_some.mp hacts1
      split at hacts1
      · exact ⟨_, by simpa [pure] using hacts1.symm⟩
      · exact ⟨[], by simpa [pure] using hacts1.symm⟩
  obtain ⟨r1, hr1⟩ := hshape1
  subst hr1
  split at h
  · obtain ⟨q1, hq1, h⟩ := Option.bind_eq_some.mp h
    obtain ⟨q2, hq2, h⟩ := Option.bind_eq_some.mp h
    split at h
    · split at h
      · exact ⟨r1, by simpa [pure] using h.symm⟩
      · obtain ⟨be, hbe, h⟩ := Option.bind_eq_some.mp h
        refine ⟨r1 ++ [{ kind := BActEnum.HEAL, arg := some (Sum.inr be) }], ?_⟩
        simpa [pure, List.append_assoc] using h.symm
    · exact ⟨r1, by simpa [pure] using h.symm⟩
  · exact ⟨r1, by simpa [pure] using h.symm⟩

/-- **C7 (amended).** Whenever `legalactions` returns (it can raise on a
zero-`maxhp` creature or an owned elixir tier missing from `ELIXIRS` — see
the counterexample), the returned list is non-empty and contains an ATTACK
action and a DEFEND action, so a successful search node never has an empty
candidate set. -/
theorem C7_attack_defend (agent : Agent) (activeidx : Int) (opp : Pokemon)
    (l : List BattleAction) (h : legalactions agent activeidx opp = some l) :
    ({ kind := BActEnum.ATTACK } : BattleAction) ∈ l ∧
      ({ kind := BActEnum.DEFEND } : BattleAction) ∈ l ∧ l ≠ [] := by
  obtain ⟨rest, hr⟩ := legalactions_shape h
  subst hr
  refine ⟨by simp, by simp, by simp⟩

/-- Witness for `C7_attack_defend` at a concrete input. -/
theorem C7_attack_defend_witness :
    ({ kind := BActEnum.ATTACK } : BattleAction) ∈
        [({ kind := BActEnum.ATTACK } : BattleAction), { kind := BActEnum.DEFEND }] ∧
      ({ kind := BActEnum.DEFEND } : BattleAction) ∈
        [({ kind := BActEnum.ATTACK } : BattleAction), { kind := BActEnum.DEFEND }] ∧
      ([({ kind := BActEnum.ATTACK } : BattleAction), { kind := BActEnum.DEFEND }] :
        List BattleAction) ≠ [] :=
  C7_attack_defend { name := "A", team := [{ name := "P", ptype := "Fire" }] } 0
    { name := "O", ptype := "Water" } _ (by decide)

/-! ## team_rocket_ai_agent.py : minimax with alpha-beta pruning

The source draws from the process-global `random` stream (`random.shuffle`
on the candidate list, `random.uniform(0.8, 1.2)` inside each simulated
attack).  Claim C1 fixes "the ordering of candidate actions at every node"
and "the sequence of random damage multipliers", so both are modelled as
oracles indexed by the tree address of a node (the list of child indices
from the root): `OrdOracle` reorders a node's candidate list, `UOracle`
gives the two uniform draws consumed by the simulated turn on an edge. -/

def OrdOracle := List Nat → List BattleAction → List BattleAction

def UOracle := List Nat → ℚ × ℚ

/-- The float sentinels `-1e9` / `1e9` used for `bestval`, `alpha`, `beta`. -/
def SENT : Int := 1000000000

/-- The `for act in actions` loop of `recurse`, with the alpha-beta cutoff
`if beta <= alpha: break`.  `child k act alpha beta` evaluates the k-th
child with the current window. -/
def abLoop (child : Nat → BattleAction → Int → Int → Option Int) (maximizing : Bool) :
    List BattleAction → Nat → Int → Option BattleAction → Int → Int →
    Option (Int × Option BattleAction)
  | [], _, bestval, bestact, _, _ => some (bestval, bestact)
  | act :: rest, k, bestval, bestact, alpha, beta => do
    let val ← child k act alpha beta
    let bestval' := if maximizing then (if val > bestval then val else bestval)
      else (if val < bestval then val else bestval)
    let bestact' := if maximizing then (if val > bestval then some act else bestact)
      else (if val < bestval then some act else bestact)
    let alpha' := if maximizing then max alpha bestval' else alpha
    let beta' := if maximizing then beta else min beta bestval'
    if beta' ≤ alpha' then some (bestval', bestact')
    else abLoop child maximizing rest (k+1) bestval' bestact' alpha' beta'

/-- The same loop with the pruning break removed (pure minimax); the
alpha/beta updates are kept but no longer cut the iteration. -/
def abLoopNP (child : Nat → BattleAction → Int → Int → Option Int) (maximizing : Bool) :
    List BattleAction → Nat → Int → Option BattleAction → Int → Int →
    Option (Int × Option BattleAction)
  | [], _, bestval, bestact, _, _ => some (bestval, bestact)
  | act :: rest, k, bestval, bestact, alpha, beta => do
    let val ← child k act alpha beta
    let bestval' := if maximizing then (if val > bestval then val else bestval)
      else (if val < bestval then val else bestval)
    let bestact' := if maximizing then (if val > bestval then some act else bestact)
      else (if val < bestval then some act else bestact)
    let alpha' := if maximizing then max alpha bestval' else alpha
    let beta' := if maximizing then beta else min beta bestval'
    abLoopNP child maximizing rest (k+1) bestval' bestact' alpha' beta'

/-- The terminal evaluation of `recurse`: the score is always expressed from
the perspective of the side that invoked `decide_action`. -/
def leafScore (meisash : Bool) (a b : Agent) (s : BattleState) : Int :=
  let score := if meisash then evalstate a b s else evalstate b a s
  if meisash then score else -score

/-- The body of one search edge: clone both agents and the battle state,
pair the mover's action with a default opponent ATTACK, apply the simulated
transition, and recurse one ply down. -/
def searchChild (stepRec : List Nat → Agent → Agent → BattleState → Bool →
      Int → Int → Option (Int × Option BattleAction))
    (uo : UOracle) (path : List Nat) (a b : Agent) (s : BattleState)
    (maximizing : Bool) (k : Nat) (act : BattleAction) (alpha beta : Int) :
    Option Int := do
  let aclone := cloneagent a
  let bclone := cloneagent b
  let sclone : BattleState := ⟨s.fieldtype, s.ashactive, s.rocketactive⟩
  let oppact : BattleAction := { kind := BActEnum.ATTACK }
  let ashact := if maximizing then act else oppact
  let rocketact := if maximizing then oppact else act
  let u := uo (path ++ [k])
  let (a', b', s') ← stepbattle_simulation aclone bclone sclone ashact rocketact u.1 u.2
  let (val, _) ← stepRec (path ++ [k]) a' b' s' (!maximizing) alpha beta
  some val

/-- The inner `recurse` of `decide_action` (alpha-beta pruning enabled). -/
def recurse (meisash : Bool) (ord : OrdOracle) (uo : UOracle) :
    Nat → List Nat → Agent → Agent → BattleState → Bool → Int → Int →
    Option (Int × Option BattleAction)
  | 0, _, a, b, s, _, _, _ => some (leafScore meisash a b s, none)
  | ply+1, path, a, b, s, maximizing, alpha, beta =>
    if (a.team.all fun p => !p.alive) || (b.team.all fun p => !p.alive) then
      some (leafScore meisash a b s, none)
    else do
      let currentactiveidx := if maximizing then s.ashactive else s.rocketactive
      let oppactiveidx := if maximizing then s.rocketactive else s.ashactive
      let agentforactions := if maximizing then a else b
      let oppforactions := if maximizing then b else a
      let oppPoke ← pyIdx oppforactions.team oppactiveidx
      let actions0 ← legalactions agentforactions currentactiveidx oppPoke
      let actions := ord path actions0
      abLoop (searchChild (recurse meisash ord uo ply) uo path a b s maximizing)
        maximizing actions 0 (if maximizing then -SENT else SENT) none alpha beta

/-- The same recursion with pruning disabled (pure minimax over every
candidate).  Identical to `recurse` except that `abLoopNP` never breaks. -/
def recurse_noprune (meisash : Bool) (ord : OrdOracle) (uo : UOracle) :
    Nat → List Nat → Agent → Agent → BattleState → Bool → Int → Int →
    Option (Int × Option BattleAction)
  | 0, _, a, b, s, _, _, _ => some (leafScore meisash a b s, none)
  | ply+1, path, a, b, s, maximizing, alpha, beta =>
    if (a.team.all fun p => !p.alive) || (b.team.all fun p => !p.alive) then
      some (leafScore meisash a b s, none)
    else do
      let currentactiveidx := if maximizing then s.ashactive else s.rocketactive
      let oppactiveidx := if maximizing then s.rocketactive else s.ashactive
      let agentforactions := if maximizing then a else b
      let oppforactions := if maximizing then b else a
      let oppPoke ← pyIdx oppforactions.team oppactiveidx
      let actions0 ← legalactions agentforactions currentactiveidx oppPoke
      let actions := ord path actions0
      abLoopNP (searchChild (recurse_noprune meisash ord uo ply) uo path a b s maximizing)
        maximizing actions 0 (if maximizing then -SENT else SENT) none alpha beta

/-- `decide_action(me, opp, bs, meisash, depth)` (falls back to ATTACK when
the search returns no action). -/
def decide_action (me opp : Agent) (bs : BattleState) (meisash : Bool)
    (ord : OrdOracle) (uo : UOracle) (depth : Nat) : Option BattleAction := do
  let r ← recurse meisash ord uo depth []
    (if meisash then me else opp) (if meisash then opp else me) bs meisash (-SENT) SENT
  some (r.2.getD { kind := BActEnum.ATTACK })

/-! ### Game trees

The search explores a finitely-branching game tree determined by the state,
the oracles and the depth; pruning is analysed on that tree. -/

inductive GTree where
  | leaf (v : Int)
  | node (cs : List GTree)

mutual

/-- Minimax value of a tree, with the `±SENT` sentinels as the initial
`bestval` of each node's loop — exactly the value computed by the recursion
with pruning disabled. -/
def minimaxT : GTree → Bool → Int
  | .leaf v, _ => v
  | .node cs, maximizing => mmgo cs maximizing (if maximizing then -SENT else SENT)
termination_by t _ => sizeOf t

/-- The node loop of `minimaxT`. -/
def mmgo : List GTree → Bool → Int → Int
  | [], _, bv => bv
  | c :: rest, maximizing, bv =>
    mmgo rest maximizing (if maximizing then max bv (minimaxT c (!maximizing))
      else min bv (minimaxT c (!maximizing)))
termination_by l _ _ => sizeOf l

end

mutual

/-- Alpha-beta value of a tree (fail-soft, cutoff when `beta ≤ alpha`). -/
def alphabetaT : GTree → Bool → Int → Int → Int
  | .leaf v, _, _, _ => v
  | .node cs, maximizing, alpha, beta =>
    abTgo cs maximizing (if maximizing then -SENT else SENT) alpha beta
termination_by t _ _ _ => sizeOf t

/-- The node loop of `alphabetaT`. -/
def abTgo : List GTree → Bool → Int → Int → Int → Int
  | [], _, bv, _, _ => bv
  | c :: rest, maximizing, bv, alpha, beta =>
    let val := alphabetaT c (!maximizing) alpha beta
    let bv' := if maximizing then max bv val else min bv val
    let alpha' := if maximizing then max alpha bv' else alpha
    let beta' := if maximizing then beta else min beta bv'
    if beta' ≤ alpha' then bv'
    else abTgo rest maximizing bv' alpha' beta'
termination_by l _ _ _ _ => sizeOf l

end

/-! ### Pruning exactness on trees (fail-soft alpha-beta with sentinels) -/

theorem mmgo_nil (m : Bool) (bv : Int) : mmgo [] m bv = bv := by
  simp [mmgo]

theorem mmgo_cons (c : GTree) (rest : List GTree) (m : Bool) (bv : Int) :
    mmgo (c :: rest) m bv =
      mmgo rest m (if m then max bv (minimaxT c (!m)) else min bv (minimaxT c (!m))) := by
  rw [mmgo]

theorem minimaxT_node (cs : List GTree) (m : Bool) :
    minimaxT (.node cs) m = mmgo cs m (if m then -SENT else SENT) := by
  rw [minimaxT]

theorem minimaxT_leaf (v : Int) (m : Bool) : minimaxT (.leaf v) m = v := by
  rw [minimaxT]

theorem abTgo_nil (m : Bool) (bv alpha beta : Int) : abTgo [] m bv alpha beta = bv := by
  simp [abTgo]

theorem abTgo_cons (c : GTree) (rest : List GTree) (m : Bool) (bv alpha beta : Int) :
    abTgo (c :: rest) m bv alpha beta =
      (let val := alphabetaT c (!m) alpha beta
       let bv' := if m then max bv val else min bv val
       let alpha' := if m then max alpha bv' else alpha
       let beta' := if m then beta else min beta bv'
       if beta' ≤ alpha' then bv'
       else abTgo rest m bv' alpha' beta') := by
  rw [abTgo]

theorem alphabetaT_node (cs : List GTree) (m : Bool) (alpha beta : Int) :
    alphabetaT (.node cs) m alpha beta =
      abTgo cs m (if m then -SENT else SENT) alpha beta := by
  rw [alphabetaT]

theorem alphabetaT_leaf (v : Int) (m : Bool) (alpha beta : Int) :
    alphabetaT (.leaf v) m alpha beta = v := by
  rw [alphabetaT]

/-- Folding from `max a b` extracts `a`. -/
theorem mmgo_max_comm (l : List GTree) (a b : Int) :
    mmgo l true (max a b) = max a (mmgo l true b) := by
  induction l generalizing b with
  | nil => simp [mmgo_nil]
  | cons c rest ih =>
    rw [mmgo_cons, mmgo_cons]
    simp only [if_true]
    rw [max_assoc, ih]

theorem mmgo_min_comm (l : List GTree) (a b : Int) :
    mmgo l false (min a b) = min a (mmgo l false b) := by
  induction l generalizing b with
  | nil => simp [mmgo_nil]
  | cons c rest ih =>
    rw [mmgo_cons, mmgo_cons]
    simp only [Bool.false_eq_true, if_false]
    rw [min_assoc, ih]

theorem mmgo_ge (l : List GTree) (s : Int) : s ≤ mmgo l true s := by
  have h := mmgo_max_comm l s s
  rw [max_self] at h
  rw [h]
  exact le_max_left _ _

theorem mmgo_le (l : List GTree) (s : Int) : mmgo l false s ≤ s := by
  have h := mmgo_min_comm l s s
  rw [min_self] at h
  rw [h]
  exact min_le_left _ _

/-- The three Knuth–Moore fail-soft guarantees of alpha-beta relative to the
minimax value. -/
def KMprop (t : GTree) (m : Bool) (alpha beta : Int) : Prop :=
  (alpha < minimaxT t m ∧ minimaxT t m < beta →
    alphabetaT t m alpha beta = minimaxT t m) ∧
  (minimaxT t m ≤ alpha →
    alphabetaT t m alpha beta ≤ alpha ∧ minimaxT t m ≤ alphabetaT t m alpha beta) ∧
  (beta ≤ minimaxT t m →
    beta ≤ alphabetaT t m alpha beta ∧ alphabetaT t m alpha beta ≤ minimaxT t m)

/-- Loop lemma, maximizing node. -/
theorem abTgo_spec_max (cs : List GTree)
    (IH : ∀ c ∈ cs, ∀ α β, -SENT ≤ α → β ≤ SENT → α < β → KMprop c false α β) :
    ∀ bv alpha beta, -SENT ≤ bv → bv ≤ alpha → beta ≤ SENT → alpha < beta →
    ((alpha < mmgo cs true bv ∧ mmgo cs true bv < beta →
        abTgo cs true bv alpha beta = mmgo cs true bv) ∧
      (mmgo cs true bv ≤ alpha →
        abTgo cs true bv alpha beta ≤ alpha ∧
          mmgo cs true bv ≤ abTgo cs true bv alpha beta) ∧
      (beta ≤ mmgo cs true bv →
        beta ≤ abTgo cs true bv alpha beta ∧
          abTgo cs true bv alpha beta ≤ mmgo cs true bv)) := by
  induction cs with
  | nil =>
    intro bv alpha beta _ _ _ _
    rw [mmgo_nil, abTgo_nil]
    exact ⟨fun _ => rfl, fun h => ⟨h, le_refl _⟩, fun h => ⟨h, le_refl _⟩⟩
  | cons c rest ihrest =>
    intro bv alpha beta hsb hba hbs hab
    have hsa : -SENT ≤ alpha := le_trans hsb hba
    have IHc := IH c (by simp) alpha beta hsa hbs hab
    rw [mmgo_cons, abTgo_cons]
    simp only [Bool.not_true, if_true]
    set v := minimaxT c false with hv
    set rc := alphabetaT c false alpha beta with hrc
    have hge : max bv v ≤ mmgo rest true (max bv v) := mmgo_ge _ _
    by_cases hfh : beta ≤ v
    · -- fail high: the cutoff fires
      obtain ⟨h1, h2⟩ := IHc.2.2 hfh
      rw [if_pos (by omega : beta ≤ max alpha (max bv rc))]
      refine ⟨fun h => by omega, fun h => by omega, fun h => ⟨by omega, by omega⟩⟩
    · push_neg at hfh
      by_cases hfl : v ≤ alpha
      · -- fail low
        obtain ⟨h1, h2⟩ := IHc.2.1 hfl
        rw [if_neg (by omega : ¬beta ≤ max alpha (max bv rc)),
          (by omega : max alpha (max bv rc) = alpha)]
        have hM' : mmgo rest true (max bv rc) = max rc (mmgo rest true (max bv v)) := by
          rw [(by omega : max bv rc = max rc (max bv v)), mmgo_max_comm]
        obtain ⟨k1, k2, k3⟩ :=
          ihrest (fun c' hc' => IH c' (by simp [hc'])) (max bv rc) alpha beta
            (by omega) (by omega) hbs hab
        refine ⟨?_, ?_, ?_⟩
        · rintro ⟨hA, hB⟩
          rw [k1 (by omega)]
          omega
        · intro hA
          have := k2 (by omega)
          omega
        · intro hA
          have := k3 (by omega)
          omega
      · -- exact window
        push_neg at hfl
        have h1 : rc = v := IHc.1 ⟨hfl, hfh⟩
        rw [if_neg (by omega : ¬beta ≤ max alpha (max bv rc)),
          (by omega : max bv rc = v), (by omega : max alpha v = v),
          (by omega : max bv v = v)]
        obtain ⟨k1, k2, k3⟩ :=
          ihrest (fun c' hc' => IH c' (by simp [hc'])) v v beta (by omega) (le_refl v) hbs hfh
        have hge2 : v ≤ mmgo rest true v := mmgo_ge _ _
        refine ⟨?_, ?_, ?_⟩
        · rintro ⟨hA, hB⟩
          rcases eq_or_lt_of_le hge2 with he | hlt
          · have := k2 (by omega)
            omega
          · exact k1 (by omega)
        · intro hA
          omega
        · intro hA
          have := k3 (by omega)
          omega

/-- Loop lemma, minimizing node (mirror image). -/
theorem abTgo_spec_min (cs : List GTree)
    (IH : ∀ c ∈ cs, ∀ α β, -SENT ≤ α → β ≤ SENT → α < β → KMprop c true α β) :
    ∀ bv alpha beta, bv ≤ SENT → beta ≤ bv → -SENT ≤ alpha → alpha < beta →
    ((alpha < mmgo cs false bv ∧ mmgo cs false bv < beta →
        abTgo cs false bv alpha beta = mmgo cs false bv) ∧
      (mmgo cs false bv ≤ alpha →
        abTgo cs false bv alpha beta ≤ alpha ∧
          mmgo cs false bv ≤ abTgo cs false bv alpha beta) ∧
      (beta ≤ mmgo cs false bv →
        beta ≤ abTgo cs false bv alpha beta ∧
          abTgo cs false bv alpha beta ≤ mmgo cs false bv)) := by
  induction cs with
  | nil =>
    intro bv alpha beta _ _ _ _
    rw [mmgo_nil, abTgo_nil]
    exact ⟨fun _ => rfl, fun h => ⟨h, le_refl _⟩, fun h => ⟨h, le_refl _⟩⟩
  | cons c rest ihrest =>
    intro bv alpha beta hsb hba hbs hab
    have hsa : beta ≤ SENT := le_trans hba hsb
    have IHc := IH c (by simp) alpha beta hbs hsa hab
    rw [mmgo_cons, abTgo_cons]
    simp only [Bool.not_false, Bool.false_eq_true, if_false]
    set v := minimaxT c true with hv
    set rc := alphabetaT c true alpha beta with hrc
    have hge : mmgo rest false (min bv v) ≤ min bv v := mmgo_le _ _
    by_cases hfl : v ≤ alpha
    · -- fail low for the child: the cutoff fires
      obtain ⟨h1, h2⟩ := IHc.2.1 hfl
      rw [if_pos (by omega : min beta (min bv rc) ≤ alpha)]
      refine ⟨fun h => by omega, fun h => ⟨by omega, by omega⟩, fun h => by omega⟩
    · push_neg at hfl
      by_cases hfh : beta ≤ v
      · -- fail high for the child
        obtain ⟨h1, h2⟩ := IHc.2.2 hfh
        rw [if_neg (by omega : ¬min beta (min bv rc) ≤ alpha),
          (by omega : min beta (min bv rc) = beta)]
        have hM' : mmgo rest false (min bv rc) = min rc (mmgo rest false (min bv v)) := by
          rw [(by omega : min bv rc = min rc (min bv v)), mmgo_min_comm]
        obtain ⟨k1, k2, k3⟩ :=
          ihrest (fun c' hc' => IH c' (by simp [hc'])) (min bv rc) alpha beta
            (by omega) (by omega) hbs hab
        refine ⟨?_, ?_, ?_⟩
        · rintro ⟨hA, hB⟩
          rw [k1 (by omega)]
          omega
        · intro hA
          have := k2 (by omega)
          omega
        · intro hA
          have := k3 (by omega)
          omega
      · -- exact window
        push_neg at hfh
        have h1 : rc = v := IHc.1 ⟨hfl, hfh⟩
        rw [if_neg (by omega : ¬min beta (min bv rc) ≤ alpha),
          (by omega : min bv rc = v), (by omega : min beta v = v),
          (by omega : min bv v = v)]
        obtain ⟨k1, k2, k3⟩ :=
          ihrest (fun c' hc' => IH c' (by simp [hc'])) v alpha v (by omega) (le_refl v)
            hbs hfl
        have hge2 : mmgo rest false v ≤ v := mmgo_le _ _
        refine ⟨?_, ?_, ?_⟩
        · rintro ⟨hA, hB⟩
          rcases eq_or_lt_of_le hge2 with he | hlt
          · have := k3 (by omega)
            omega
          · exact k1 (by omega)
        · intro hA
          have := k2 (by omega)
          omega
        · intro hA
          omega

/-- The Knuth–Moore guarantees hold for every tree and every sentinel-bounded
window. -/
theorem KM_tree : ∀ n t, sizeOf t ≤ n → ∀ m alpha beta,
    -SENT ≤ alpha → beta ≤ SENT → alpha < beta → KMprop t m alpha beta := by
  intro n
  induction n with
  | zero =>
    intro t ht
    cases t <;> simp at ht
  | succ n ihn =>
    intro t ht m alpha beta hsa hbs hab
    cases t with
    | leaf v =>
      refine ⟨fun _ => by rw [alphabetaT_leaf, minimaxT_leaf], fun h => ?_, fun h => ?_⟩
      · rw [alphabetaT_leaf]
        rw [minimaxT_leaf] at h
        exact ⟨h, by rw [minimaxT_leaf]⟩
      · rw [alphabetaT_leaf]
        rw [minimaxT_leaf] at h
        exact ⟨h, by rw [minimaxT_leaf]⟩
    | node cs =>
      have hIH : ∀ c ∈ cs, ∀ α β, -SENT ≤ α → β ≤ SENT → α < β → KMprop c (!m) α β := by
        intro c hc α β h1 h2 h3
        have hlt : sizeOf c < sizeOf (GTree.node cs) := by
          have := List.sizeOf_lt_of_mem hc
          simp only [GTree.node.sizeOf_spec]
          omega
        exact ihn c (by omega) (!m) α β h1 h2 h3
      unfold KMprop
      rw [minimaxT_node, alphabetaT_node]
      cases m with
      | true =>
        simp only [if_true]
        exact abTgo_spec_max cs (by simpa using hIH) (-SENT) alpha beta (le_refl _)
          hsa hbs hab
      | false =>
        simp only [Bool.false_eq_true, if_false]
        exact abTgo_spec_min cs (by simpa using hIH) SENT alpha beta (le_refl _)
          hbs hsa hab

/-- Trees produced by the search: every leaf value strictly inside the
sentinels, every node non-trivial. -/
inductive GTreeOk : GTree → Prop where
  | leaf {v : Int} : -SENT < v → v < SENT → GTreeOk (.leaf v)
  | node {cs : List GTree} : cs ≠ [] → (∀ c ∈ cs, GTreeOk c) → GTreeOk (.node cs)

theorem mmgo_ub_max {l : List GTree} {bound : Int}
    (h : ∀ c ∈ l, minimaxT c false < bound) {bv : Int} (hbv : bv < bound) :
    mmgo l true bv < bound := by
  induction l generalizing bv with
  | nil => rw [mmgo_nil]; exact hbv
  | cons c rest ih =>
    rw [mmgo_cons]
    simp only [Bool.not_true, if_true]
    have h1 := h c (by simp)
    exact ih (fun c' hc' => h c' (by simp [hc'])) (by omega)

theorem mmgo_lb_min {l : List GTree} {bound : Int}
    (h : ∀ c ∈ l, bound < minimaxT c true) {bv : Int} (hbv : bound < bv) :
    bound < mmgo l false bv := by
  induction l generalizing bv with
  | nil => rw [mmgo_nil]; exact hbv
  | cons c rest ih =>
    rw [mmgo_cons]
    simp only [Bool.not_false, Bool.false_eq_true, if_false]
    have h1 := h c (by simp)
    exact ih (fun c' hc' => h c' (by simp [hc'])) (by omega)

/-- Minimax values of an ok tree stay strictly inside the sentinels. -/
theorem minimaxT_bounds {t : GTree} (h : GTreeOk t) :
    ∀ m, -SENT < minimaxT t m ∧ minimaxT t m < SENT := by
  induction h with
  | leaf h1 h2 =>
    intro m
    rw [minimaxT_leaf]
    exact ⟨h1, h2⟩
  | @node cs hne hok ih =>
    intro m
    cases m with
    | true =>
      rw [minimaxT_node]
      simp only [if_true]
      constructor
      · obtain ⟨c, rest, rfl⟩ : ∃ c rest, cs = c :: rest := by
          cases cs with
          | nil => exact absurd rfl hne
          | cons c rest => exact ⟨c, rest, rfl⟩
        have h1 := (ih c (by simp) false).1
        rw [mmgo_cons]
        simp only [Bool.not_true, if_true]
        have := mmgo_ge rest (max (-SENT) (minimaxT c false))
        omega
      · exact mmgo_ub_max (fun c hc => (ih c hc false).2) (by decide)
    | false =>
      rw [minimaxT_node]
      simp only [Bool.false_eq_true, if_false]
      constructor
      · exact mmgo_lb_min (fun c hc => (ih c hc true).1) (by decide)
      · obtain ⟨c, rest, rfl⟩ : ∃ c rest, cs = c :: rest := by
          cases cs with
          | nil => exact absurd rfl hne
          | cons c rest => exact ⟨c, rest, rfl⟩
        have h1 := (ih c (by simp) true).2
        rw [mmgo_cons]
        simp only [Bool.not_false, Bool.false_eq_true, if_false]
        have := mmgo_le rest (min SENT (minimaxT c true))
        omega

/-- On an ok tree, alpha-beta from the full sentinel window computes exactly
the minimax value. -/
theorem alphabetaT_eq_minimaxT {t : GTree} (h : GTreeOk t) (m : Bool) :
    alphabetaT t m (-SENT) SENT = minimaxT t m := by
  have hb := minimaxT_bounds h m
  exact (KM_tree (sizeOf t) t (le_refl _) m (-SENT) SENT (le_refl _) (le_refl _)
    (by decide)).1 ⟨hb.1, hb.2⟩

/-! ### The search tree of a state -/

/-- Build the list of child trees for the ordered candidate list, indexed
from `k`. -/
def buildKidsGo (child : Nat → BattleAction → Option GTree) :
    List BattleAction → Nat → Option (List GTree)
  | [], _ => some []
  | act :: rest, k => do
    let t ← child k act
    let ts ← buildKidsGo child rest (k+1)
    some (t :: ts)

/-- One edge of the search tree: exactly the state manipulation of
`searchChild`, producing the child subtree instead of its value. -/
def buildChild (build : List Nat → Agent → Agent → BattleState → Bool → Option GTree)
    (uo : UOracle) (path : List Nat) (a b : Agent) (s : BattleState)
    (maximizing : Bool) (k : Nat) (act : BattleAction) : Option GTree := do
  let aclone := cloneagent a
  let bclone := cloneagent b
  let sclone : BattleState := ⟨s.fieldtype, s.ashactive, s.rocketactive⟩
  let oppact : BattleAction := { kind := BActEnum.ATTACK }
  let ashact := if maximizing then act else oppact
  let rocketact := if maximizing then oppact else act
  let u := uo (path ++ [k])
  let (a', b', s') ← stepbattle_simulation aclone bclone sclone ashact rocketact u.1 u.2
  build (path ++ [k]) a' b' s' (!maximizing)

/-- The game tree explored by `recurse` from a given state. -/
def buildT (meisash : Bool) (ord : OrdOracle) (uo : UOracle) :
    Nat → List Nat → Agent → Agent → BattleState → Bool → Option GTree
  | 0, _, a, b, s, _ => some (.leaf (leafScore meisash a b s))
  | ply+1, path, a, b, s, maximizing =>
    if (a.team.all fun p => !p.alive) || (b.team.all fun p => !p.alive) then
      some (.leaf (leafScore meisash a b s))
    else do
      let currentactiveidx := if maximizing then s.ashactive else s.rocketactive
      let oppactiveidx := if maximizing then s.rocketactive else s.ashactive
      let agentforactions := if maximizing then a else b
      let oppforactions := if maximizing then b else a
      let oppPoke ← pyIdx oppforactions.team oppactiveidx
      let actions0 ← legalactions agentforactions currentactiveidx oppPoke
      let actions := ord path actions0
      let children ← buildKidsGo
        (buildChild (buildT meisash ord uo ply) uo path a b s maximizing) actions 0
      some (.node children)

theorem if_gt_eq_max (a b : Int) : (if b > a then b else a) = max a b := by
  split <;> omega

theorem if_lt_eq_min (a b : Int) : (if b < a then b else a) = min a b := by
  split <;> omega

/-- The pruned loop computes `abTgo` of the corresponding child trees. -/
theorem abLoop_bridge {childV : Nat → BattleAction → Int → Int → Option Int}
    {childB : Nat → BattleAction → Option GTree} (m : Bool)
    (hcorr : ∀ k act tk, childB k act = some tk →
      ∀ α β, childV k act α β = some (alphabetaT tk (!m) α β)) :
    ∀ acts k ts bv ba alpha beta, buildKidsGo childB acts k = some ts →
    ∃ ba', abLoop childV m acts k bv ba alpha beta =
      some (abTgo ts m bv alpha beta, ba') := by
  intro acts
  induction acts with
  | nil =>
    intro k ts bv ba alpha beta hk
    simp only [buildKidsGo] at hk
    cases hk
    exact ⟨ba, by rw [abTgo_nil]; rfl⟩
  | cons act rest ih =>
    intro k ts bv ba alpha beta hk
    simp only [buildKidsGo, Option.bind_eq_bind] at hk
    obtain ⟨tk, htk, hk⟩ := Option.bind_eq_some.mp hk
    obtain ⟨ts', hts', hk⟩ := Option.bind_eq_some.mp hk
    simp only [Option.some.injEq] at hk
    subst hk
    rw [abTgo_cons]
    simp only [abLoop, Option.bind_eq_bind, hcorr k act tk htk alpha beta,
      Option.some_bind]
    cases m with
    | true =>
      simp only [if_true, if_gt_eq_max]
      by_cases hple : beta ≤ max alpha (max bv (alphabetaT tk (!true) alpha beta))
      · rw [if_pos hple, if_pos hple]
        exact ⟨if alphabetaT tk (!true) alpha beta > bv
          then some act else ba, rfl⟩
      · rw [if_neg hple, if_neg hple]
        exact ih (k+1) ts' _ _ _ _ hts'
    | false =>
      simp only [Bool.false_eq_true, if_false, if_lt_eq_min]
      by_cases hple : min beta (min bv (alphabetaT tk (!false) alpha beta)) ≤ alpha
      · rw [if_pos hple, if_pos hple]
        exact ⟨if alphabetaT tk (!false) alpha beta < bv
          then some act else ba, rfl⟩
      · rw [if_neg hple, if_neg hple]
        exact ih (k+1) ts' _ _ _ _ hts'

/-- The unpruned loop computes `mmgo` of the corresponding child trees. -/
theorem abLoopNP_bridge {childV : Nat → BattleAction → Int → Int → Option Int}
    {childB : Nat → BattleAction → Option GTree} (m : Bool)
    (hcorr : ∀ k act tk, childB k act = some tk →
      ∀ α β, childV k act α β = some (minimaxT tk (!m))) :
    ∀ acts k ts bv ba alpha beta, buildKidsGo childB acts k = some ts →
    ∃ ba', abLoopNP childV m acts k bv ba alpha beta =
      some (mmgo ts m bv, ba') := by
  intro acts
  induction acts with
  | nil =>
    intro k ts bv ba alpha beta hk
    simp only [buildKidsGo] at hk
    cases hk
    exact ⟨ba, by rw [mmgo_nil]; rfl⟩
  | cons act rest ih =>
    intro k ts bv ba alpha beta hk
    simp only [buildKidsGo, Option.bind_eq_bind] at hk
    obtain ⟨tk, htk, hk⟩ := Option.bind_eq_some.mp hk
    obtain ⟨ts', hts', hk⟩ := Option.bind_eq_some.mp hk
    simp only [Option.some.injEq] at hk
    subst hk
    rw [mmgo_cons]
    simp only [abLoopNP, Option.bind_eq_bind, hcorr k act tk htk alpha beta,
      Option.some_bind]
    cases m with
    | true =>
      simp only [if_true, if_gt_eq_max]
      exact ih (k+1) ts' _ _ _ _ hts'
    | false =>
      simp only [Bool.false_eq_true, if_false, if_lt_eq_min]
      exact ih (k+1) ts' _ _ _ _ hts'

/-- `recurse` computes the alpha-beta value of the search tree. -/
theorem recurse_bridge (meisash : Bool) (ord : OrdOracle) (uo : UOracle) :
    ∀ ply path a b s m t, buildT meisash ord uo ply path a b s m = some t →
    ∀ alpha beta, ∃ ba, recurse meisash ord uo ply path a b s m alpha beta =
      some (alphabetaT t m alpha beta, ba) := by
  intro ply
  induction ply with
  | zero =>
    intro path a b s m t ht alpha beta
    simp only [buildT, Option.some.injEq] at ht
    subst ht
    exact ⟨none, by rw [alphabetaT_leaf]; rfl⟩
  | succ ply ih =>
    intro path a b s m t ht alpha beta
    by_cases hdead : ((a.team.all fun p => !p.alive) || (b.team.all fun p => !p.alive)) = true
    · simp only [buildT, hdead, if_true, Option.some.injEq] at ht
      subst ht
      simp only [recurse, hdead, if_true]
      exact ⟨none, by rw [alphabetaT_leaf]⟩
    · simp only [buildT, hdead, Bool.false_eq_true, if_false, Option.bind_eq_bind] at ht
      obtain ⟨oppPoke, hop, ht⟩ := Option.bind_eq_some.mp ht
      obtain ⟨actions0, ha0, ht⟩ := Option.bind_eq_some.mp ht
      obtain ⟨children, hch, ht⟩ := Option.bind_eq_some.mp ht
      simp only [Option.some.injEq] at ht
      subst ht
      simp only [recurse, hdead, Bool.false_eq_true, if_false, Option.bind_eq_bind,
        hop, ha0, Option.some_bind]
      have hcorr : ∀ k act tk,
          buildChild (buildT meisash ord uo ply) uo path a b s m k act = some tk →
          ∀ α β, searchChild (recurse meisash ord uo ply) uo path a b s m k act α β =
            some (alphabetaT tk (!m) α β) := by
        intro k act tk htk α β
        simp only [buildChild, Option.bind_eq_bind] at htk
        obtain ⟨res, hres, htk⟩ := Option.bind_eq_some.mp htk
        obtain ⟨ba'', hba''⟩ := ih (path ++ [k]) res.1 res.2.1 res.2.2 (!m) tk htk α β
        simp only [searchChild, Option.bind_eq_bind, hres, Option.some_bind, hba'',
          Option.some.injEq]
      obtain ⟨ba', hloop⟩ := abLoop_bridge m hcorr (ord path actions0) 0 children
        (if m then -SENT else SENT) none alpha beta hch
      rw [alphabetaT_node]
      exact ⟨ba', hloop⟩

/-- `recurse_noprune` computes the minimax value of the search tree. -/
theorem noprune_bridge (meisash : Bool) (ord : OrdOracle) (uo : UOracle) :
    ∀ ply path a b s m t, buildT meisash ord uo ply path a b s m = some t →
    ∀ alpha beta, ∃ ba, recurse_noprune meisash ord uo ply path a b s m alpha beta =
      some (minimaxT t m, ba) := by
  intro ply
  induction ply with
  | zero =>
    intro path a b s m t ht alpha beta
    simp only [buildT, Option.some.injEq] at ht
    subst ht
    exact ⟨none, by rw [minimaxT_leaf]; rfl⟩
  | succ ply ih =>
    intro path a b s m t ht alpha beta
    by_cases hdead : ((a.team.all fun p => !p.alive) || (b.team.all fun p => !p.alive)) = true
    · simp only [buildT, hdead, if_true, Option.some.injEq] at ht
      subst ht
      simp only [recurse_noprune, hdead, if_true]
      exact ⟨none, by rw [minimaxT_leaf]⟩
    · simp only [buildT, hdead, Bool.false_eq_true, if_false, Option.bind_eq_bind] at ht
      obtain ⟨oppPoke, hop, ht⟩ := Option.bind_eq_some.mp ht
      obtain ⟨actions0, ha0, ht⟩ := Option.bind_eq_some.mp ht
      obtain ⟨children, hch, ht⟩ := Option.bind_eq_some.mp ht
      simp only [Option.some.injEq] at ht
      subst ht
      simp only [recurse_noprune, hdead, Bool.false_eq_true, if_false, Option.bind_eq_bind,
        hop, ha0, Option.some_bind]
      have hcorr : ∀ k act tk,
          buildChild (buildT meisash ord uo ply) uo path a b s m k act = some tk →
          ∀ α β, searchChild (recurse_noprune meisash ord uo ply) uo path a b s m k act α β =
            some (minimaxT tk (!m)) := by
        intro k act tk htk α β
        simp only [buildChild, Option.bind_eq_bind] at htk
        obtain ⟨res, hres, htk⟩ := Option.bind_eq_some.mp htk
        obtain ⟨ba'', hba''⟩ := ih (path ++ [k]) res.1 res.2.1 res.2.2 (!m) tk htk α β
        simp only [searchChild, Option.bind_eq_bind, hres, Option.some_bind, hba'',
          Option.some.injEq]
      obtain ⟨ba', hloop⟩ := abLoopNP_bridge m hcorr (ord path actions0) 0 children
        (if m then -SENT else SENT) none alpha beta hch
      rw [minimaxT_node]
      exact ⟨ba', hloop⟩

/-! ### Well-formed search states

`decide_action` is only invoked on game states built by the game: teams of
at most three creatures with positive bounded `maxhp`, hp within
`[0, maxhp]`, in-range active indices, and elixir dicts whose positive
tiers exist in `ELIXIRS`.  These conditions keep every score strictly
inside the `±SENT` sentinels and make the simulated transition total. -/

def TeamBounded (l : List Pokemon) : Prop :=
  ∀ p ∈ l, 0 < p.maxhp ∧ p.maxhp ≤ 1000000 ∧ 0 ≤ p.hp ∧ p.hp ≤ 1000000

def AgentWF (a : Agent) : Prop :=
  a.team ≠ [] ∧ a.team.length ≤ 3 ∧ TeamBounded a.team ∧
    ∀ kv ∈ a.elixirs, 0 < kv.2 → (ELIXIRS.lookup kv.1).isSome = true

def IdxOk (l : List Pokemon) (i : Int) : Prop := 0 ≤ i ∧ i < (l.length : Int)

def SearchWF (a b : Agent) (s : BattleState) : Prop :=
  AgentWF a ∧ AgentWF b ∧ IdxOk a.team s.ashactive ∧ IdxOk b.team s.rocketactive

instance (l : List Pokemon) : Decidable (TeamBounded l) := by
  unfold TeamBounded; infer_instance

instance (a : Agent) : Decidable (AgentWF a) := by
  unfold AgentWF; infer_instance

instance (l : List Pokemon) (i : Int) : Decidable (IdxOk l i) := by
  unfold IdxOk; infer_instance

instance (a b : Agent) (s : BattleState) : Decidable (SearchWF a b s) := by
  unfold SearchWF; infer_instance

theorem pyIdx_total {l : List α} {i : Int} (h0 : 0 ≤ i) (hlt : i < (l.length : Int)) :
    ∃ a, pyIdx l i = some a ∧ a ∈ l := by
  have hn : i.toNat < l.length := by omega
  refine ⟨l.get ⟨i.toNat, hn⟩, ?_, List.get_mem _ _ _⟩
  rw [pyIdx_nonneg h0]
  exact List.get?_eq_get hn

theorem lookup_mem {l : List (α × β)} [BEq α] [LawfulBEq α] {k : α} {v : β}
    (h : l.lookup k = some v) : (k, v) ∈ l := by
  induction l with
  | nil => cases h
  | cons kv rest ih =>
    obtain ⟨a, b⟩ := kv
    simp only [List.lookup] at h
    split at h
    · next heq =>
      cases h
      have ha : a = k := (eq_of_beq heq).symm
      subst ha
      exact List.mem_cons_self _ _
    · exact List.mem_cons_of_mem _ (ih h)

theorem ELIXIRS_amt {s : String} {amt c : Int}
    (h : ELIXIRS.lookup s = some (amt, c)) : 0 < amt ∧ amt ≤ 1000000 := by
  have hmem := lookup_mem h
  have hall : ∀ kv ∈ ELIXIRS, 0 < kv.2.1 ∧ kv.2.1 ≤ 1000000 := by decide
  exact hall _ hmem

theorem TYPEADV_pos {k : String × String} {c : ℚ}
    (h : TYPEADV.lookup k = some c) : 0 < c := by
  have hmem := lookup_mem h
  simp only [TYPEADV, List.mem_cons, List.not_mem_nil, or_false] at hmem
  rcases hmem with h1 | h1 | h1 <;>
    · have hc : c = 13/10 := congrArg Prod.snd h1
      rw [hc]; norm_num

theorem pyround_nonneg {q : ℚ} (h : 0 ≤ q) : 0 ≤ pyround q := by
  have h0 : 0 ≤ ⌊q⌋ := Int.le_floor.mpr (by exact_mod_cast h)
  simp only [pyround]
  split
  · exact h0
  · split
    · omega
    · split <;> omega

theorem computedamage_nonneg (a d : Pokemon) (ft : String) {u : ℚ} (hu : 0 ≤ u) :
    0 ≤ computedamage a d ft u := by
  have hbase : (0:ℚ) ≤ ((max 5 (a.atk - Int.fdiv d.dfn 2) : Int) : ℚ) := by
    have h5 : (0:Int) ≤ max 5 (a.atk - Int.fdiv d.dfn 2) :=
      le_trans (by omega) (le_max_left _ _)
    exact_mod_cast h5
  simp only [computedamage]
  apply pyround_nonneg
  cases hl : TYPEADV.lookup (a.ptype, d.ptype) with
  | none =>
    dsimp only
    refine mul_nonneg hbase (mul_nonneg ?_ hu)
    split <;> norm_num [FIELDBOOST]
  | some c =>
    have hc : 0 < c := TYPEADV_pos hl
    dsimp only
    refine mul_nonneg hbase (mul_nonneg ?_ hu)
    split
    · refine mul_nonneg (by linarith) (by norm_num [FIELDBOOST])
    · linarith

theorem heal_bounds {p : Pokemon} (hb : 0 < p.maxhp ∧ p.maxhp ≤ 1000000 ∧
      0 ≤ p.hp ∧ p.hp ≤ 1000000) {amt : Int} (ha : 0 ≤ amt) :
    0 < (p.heal amt).maxhp ∧ (p.heal amt).maxhp ≤ 1000000 ∧
      0 ≤ (p.heal amt).hp ∧ (p.heal amt).hp ≤ 1000000 := by
  obtain ⟨nm, pt, mx, hp, a, df, al⟩ := p
  simp only at hb
  simp only [Pokemon.heal]
  split
  · exact hb
  · simp only
    omega

theorem takedamage_bounds {p : Pokemon} (hb : 0 < p.maxhp ∧ p.maxhp ≤ 1000000 ∧
      0 ≤ p.hp ∧ p.hp ≤ 1000000) {dmg : Int} (hd : 0 ≤ dmg) :
    0 < (p.takedamage dmg).maxhp ∧ (p.takedamage dmg).maxhp ≤ 1000000 ∧
      0 ≤ (p.takedamage dmg).hp ∧ (p.takedamage dmg).hp ≤ 1000000 := by
  obtain ⟨nm, pt, mx, hp, a, df, al⟩ := p
  simp only at hb
  simp only [Pokemon.takedamage]
  split
  · exact hb
  · simp only
    omega

theorem decElixir_mem {l : List (String × Int)} {s : String} {kv : String × Int}
    (h : kv ∈ decElixir l s) : kv ∈ l ∨ ∃ v, (kv.1, v) ∈ l ∧ kv.2 = v - 1 := by
  induction l with
  | nil => simp only [decElixir] at h; cases h
  | cons a rest ih =>
    simp only [decElixir] at h
    split at h
    · rcases List.mem_cons.mp h with h1 | h1
      · subst h1
        exact Or.inr ⟨a.2, List.mem_cons_self _ _, rfl⟩
      · exact Or.inl (List.mem_cons_of_mem _ h1)
    · rcases List.mem_cons.mp h with h1 | h1
      · subst h1
        exact Or.inl (List.mem_cons_self _ _)
      · rcases ih h1 with h2 | ⟨v, hv, he⟩
        · exact Or.inl (List.mem_cons_of_mem _ h2)
        · exact Or.inr ⟨v, List.mem_cons_of_mem _ hv, he⟩

theorem qdiv_total {a b : ℚ} (h : b ≠ 0) : qdiv a b = some (a / b) := by
  simp [qdiv, h]

theorem applyAct_spec {agent : Agent} {act : BattleAction} {idx : Int}
    (hwf : AgentWF agent) (hidx : IdxOk agent.team idx) :
    ∃ r, applyAct agent act idx = some r ∧ AgentWF r.1 ∧ IdxOk r.1.team r.2 ∧
      r.1.team.length = agent.team.length := by
  obtain ⟨hne, hlen, hbnd, helix⟩ := hwf
  obtain ⟨kind, arg⟩ := act
  cases kind <;> rcases arg with _ | ⟨j | t⟩ <;>
    try exact ⟨(agent, idx), rfl, ⟨hne, hlen, hbnd, helix⟩, hidx, rfl⟩
  · -- SWAP with an integer argument
    simp only [applyAct]
    split
    · next hc => exact ⟨(agent, j), rfl, ⟨hne, hlen, hbnd, helix⟩, ⟨hc.1, hc.2.1⟩, rfl⟩
    · exact ⟨(agent, idx), rfl, ⟨hne, hlen, hbnd, helix⟩, hidx, rfl⟩
  · -- HEAL with a tier-name argument
    simp only [applyAct]
    split
    · next hpos =>
      have hlk : ∃ v, agent.elixirs.lookup t = some v ∧ 0 < v := by
        cases h : agent.elixirs.lookup t with
        | none => rw [h] at hpos; simp at hpos
        | some v =>
          rw [h] at hpos
          exact ⟨v, rfl, by simpa using hpos⟩
      obtain ⟨v, hv, hvpos⟩ := hlk
      have hsome : (ELIXIRS.lookup t).isSome = true := helix (t, v) (lookup_mem hv) hvpos
      obtain ⟨⟨healamt, cost⟩, hel⟩ := Option.isSome_iff_exists.mp hsome
      obtain ⟨ap, hap, hapmem⟩ := pyIdx_total hidx.1 hidx.2
      have hamt := ELIXIRS_amt hel
      simp only [hel, pySet_valid hidx.1 hap]
      have hlenset : (agent.team.set idx.toNat (ap.heal healamt)).length
          = agent.team.length := List.length_set _ _ _
      refine ⟨_, rfl, ⟨?_, ?_, ?_, ?_⟩, ?_, hlenset⟩
      · intro hnil
        rw [← List.length_eq_zero] at hnil
        rw [hlenset, List.length_eq_zero] at hnil
        exact hne hnil
      · rw [hlenset]; exact hlen
      · intro p hp
        rcases List.mem_or_eq_of_mem_set hp with h | h
        · exact hbnd p h
        · rw [h]
          exact heal_bounds (hbnd ap hapmem) hamt.1.le
      · intro kv hkv hkvpos
        rcases decElixir_mem hkv with h | ⟨w, hw, he⟩
        · exact helix kv h hkvpos
        · exact helix (kv.1, w) hw (by omega)
      · exact ⟨hidx.1, by rw [hlenset]; exact hidx.2⟩
    · exact ⟨(agent, idx), rfl, ⟨hne, hlen, hbnd, helix⟩, hidx, rfl⟩

theorem attackStep_pres {att dfr : Agent} {ai di : Int} {ft : String} {u : ℚ}
    {dfd : Bool} (hai : IdxOk att.team ai) (hdi : IdxOk dfr.team di)
    (hbnd : TeamBounded dfr.team) (hu : 0 ≤ u) :
    ∃ t, attackStep att ai dfr di ft u dfd = some t ∧
      t.length = dfr.team.length ∧ TeamBounded t := by
  obtain ⟨ap, hap, hapmem⟩ := pyIdx_total hai.1 hai.2
  simp only [attackStep, Option.bind_eq_bind, hap, Option.some_bind]
  by_cases hal : ap.alive
  · simp only [hal, if_true]
    obtain ⟨dp, hdp, hdpmem⟩ := pyIdx_total hdi.1 hdi.2
    simp only [hdp, Option.some_bind]
    by_cases hdal : dp.alive
    · simp only [hdal, if_true]
      have hdmg : 0 ≤ (if dfd then
          pytrunc (((computedamage ap dp ft u : Int) : ℚ) * (1/2))
          else computedamage ap dp ft u) := by
        have h1 := computedamage_nonneg ap dp ft hu
        split
        · apply pytrunc_nonneg
          have h2 : (0:ℚ) ≤ ((computedamage ap dp ft u : Int) : ℚ) := by exact_mod_cast h1
          linarith
        · exact h1
      rw [pySet_valid hdi.1 hdp]
      refine ⟨_, rfl, List.length_set _ _ _, ?_⟩
      intro p hp
      rcases List.mem_or_eq_of_mem_set hp with h | h
      · exact hbnd p h
      · rw [h]
        exact takedamage_bounds (hbnd dp hdpmem) hdmg
    · refine ⟨dfr.team, ?_, rfl, hbnd⟩
      simp [hdal, pure]
  · refine ⟨dfr.team, ?_, rfl, hbnd⟩
    simp [hal, pure]

theorem advanceIdx_total {team : List Pokemon} {idx : Int} (h : IdxOk team idx) :
    ∃ i, advanceIdx team idx = some i ∧ IdxOk team i := by
  obtain ⟨p, hp, _⟩ := pyIdx_total h.1 h.2
  simp only [advanceIdx, Option.bind_eq_bind, hp, Option.some_bind]
  by_cases hal : p.alive
  · exact ⟨idx, by simp [hal, pure], h⟩
  · rw [Bool.not_eq_true] at hal
    simp only [hal, Bool.not_false, if_true]
    cases hf : team.findIdx? (fun q => q.alive) with
    | none => exact ⟨idx, rfl, h⟩
    | some i =>
      obtain ⟨hi, _, _⟩ := List.findIdx?_eq_some_iff_getElem.mp hf
      exact ⟨(i : Int), rfl, by omega, by exact_mod_cast hi⟩

/-- Under a well-formed search state the simulated transition is total and
preserves well-formedness, whatever the two sub-actions are. -/
theorem stepbattle_pres {a b : Agent} {s : BattleState} {aact ract : BattleAction}
    {u1 u2 : ℚ} (hwf : SearchWF a b s) (hu1 : 0 ≤ u1) (hu2 : 0 ≤ u2) :
    ∃ r, stepbattle_simulation a b s aact ract u1 u2 = some r ∧
      SearchWF r.1 r.2.1 r.2.2 := by
  obtain ⟨hwa, hwb, hia, hib⟩ := hwf
  obtain ⟨⟨a1, ai⟩, hA, hwa1, hia1, hlena1⟩ := applyAct_spec hwa hia
  obtain ⟨⟨b1, bi⟩, hB, hwb1, hib1, hlenb1⟩ := applyAct_spec hwb hib
  have hRT : ∃ t, (if aact.kind == BActEnum.ATTACK then
        attackStep a1 ai b1 bi s.fieldtype u1 (ract.kind == BActEnum.DEFEND)
      else pure b1.team) = some t ∧ t.length = b1.team.length ∧ TeamBounded t := by
    split
    · exact attackStep_pres hia1 hib1 hwb1.2.2.1 hu1
    · exact ⟨b1.team, rfl, rfl, hwb1.2.2.1⟩
  obtain ⟨rteam, hRT, hlrt, hbrt⟩ := hRT
  have hibrt : IdxOk rteam bi := ⟨hib1.1, by rw [hlrt]; exact hib1.2⟩
  have hAT : ∃ t, (if ract.kind == BActEnum.ATTACK then
        attackStep { b1 with team := rteam } bi a1 ai s.fieldtype u2
          (aact.kind == BActEnum.DEFEND)
      else pure a1.team) = some t ∧ t.length = a1.team.length ∧ TeamBounded t := by
    split
    · exact attackStep_pres hibrt hia1 hwa1.2.2.1 hu2
    · exact ⟨a1.team, rfl, rfl, hwa1.2.2.1⟩
  obtain ⟨ateam, hAT, hlat, hbat⟩ := hAT
  have hiaat : IdxOk ateam ai := ⟨hia1.1, by rw [hlat]; exact hia1.2⟩
  obtain ⟨ai', hAI, hiai⟩ := advanceIdx_total hiaat
  obtain ⟨ri', hRI, hiri⟩ := advanceIdx_total hibrt
  refine ⟨_, stepbattle_eq hA hB hRT hAT hAI hRI, ?_, ?_, hiai, hiri⟩
  · refine ⟨?_, ?_, hbat, hwa1.2.2.2⟩
    · intro hnil
      rw [← List.length_eq_zero] at hnil
      rw [hlat, hlena1, List.length_eq_zero] at hnil
      exact hwa.1 hnil
    · show ateam.length ≤ 3
      rw [hlat, hlena1]
      exact hwa.2.1
  · refine ⟨?_, ?_, hbrt, hwb1.2.2.2⟩
    · intro hnil
      rw [← List.length_eq_zero] at hnil
      rw [hlrt, hlenb1, List.length_eq_zero] at hnil
      exact hwb.1 hnil
    · show rteam.length ≤ 3
      rw [hlrt, hlenb1]
      exact hwb.2.1

theorem pymaxElixirGo_total {l : List String}
    (h : ∀ k ∈ l, (elixirHealAmt k).isSome = true) :
    ∀ best bestv, ∃ r, pymaxElixirGo best bestv l = some r := by
  induction l with
  | nil => exact fun best bestv => ⟨best, rfl⟩
  | cons k rest ih =>
    intro best bestv
    obtain ⟨v, hv⟩ := Option.isSome_iff_exists.mp (h k (List.mem_cons_self _ _))
    have hrest : ∀ x ∈ rest, (elixirHealAmt x).isSome = true :=
      fun x hx => h x (List.mem_cons_of_mem _ hx)
    simp only [pymaxElixirGo, Option.bind_eq_bind, hv, Option.some_bind]
    split
    · exact ih hrest k v
    · exact ih hrest best bestv

theorem pymaxElixir_total {l : List String} (hne : l ≠ [])
    (h : ∀ k ∈ l, (elixirHealAmt k).isSome = true) :
    ∃ r, pymaxElixir l = some r := by
  cases l with
  | nil => exact absurd rfl hne
  | cons k rest =>
    obtain ⟨v, hv⟩ := Option.isSome_iff_exists.mp (h k (List.mem_cons_self _ _))
    simp only [pymaxElixir, Option.bind_eq_bind, hv, Option.some_bind]
    exact pymaxElixirGo_total (fun x hx => h x (List.mem_cons_of_mem _ hx)) k v

/-- Under a well-formed agent with a valid active index and an opponent
creature with positive `maxhp`, `legalactions` raises no exception. -/
theorem legalactions_total {agent : Agent} {idx : Int} {opp : Pokemon}
    (hwf : AgentWF agent) (hidx : IdxOk agent.team idx) (hopp : 0 < opp.maxhp) :
    ∃ l, legalactions agent idx opp = some l := by
  obtain ⟨hne, hlen, hbnd, helix⟩ := hwf
  obtain ⟨ap, hap, hapmem⟩ := pyIdx_total hidx.1 hidx.2
  have hapmax : ((ap.maxhp : Int) : ℚ) ≠ 0 := by
    have h1 := (hbnd ap hapmem).1
    exact_mod_cast (by omega : ¬(ap.maxhp : Int) = 0)
  have hoppmax : ((opp.maxhp : Int) : ℚ) ≠ 0 :=
    by exact_mod_cast (by omega : ¬(opp.maxhp : Int) = 0)
  have havail : ∀ k ∈ (agent.elixirs.filter (fun kv => kv.2 > 0)).map (fun kv => kv.1),
      (elixirHealAmt k).isSome = true := by
    intro k hk
    obtain ⟨kv, hkv, hk1⟩ := List.mem_map.mp hk
    have hmem := List.mem_of_mem_filter hkv
    have hpos : 0 < kv.2 := by
      have h2 := List.of_mem_filter hkv
      simpa using h2
    subst hk1
    obtain ⟨v, hv⟩ := Option.isSome_iff_exists.mp (helix kv hmem hpos)
    simp [elixirHealAmt, hv]
  simp only [legalactions, Option.bind_eq_bind, hap, Option.some_bind]
  rw [qdiv_total hapmax, qdiv_total hoppmax]
  simp only [Option.pure_def, Option.bind_eq_bind, Option.some_bind]
  have htail : ∀ acts1 : List BattleAction,
      ∃ l, (if (agent.elixirs.any fun kv => kv.2 > 0) = true ∧ ap.hp < ap.maxhp then
          if should_heal ((ap.hp : ℚ) / (ap.maxhp : ℚ) * 100) true
              ((opp.hp : ℚ) / (opp.maxhp : ℚ) * 100) > 2/5 then
            if ((agent.elixirs.filter (fun kv => kv.2 > 0)).map (fun kv => kv.1)).isEmpty
            then some acts1
            else (pymaxElixir ((agent.elixirs.filter (fun kv => kv.2 > 0)).map
                (fun kv => kv.1))) >>= (fun be =>
                  some (acts1 ++ [{ kind := BActEnum.HEAL, arg := some (Sum.inr be) }]))
          else some acts1
        else some acts1) = some l := by
    intro acts1
    split
    · split
      · split
        · exact ⟨acts1, rfl⟩
        · next hemp =>
          have hne2 : ((agent.elixirs.filter (fun kv => kv.2 > 0)).map
              (fun kv => kv.1)) ≠ [] := by
            simpa [List.isEmpty_iff] using hemp
          obtain ⟨be, hbe⟩ := pymaxElixir_total hne2 havail
          rw [hbe]
          exact ⟨_, rfl⟩
      · exact ⟨acts1, rfl⟩
    · exact ⟨acts1, rfl⟩
  split
  · simp only [Option.some_bind]
    exact htail _
  · split
    · simp only [Option.some_bind]
      exact htail _
    · simp only [Option.some_bind]
      exact htail _

theorem sum_hp_bound {l : List Pokemon} (h : TeamBounded l) :
    0 ≤ (l.map Pokemon.hp).sum ∧ (l.map Pokemon.hp).sum ≤ (l.length : Int) * 1000000 := by
  induction l with
  | nil => simp
  | cons p rest ih =>
    have hp := h p (List.mem_cons_self _ _)
    have hrest := ih (fun q hq => h q (List.mem_cons_of_mem _ hq))
    simp only [List.map_cons, List.sum_cons, List.length_cons]
    push_cast
    constructor <;> nlinarith [hrest.1, hrest.2, hp.2.2.1, hp.2.2.2]

theorem evalstate_bound {a b : Agent} (bs : BattleState) (ha : AgentWF a) (hb : AgentWF b) :
    -3000100 < evalstate a b bs ∧ evalstate a b bs < 3000100 := by
  obtain ⟨-, hla, hba, -⟩ := ha
  obtain ⟨-, hlb, hbb, -⟩ := hb
  have h1 := sum_hp_bound hba
  have h2 := sum_hp_bound hbb
  have h3 : (a.team.filter (fun p => p.alive)).length ≤ a.team.length :=
    List.length_filter_le _ _
  have h4 : (b.team.filter (fun p => p.alive)).length ≤ b.team.length :=
    List.length_filter_le _ _
  simp only [evalstate]
  omega

theorem leafScore_bound {a b : Agent} (bs : BattleState) (meisash : Bool)
    (ha : AgentWF a) (hb : AgentWF b) :
    -SENT < leafScore meisash a b bs ∧ leafScore meisash a b bs < SENT := by
  have h1 := evalstate_bound bs ha hb
  have h2 := evalstate_bound bs hb ha
  simp only [leafScore, SENT]
  cases meisash <;> simp only [Bool.false_eq_true, if_true, if_false] <;> omega

theorem cloneagent_team (a : Agent) : (cloneagent a).team = a.team := by
  show a.team.map _ = a.team
  have h : (fun p : Pokemon =>
      { name := p.name, ptype := p.ptype, maxhp := p.maxhp, hp := p.hp,
        atk := p.atk, dfn := p.dfn, alive := p.alive } : Pokemon → Pokemon) = id := by
    funext p
    rfl
  rw [h, List.map_id]

theorem cloneagent_AgentWF {a : Agent} (h : AgentWF a) : AgentWF (cloneagent a) := by
  unfold AgentWF at h ⊢
  rw [cloneagent_team]
  exact h

theorem buildKidsGo_total {child : Nat → BattleAction → Option GTree}
    {acts : List BattleAction}
    (h : ∀ act ∈ acts, ∀ k, ∃ t, child k act = some t ∧ GTreeOk t) :
    ∀ k, ∃ ts, buildKidsGo child acts k = some ts ∧ ts.length = acts.length ∧
      ∀ t ∈ ts, GTreeOk t := by
  induction acts with
  | nil => exact fun k => ⟨[], rfl, rfl, by simp⟩
  | cons act rest ih =>
    intro k
    obtain ⟨t, ht, hok⟩ := h act (List.mem_cons_self _ _) k
    obtain ⟨ts, hts, hlen, hoks⟩ :=
      ih (fun x hx k' => h x (List.mem_cons_of_mem _ hx) k') (k+1)
    refine ⟨t :: ts, ?_, by simp [hlen], ?_⟩
    · simp only [buildKidsGo, Option.bind_eq_bind, ht, Option.some_bind, hts]
    · intro c hc
      rcases List.mem_cons.mp hc with h1 | h1
      · rw [h1]; exact hok
      · exact hoks c h1

/-- Under a well-formed search state the game tree of the search exists and
is well formed: every leaf score lies strictly inside the sentinels and
every node has at least one child. -/
theorem buildT_total (meisash : Bool) (ord : OrdOracle) (uo : UOracle)
    (hord : ∀ p l, List.Perm (ord p l) l)
    (hu : ∀ p, 0 ≤ (uo p).1 ∧ 0 ≤ (uo p).2) :
    ∀ ply path a b s m, SearchWF a b s →
    ∃ t, buildT meisash ord uo ply path a b s m = some t ∧ GTreeOk t := by
  intro ply
  induction ply with
  | zero =>
    intro path a b s m hwf
    obtain ⟨h1, h2⟩ := leafScore_bound s meisash hwf.1 hwf.2.1
    exact ⟨.leaf (leafScore meisash a b s), rfl, GTreeOk.leaf h1 h2⟩
  | succ ply ih =>
    intro path a b s m hwf
    by_cases hdead : ((a.team.all fun p => !p.alive) || (b.team.all fun p => !p.alive)) = true
    · simp only [buildT, hdead, if_true]
      obtain ⟨h1, h2⟩ := leafScore_bound s meisash hwf.1 hwf.2.1
      exact ⟨_, rfl, GTreeOk.leaf h1 h2⟩
    · simp only [buildT, hdead, Bool.false_eq_true, if_false, Option.bind_eq_bind]
      have hOidx : IdxOk (if m then b else a).team (if m then s.rocketactive else s.ashactive) := by
        cases m
        · simpa using hwf.2.2.1
        · simpa using hwf.2.2.2
      have hObnd : TeamBounded (if m then b else a).team := by
        cases m
        · simpa using hwf.1.2.2.1
        · simpa using hwf.2.1.2.2.1
      have hMwf : AgentWF (if m then a else b) := by
        cases m
        · simpa using hwf.2.1
        · simpa using hwf.1
      have hMidx : IdxOk (if m then a else b).team (if m then s.ashactive else s.rocketactive) := by
        cases m
        · simpa using hwf.2.2.2
        · simpa using hwf.2.2.1
      obtain ⟨op, hop, hopmem⟩ := pyIdx_total hOidx.1 hOidx.2
      have hopmax : 0 < op.maxhp := (hObnd op hopmem).1
      obtain ⟨actions0, hact0⟩ := legalactions_total hMwf hMidx hopmax
      have hclonewf : SearchWF (cloneagent a) (cloneagent b)
          ⟨s.fieldtype, s.ashactive, s.rocketactive⟩ := by
        refine ⟨cloneagent_AgentWF hwf.1, cloneagent_AgentWF hwf.2.1, ?_, ?_⟩
        · rw [cloneagent_team]; exact hwf.2.2.1
        · rw [cloneagent_team]; exact hwf.2.2.2
      have hchild : ∀ act ∈ ord path actions0, ∀ k, ∃ t,
          buildChild (buildT meisash ord uo ply) uo path a b s m k act = some t ∧
            GTreeOk t := by
        intro act hact k
        obtain ⟨r, hstep, hrwf⟩ := @stepbattle_pres (cloneagent a) (cloneagent b)
          ⟨s.fieldtype, s.ashactive, s.rocketactive⟩
          (if m then act else { kind := BActEnum.ATTACK, arg := none })
          (if m then { kind := BActEnum.ATTACK, arg := none } else act)
          (uo (path ++ [k])).1 (uo (path ++ [k])).2 hclonewf
          (hu (path ++ [k])).1 (hu (path ++ [k])).2
        obtain ⟨a', b', s'⟩ := r
        obtain ⟨t, hbt, hok⟩ := ih (path ++ [k]) a' b' s' (!m) hrwf
        refine ⟨t, ?_, hok⟩
        simp only [buildChild, Option.bind_eq_bind, hstep, Option.some_bind]
        exact hbt
      obtain ⟨children, hch, hchlen, hchok⟩ := buildKidsGo_total hchild 0
      refine ⟨.node children, ?_, ?_⟩
      · simp only [hop, Option.some_bind, hact0, hch]
      · refine GTreeOk.node ?_ hchok
        obtain ⟨rest, hrest⟩ := legalactions_shape hact0
        intro hnil
        have h1 : (ord path actions0).length = 0 := by
          rw [← hchlen, hnil]
          rfl
        have h2 : actions0.length = 0 := by
          rw [← (hord path actions0).length_eq]
          exact h1
        rw [hrest] at h2
        simp at h2

/-! ## Claim C1 : pruning does not change the root value -/

/-- Creatures for the C1 counterexample: Ash's creature has hp on the order
of `2·10^9`, which dwarfs the `±10^9` sentinel used as the initial best
value of every alpha-beta node. -/
def c1AP : Pokemon := ⟨"AP", "Fire", 2000000000, 2000000000, 10, 0, true⟩

def c1RP : Pokemon := ⟨"RP", "Fire", 1000, 1000, 100, 0, true⟩

def c1A : Agent := { name := "A", team := [c1AP] }

def c1R : Agent := { name := "R", team := [c1RP] }

/-- **C1 (counterexample).** Pruning *does* change the root value on states
whose hp exceeds the `±10^9` sentinels: at depth 1 with identity ordering
and unit multipliers, the first child (ATTACK) already scores
`1999998910 > SENT`, so `beta ≤ alpha` fires and the second child (DEFEND,
scoring `1999998950`) is pruned; plain minimax keeps it. -/
theorem C1_prune_equiv_cex :
    (recurse true (fun _ l => l) (fun _ => (1, 1)) 1 [] c1A c1R
        { fieldtype := "Water" } true (-SENT) SENT).map Prod.fst =
      some 1999998910 ∧
    (recurse_noprune true (fun _ l => l) (fun _ => (1, 1)) 1 [] c1A c1R
        { fieldtype := "Water" } true (-SENT) SENT).map Prod.fst =
      some 1999998950 ∧
    (1999998910 : Int) ≠ 1999998950 := by
  have hc1 : computedamage c1AP c1RP "Water" 1 = 10 := by
    rw [computedamage_plain (by decide) (by decide)]
    decide
  have hc2 : computedamage (c1RP.takedamage 10) c1AP "Water" 1 = 100 := by
    rw [computedamage_plain (by decide) (by decide)]
    decide
  have hc3 : computedamage c1RP c1AP "Water" 1 = 100 := by
    rw [computedamage_plain (by decide) (by decide)]
    decide
  have hc3d : pytrunc ((computedamage c1RP c1AP "Water" 1 : ℚ) * (1/2)) = 50 := by
    rw [hc3]
    unfold pytrunc
    norm_num
  have hstep1 : stepbattle_simulation (cloneagent c1A) (cloneagent c1R)
      { fieldtype := "Water", ashactive := 0, rocketactive := 0 }
      { kind := BActEnum.ATTACK } { kind := BActEnum.ATTACK } 1 1 =
      some ({ cloneagent c1A with team := [c1AP.takedamage 100] },
        { cloneagent c1R with team := [c1RP.takedamage 10] },
        { fieldtype := "Water", ashactive := 0, rocketactive := 0 }) := by
    have hAT1 : attackStep (cloneagent c1A) 0 (cloneagent c1R) 0 "Water" 1 false
        = some [c1RP.takedamage 10] :=
      attackStep_eval (rfl : pyIdx (cloneagent c1A).team 0 = some c1AP) rfl
        (rfl : pyIdx (cloneagent c1R).team 0 = some c1RP) rfl
        (by simpa using hc1) rfl
    have hAT2 : attackStep { cloneagent c1R with team := [c1RP.takedamage 10] } 0
        (cloneagent c1A) 0 "Water" 1 false = some [c1AP.takedamage 100] :=
      attackStep_eval
        (rfl : pyIdx [c1RP.takedamage 10] 0 = some (c1RP.takedamage 10)) (by decide)
        (rfl : pyIdx (cloneagent c1A).team 0 = some c1AP) rfl
        (by simpa using hc2) rfl
    exact stepbattle_eq
      (rfl : applyAct (cloneagent c1A) { kind := BActEnum.ATTACK }
        (({ fieldtype := "Water", ashactive := 0, rocketactive := 0 }
          : BattleState).ashactive) = some (cloneagent c1A, 0))
      (rfl : applyAct (cloneagent c1R) { kind := BActEnum.ATTACK }
        (({ fieldtype := "Water", ashactive := 0, rocketactive := 0 }
          : BattleState).rocketactive) = some (cloneagent c1R, 0))
      (show (if ({ kind := BActEnum.ATTACK } : BattleAction).kind == BActEnum.ATTACK then
          attackStep (cloneagent c1A) 0 (cloneagent c1R) 0
            (({ fieldtype := "Water", ashactive := 0, rocketactive := 0 }
              : BattleState).fieldtype) 1
            (({ kind := BActEnum.ATTACK } : BattleAction).kind == BActEnum.DEFEND)
        else pure (cloneagent c1R).team) = some [c1RP.takedamage 10] from hAT1)
      (show (if ({ kind := BActEnum.ATTACK } : BattleAction).kind == BActEnum.ATTACK then
          attackStep { cloneagent c1R with team := [c1RP.takedamage 10] } 0
            (cloneagent c1A) 0
            (({ fieldtype := "Water", ashactive := 0, rocketactive := 0 }
              : BattleState).fieldtype) 1
            (({ kind := BActEnum.ATTACK } : BattleAction).kind == BActEnum.DEFEND)
        else pure (cloneagent c1A).team) = some [c1AP.takedamage 100] from hAT2)
      (by decide : advanceIdx [c1AP.takedamage 100] 0 = some 0)
      (by decide : advanceIdx [c1RP.takedamage 10] 0 = some 0)
  have hstep2 : stepbattle_simulation (cloneagent c1A) (cloneagent c1R)
      { fieldtype := "Water", ashactive := 0, rocketactive := 0 }
      { kind := BActEnum.DEFEND } { kind := BActEnum.ATTACK } 1 1 =
      some ({ cloneagent c1A with team := [c1AP.takedamage 50] },
        { cloneagent c1R with team := (cloneagent c1R).team },
        { fieldtype := "Water", ashactive := 0, rocketactive := 0 }) := by
    have hAT2 : attackStep { cloneagent c1R with team := (cloneagent c1R).team } 0
        (cloneagent c1A) 0 "Water" 1 true = some [c1AP.takedamage 50] :=
      attackStep_eval
        (rfl : pyIdx ({ cloneagent c1R with team := (cloneagent c1R).team }
          : Agent).team 0 = some c1RP) rfl
        (rfl : pyIdx (cloneagent c1A).team 0 = some c1AP) rfl
        (by simpa using hc3d) rfl
    exact stepbattle_eq
      (rfl : applyAct (cloneagent c1A) { kind := BActEnum.DEFEND }
        (({ fieldtype := "Water", ashactive := 0, rocketactive := 0 }
          : BattleState).ashactive) = some (cloneagent c1A, 0))
      (rfl : applyAct (cloneagent c1R) { kind := BActEnum.ATTACK }
        (({ fieldtype := "Water", ashactive := 0, rocketactive := 0 }
          : BattleState).rocketactive) = some (cloneagent c1R, 0))
      (rfl : (if ({ kind := BActEnum.DEFEND } : BattleAction).kind == BActEnum.ATTACK then
          attackStep (cloneagent c1A) 0 (cloneagent c1R) 0
            (({ fieldtype := "Water", ashactive := 0, rocketactive := 0 }
              : BattleState).fieldtype) 1
            (({ kind := BActEnum.ATTACK } : BattleAction).kind == BActEnum.DEFEND)
        else pure (cloneagent c1R).team) = some (cloneagent c1R).team)
      (show (if ({ kind := BActEnum.ATTACK } : BattleAction).kind == BActEnum.ATTACK then
          attackStep { cloneagent c1R with team := (cloneagent c1R).team } 0
            (cloneagent c1A) 0
            (({ fieldtype := "Water", ashactive := 0, rocketactive := 0 }
              : BattleState).fieldtype) 1
            (({ kind := BActEnum.DEFEND } : BattleAction).kind == BActEnum.DEFEND)
        else pure (cloneagent c1A).team) = some [c1AP.takedamage 50] from hAT2)
      (by decide : advanceIdx [c1AP.takedamage 50] 0 = some 0)
      (by decide : advanceIdx (cloneagent c1R).team 0 = some 0)
  have hsc0 : ∀ α β : Int, searchChild (recurse true (fun _ l => l) (fun _ => (1, 1)) 0)
      (fun _ => (1, 1)) [] c1A c1R { fieldtype := "Water" } true 0
      { kind := BActEnum.ATTACK } α β = some 1999998910 := by
    intro α β
    show (stepbattle_simulation (cloneagent c1A) (cloneagent c1R)
        { fieldtype := "Water", ashactive := 0, rocketactive := 0 }
        { kind := BActEnum.ATTACK } { kind := BActEnum.ATTACK } 1 1 >>= fun r =>
          recurse true (fun _ l => l) (fun _ => (1, 1)) 0 ([] ++ [0]) r.1 r.2.1 r.2.2
            (!true) α β >>= fun v => some v.1) = some 1999998910
    rw [hstep1]
    simp only [Option.some_bind, recurse]
    decide
  have hsc1 : ∀ α β : Int, searchChild (recurse true (fun _ l => l) (fun _ => (1, 1)) 0)
      (fun _ => (1, 1)) [] c1A c1R { fieldtype := "Water" } true 1
      { kind := BActEnum.DEFEND } α β = some 1999998950 := by
    intro α β
    show (stepbattle_simulation (cloneagent c1A) (cloneagent c1R)
        { fieldtype := "Water", ashactive := 0, rocketactive := 0 }
        { kind := BActEnum.DEFEND } { kind := BActEnum.ATTACK } 1 1 >>= fun r =>
          recurse true (fun _ l => l) (fun _ => (1, 1)) 0 ([] ++ [1]) r.1 r.2.1 r.2.2
            (!true) α β >>= fun v => some v.1) = some 1999998950
    rw [hstep2]
    simp only [Option.some_bind, recurse]
    decide
  have hsc0n : ∀ α β : Int, searchChild
      (recurse_noprune true (fun _ l => l) (fun _ => (1, 1)) 0)
      (fun _ => (1, 1)) [] c1A c1R { fieldtype := "Water" } true 0
      { kind := BActEnum.ATTACK } α β = some 1999998910 := by
    intro α β
    show (stepbattle_simulation (cloneagent c1A) (cloneagent c1R)
        { fieldtype := "Water", ashactive := 0, rocketactive := 0 }
        { kind := BActEnum.ATTACK } { kind := BActEnum.ATTACK } 1 1 >>= fun r =>
          recurse_noprune true (fun _ l => l) (fun _ => (1, 1)) 0 ([] ++ [0]) r.1 r.2.1
            r.2.2 (!true) α β >>= fun v => some v.1) = some 1999998910
    rw [hstep1]
    simp only [Option.some_bind, recurse_noprune]
    decide
  have hsc1n : ∀ α β : Int, searchChild
      (recurse_noprune true (fun _ l => l) (fun _ => (1, 1)) 0)
      (fun _ => (1, 1)) [] c1A c1R { fieldtype := "Water" } true 1
      { kind := BActEnum.DEFEND } α β = some 1999998950 := by
    intro α β
    show (stepbattle_simulation (cloneagent c1A) (cloneagent c1R)
        { fieldtype := "Water", ashactive := 0, rocketactive := 0 }
        { kind := BActEnum.DEFEND } { kind := BActEnum.ATTACK } 1 1 >>= fun r =>
          recurse_noprune true (fun _ l => l) (fun _ => (1, 1)) 0 ([] ++ [1]) r.1 r.2.1
            r.2.2 (!true) α β >>= fun v => some v.1) = some 1999998950
    rw [hstep2]
    simp only [Option.some_bind, recurse_noprune]
    decide
  refine ⟨?_, ?_, by decide⟩
  · show (abLoop (searchChild (recurse true (fun _ l => l) (fun _ => (1, 1)) 0)
        (fun _ => (1, 1)) [] c1A c1R { fieldtype := "Water" } true) true
        [{ kind := BActEnum.ATTACK }, { kind := BActEnum.DEFEND }] 0
        (-SENT) none (-SENT) SENT).map Prod.fst = some 1999998910
    simp only [abLoop, Option.bind_eq_bind, hsc0, hsc1, Option.some_bind]
    decide
  · show (abLoopNP (searchChild (recurse_noprune true (fun _ l => l) (fun _ => (1, 1)) 0)
        (fun _ => (1, 1)) [] c1A c1R { fieldtype := "Water" } true) true
        [{ kind := BActEnum.ATTACK }, { kind := BActEnum.DEFEND }] 0
        (-SENT) none (-SENT) SENT).map Prod.fst = some 1999998950
    simp only [abLoopNP, Option.bind_eq_bind, hsc0n, hsc1n, Option.some_bind]
    decide

/-- **C1 (amended).** On well-formed game states — each side fields 1–3
creatures with `0 < maxhp ≤ 10^6` and `0 ≤ hp ≤ 10^6`, in-range active
indices, and every positively-owned elixir tier present in `ELIXIRS` — for
every depth, every action-ordering oracle that permutes the candidate list
and every choice of nonnegative random multipliers, the root value computed
by the alpha-beta recursion of `decide_action` equals the root value of the
same recursion with pruning disabled.  (The hp bounds matter: scores at or
beyond the `±10^9` sentinels break pruning, see the counterexample.) -/
theorem C1_prune_equiv (me opp : Agent) (bs : BattleState) (meisash : Bool)
    (ord : OrdOracle) (uo : UOracle) (depth : Nat)
    (hord : ∀ p l, List.Perm (ord p l) l)
    (hu : ∀ p, 0 ≤ (uo p).1 ∧ 0 ≤ (uo p).2)
    (hwf : SearchWF (if meisash then me else opp) (if meisash then opp else me) bs) :
    (recurse meisash ord uo depth [] (if meisash then me else opp)
        (if meisash then opp else me) bs meisash (-SENT) SENT).map Prod.fst =
      (recurse_noprune meisash ord uo depth [] (if meisash then me else opp)
        (if meisash then opp else me) bs meisash (-SENT) SENT).map Prod.fst := by
  obtain ⟨t, hbt, hok⟩ := buildT_total meisash ord uo hord hu depth []
    (if meisash then me else opp) (if meisash then opp else me) bs meisash hwf
  obtain ⟨ba1, h1⟩ := recurse_bridge meisash ord uo depth []
    (if meisash then me else opp) (if meisash then opp else me) bs meisash t hbt
    (-SENT) SENT
  obtain ⟨ba2, h2⟩ := noprune_bridge meisash ord uo depth []
    (if meisash then me else opp) (if meisash then opp else me) bs meisash t hbt
    (-SENT) SENT
  rw [h1, h2, Option.map_some', Option.map_some', alphabetaT_eq_minimaxT hok]

/-- Well-formed one-creature agents for the C1 witness. -/
def c1wA : Agent := { name := "A", team := [{ name := "P", ptype := "Fire" }] }

def c1wR : Agent := { name := "R", team := [{ name := "Q", ptype := "Water" }] }

/-- Witness for `C1_prune_equiv` at a concrete well-formed input. -/
theorem C1_prune_equiv_witness :
    (recurse true (fun _ l => l) (fun _ => (1, 1)) 1 [] c1wA c1wR
        { fieldtype := "Water" } true (-SENT) SENT).map Prod.fst =
      (recurse_noprune true (fun _ l => l) (fun _ => (1, 1)) 1 [] c1wA c1wR
        { fieldtype := "Water" } true (-SENT) SENT).map Prod.fst :=
  C1_prune_equiv c1wA c1wR { fieldtype := "Water" } true (fun _ l => l)
    (fun _ => (1, 1)) 1 (fun p l => List.Perm.refl l)
    (fun p => ⟨by norm_num, by norm_num⟩) (by decide)

/-! ## utils.py : A* pathfinding

The grid is `GRIDH` rows of `GRIDW` ints (`1` = blocked).  `openset` is a
Python set iterated in unspecified order; it is modelled as an
insertion-ordered duplicate-free list, and `min(openset, key=...)` keeps the
first element attaining the minimal key, exactly as Python's `min` does on
that iteration order.  The g/f/came dicts are association lists; the
`1e9` default of `dict.get` is the integer `BIG` (all stored values are
integers).  The unbounded `while` loops run on fuel large enough to cover
every well-formed input (proved below); exhaustion would be `none`. -/

abbrev Cell := Int × Int

def inbounds (x y : Int) : Bool :=
  decide (0 ≤ x ∧ x < GRIDW ∧ 0 ≤ y ∧ y < GRIDH)

def manhattan (a b : Cell) : Int := |a.1 - b.1| + |a.2 - b.2|

def BIG : Int := 1000000000

def lookupD (l : List (Cell × Int)) (k : Cell) (d : Int) : Int := (l.lookup k).getD d

/-- `d[k] = v` on an association list. -/
def setA : List (Cell × α) → Cell → α → List (Cell × α)
  | [], k, v => [(k, v)]
  | (k', v') :: rest, k, v =>
    if k' == k then (k', v) :: rest else (k', v') :: setA rest k v

/-- `min(openset, key=lambda n: f.get(n, 1e9))` over `best :: l`. -/
def minF (f : List (Cell × Int)) : List Cell → Cell → Cell
  | [], best => best
  | c :: rest, best =>
    if lookupD f c BIG < lookupD f best BIG then minF f rest c else minF f rest best

structure AState where
  openset : List Cell
  came : List (Cell × Cell)
  g : List (Cell × Int)
  f : List (Cell × Int)

/-- One `for dx, dy in DIRS` iteration of the astar inner loop. -/
def relaxNbr (grid : List (List Int)) (goal cur : Cell) (st : AState) (d : Int × Int) :
    Option AState :=
  let nx := cur.1 + d.1
  let ny := cur.2 + d.2
  if inbounds nx ny = false then some st
  else do
    let row ← pyIdx grid ny
    let v ← pyIdx row nx
    if v == 1 then some st
    else
      let tentative := lookupD st.g cur BIG + 1
      if tentative < lookupD st.g (nx, ny) BIG then
        some { openset := if (nx, ny) ∈ st.openset then st.openset
                 else st.openset ++ [(nx, ny)],
               came := setA st.came (nx, ny) cur,
               g := setA st.g (nx, ny) tentative,
               f := setA st.f (nx, ny) (tentative + manhattan (nx, ny) goal) }
      else some st

def relaxAll (grid : List (List Int)) (goal cur : Cell) :
    List (Int × Int) → AState → Option AState
  | [], st => some st
  | d :: ds, st => do
    let st' ← relaxNbr grid goal cur st d
    relaxAll grid goal cur ds st'

/-- `path = [current]; while current in came: current = came[current];
path.append(current); path.reverse()`, building the reversed list
directly. -/
def reconstruct (came : List (Cell × Cell)) : Nat → Cell → List Cell → Option (List Cell)
  | 0, _, _ => none
  | fuel+1, cur, acc =>
    match came.lookup cur with
    | some prev => reconstruct came fuel prev (cur :: acc)
    | none => some (cur :: acc)

def AFUEL : Nat := 100000000000000

def astarLoop (grid : List (List Int)) (goal : Cell) : Nat → AState → Option (List Cell)
  | 0, _ => none
  | fuel+1, st =>
    match st.openset with
    | [] => some []
    | c :: rest =>
      let current := minF st.f rest c
      if current == goal then
        reconstruct st.came (Int.toNat BIG + 1) current []
      else do
        let st' ← relaxAll grid goal current DIRS
          { st with openset := st.openset.erase current }
        astarLoop grid goal fuel st'

def astar (grid : List (List Int)) (start goal : Cell) : Option (List Cell) :=
  if start == goal then some [start]
  else astarLoop grid goal AFUEL
    { openset := [start], came := [], g := [(start, 0)],
      f := [(start, manhattan start goal)] }

/-! ### Specification-side notions: free cells, valid 4-connected paths -/

def cellFree (grid : List (List Int)) (c : Cell) : Bool :=
  inbounds c.1 c.2 && (((grid.get? c.2.toNat).getD []).get? c.1.toNat).getD 1 != 1

def adjacent (a b : Cell) : Bool := DIRS.any fun d => b == (a.1 + d.1, a.2 + d.2)

/-- A non-empty sequence of free cells, each adjacent to the next. -/
def pathOk (grid : List (List Int)) : List Cell → Bool
  | [] => false
  | [c] => cellFree grid c
  | c :: c' :: rest => cellFree grid c && adjacent c c' && pathOk grid (c' :: rest)

/-- The claim's well-formedness of a grid: `GRIDH` rows of `GRIDW` cells. -/
def GridWF (grid : List (List Int)) : Prop :=
  grid.length = 11 ∧ ∀ row ∈ grid, row.length = 24

/-- All border cells of the grid are unblocked. -/
def BorderFree (grid : List (List Int)) : Prop :=
  ∀ x ∈ List.range 24, ∀ y ∈ List.range 11,
    (x = 0 ∨ x = 23 ∨ y = 0 ∨ y = 10) → cellFree grid ((x : Int), (y : Int)) = true

instance (grid : List (List Int)) : Decidable (GridWF grid) := by
  unfold GridWF; infer_instance

instance (grid : List (List Int)) : Decidable (BorderFree grid) := by
  unfold BorderFree; infer_instance

/-! ### Association-list and loop-primitive lemmas -/

theorem setA_lookup_self {l : List (Cell × α)} {k : Cell} {v : α} :
    (setA l k v).lookup k = some v := by
  induction l with
  | nil => simp [setA, List.lookup]
  | cons kv rest ih =>
    obtain ⟨k', v'⟩ := kv
    simp only [setA]
    split
    · next h =>
      have hk : k' = k := by simpa using h
      subst hk
      simp [List.lookup]
    · next h =>
      have hk : (k == k') = false := by
        simp only [beq_eq_false_iff_ne]
        intro he
        exact h (by simp [he])
      simp [List.lookup, hk, ih]

theorem setA_lookup_other {l : List (Cell × α)} {k k' : Cell} {v : α} (h : k' ≠ k) :
    (setA l k v).lookup k' = l.lookup k' := by
  have hkk : (k' == k) = false := by simpa using h
  induction l with
  | nil => simp [setA, List.lookup, hkk]
  | cons kv rest ih =>
    obtain ⟨a, b⟩ := kv
    simp only [setA]
    split
    · next hak =>
      have ha : a = k := by simpa using hak
      subst ha
      simp [List.lookup, hkk]
    · next hak =>
      simp only [List.lookup]
      cases hka : (k' == a) <;> simp [hka, ih]

theorem lookupD_setA_self {l : List (Cell × Int)} {k : Cell} {v d : Int} :
    lookupD (setA l k v) k d = v := by
  simp [lookupD, setA_lookup_self]

theorem lookupD_setA_other {l : List (Cell × Int)} {k k' : Cell} {v d : Int}
    (h : k' ≠ k) : lookupD (setA l k v) k' d = lookupD l k' d := by
  simp [lookupD, setA_lookup_other h]

theorem setA_isSome {l : List (Cell × α)} {k x : Cell} {v : α} :
    ((setA l k v).lookup x).isSome = true ↔ x = k ∨ (l.lookup x).isSome = true := by
  by_cases hx : x = k
  · subst hx
    simp [setA_lookup_self]
  · rw [setA_lookup_other hx]
    simp [hx]

/-- `minF` returns a member of `best :: l` of minimal f-value (first such in
iteration order). -/
theorem minF_spec (f : List (Cell × Int)) :
    ∀ l best, (minF f l best = best ∨ minF f l best ∈ l) ∧
      lookupD f (minF f l best) BIG ≤ lookupD f best BIG ∧
      ∀ x ∈ l, lookupD f (minF f l best) BIG ≤ lookupD f x BIG := by
  intro l
  induction l with
  | nil => exact fun best => ⟨Or.inl rfl, le_refl _, by simp⟩
  | cons c rest ih =>
    intro best
    simp only [minF]
    split
    · next hlt =>
      obtain ⟨hmem, hle, hall⟩ := ih c
      refine ⟨?_, le_trans hle (le_of_lt hlt), ?_⟩
      · rcases hmem with h | h
        · exact Or.inr (by rw [h]; exact List.mem_cons_self _ _)
        · exact Or.inr (List.mem_cons_of_mem _ h)
      · intro x hx
        rcases List.mem_cons.mp hx with h | h
        · rw [h]; exact hle
        · exact hall x h
    · next hge =>
      obtain ⟨hmem, hle, hall⟩ := ih best
      refine ⟨hmem.imp id (List.mem_cons_of_mem _), hle, ?_⟩
      intro x hx
      rcases List.mem_cons.mp hx with h | h
      · rw [h]; exact le_trans hle (not_lt.mp hge)
      · exact hall x h

/-! ### Adjacency and Manhattan-distance lemmas -/

theorem adjacent_iff {a b : Cell} :
    adjacent a b = true ↔ ∃ d ∈ DIRS, b = (a.1 + d.1, a.2 + d.2) := by
  simp [adjacent, List.any_eq_true, beq_iff_eq]

theorem dirs_step_ne {d : Int × Int} (hd : d ∈ DIRS) (c : Cell) :
    (c.1 + d.1, c.2 + d.2) ≠ c := by
  fin_cases hd <;> (intro h; rw [Prod.ext_iff] at h; simp at h)

theorem adjacent_man {a b : Cell} (h : adjacent a b = true) : manhattan a b = 1 := by
  rw [adjacent_iff] at h
  obtain ⟨d, hd, hb⟩ := h
  subst hb
  fin_cases hd <;> simp [manhattan]

theorem man_triangle (a b c : Cell) :
    manhattan a c ≤ manhattan a b + manhattan b c := by
  simp only [manhattan]
  have h1 := abs_sub_le a.1 b.1 c.1
  have h2 := abs_sub_le a.2 b.2 c.2
  omega

theorem man_self (a : Cell) : manhattan a a = 0 := by simp [manhattan]

theorem man_nonneg (a b : Cell) : 0 ≤ manhattan a b :=
  add_nonneg (abs_nonneg _) (abs_nonneg _)

/-! ### Path lemmas -/

theorem pathOk_cons_inv {grid : List (List Int)} {c c' : Cell} {rest : List Cell}
    (h : pathOk grid (c :: c' :: rest) = true) :
    cellFree grid c = true ∧ adjacent c c' = true ∧ pathOk grid (c' :: rest) = true := by
  simpa [pathOk, Bool.and_eq_true, and_assoc] using h

theorem pathOk_single {grid : List (List Int)} {c : Cell}
    (h : cellFree grid c = true) : pathOk grid [c] = true := by
  simpa [pathOk] using h

/-- Along a valid path the Manhattan distance from the first to the last
cell is at most the number of steps. -/
theorem pathOk_man_last {grid : List (List Int)} :
    ∀ q, pathOk grid q = true → ∀ h0 z, q.head? = some h0 → q.getLast? = some z →
      manhattan h0 z ≤ (q.length : Int) - 1 := by
  intro q
  induction q with
  | nil => intro h h0 z hh; cases hh
  | cons c rest ih =>
    intro h h0 z hh hz
    cases rest with
    | nil =>
      have hh0 : c = h0 := by simpa using hh
      have hz0 : c = z := by simpa using hz
      subst hh0; subst hz0
      simp [man_self]
    | cons c' rest' =>
      obtain ⟨hf, hadj, hp⟩ := pathOk_cons_inv h
      have hh0 : c = h0 := by simpa using hh
      subst hh0
      have hz' : (c' :: rest').getLast? = some z := by
        simpa [List.getLast?_cons_cons] using hz
      have h2 := ih hp c' z rfl hz'
      have htr := man_triangle c c' z
      have h1 := adjacent_man hadj
      simp only [List.length_cons] at h2 ⊢
      push_cast at h2 ⊢
      omega

/-- A nonempty suffix of a valid path is a valid path. -/
theorem pathOk_suffix {grid : List (List Int)} :
    ∀ q1 (q2 : List Cell), pathOk grid (q1 ++ q2) = true → q2 ≠ [] →
      pathOk grid q2 = true := by
  intro q1
  induction q1 with
  | nil => intro q2 h _; simpa using h
  | cons c q1' ih =>
    intro q2 h hne
    cases hq : q1' ++ q2 with
    | nil =>
      exact absurd (List.append_eq_nil.mp hq).2 hne
    | cons a l =>
      rw [List.cons_append, hq] at h
      have := (pathOk_cons_inv h).2.2
      rw [← hq] at this
      exact ih q2 this hne

/-- Extending a valid path by one adjacent free cell. -/
theorem pathOk_snoc {grid : List (List Int)} :
    ∀ p (y z : Cell), pathOk grid p = true → p.getLast? = some y →
      adjacent y z = true → cellFree grid z = true →
      pathOk grid (p ++ [z]) = true := by
  intro p
  induction p with
  | nil => intro y z h hy; cases hy
  | cons c rest ih =>
    intro y z h hy hadj hz
    cases rest with
    | nil =>
      have hy0 : c = y := by simpa using hy
      subst hy0
      simp only [pathOk, List.cons_append, List.nil_append]
      simp [pathOk] at h
      simp [h, hadj, pathOk, hz]
    | cons c' rest' =>
      obtain ⟨hf, hadj0, hp⟩ := pathOk_cons_inv h
      have hy' : (c' :: rest').getLast? = some y := by
        simpa [List.getLast?_cons_cons] using hy
      have h2 := ih y z hp hy' hadj hz
      simp only [List.cons_append]
      have : pathOk grid (c :: ((c' :: rest') ++ [z])) = true := by
        simp only [List.cons_append]
        simp only [pathOk, Bool.and_eq_true]
        exact ⟨⟨hf, hadj0⟩, by simpa [List.cons_append] using h2⟩
      simpa [List.cons_append] using this

/-! ### Search-state predicates -/

def gval (st : AState) (c : Cell) : Int := lookupD st.g c BIG

def keyG (st : AState) (c : Cell) : Prop := (st.g.lookup c).isSome = true

theorem keyG_of_gval_lt {st : AState} {c : Cell} (h : gval st c < BIG) : keyG st c := by
  unfold gval lookupD at h
  unfold keyG
  cases hl : st.g.lookup c with
  | none => rw [hl] at h; simp at h
  | some v => simp

theorem gval_eq_of_lookup {st : AState} {c : Cell} {v : Int}
    (h : st.g.lookup c = some v) : gval st c = v := by
  simp [gval, lookupD, h]

def allCells : List Cell :=
  (List.range 264).map (fun i => (((i % 24 : Nat) : Int), ((i / 24 : Nat) : Int)))

theorem mem_allCells {x y : Int} :
    (x, y) ∈ allCells ↔ 0 ≤ x ∧ x < 24 ∧ 0 ≤ y ∧ y < 11 := by
  simp only [allCells, List.mem_map, List.mem_range, Prod.mk.injEq]
  constructor
  · rintro ⟨i, hi, h1, h2⟩
    omega
  · intro h
    exact ⟨x.toNat + 24 * y.toNat, by omega, by omega, by omega⟩

/-- Termination measure of the main loop. -/
def Msr (st : AState) : Nat :=
  8 * (allCells.map (fun c => (gval st c).toNat)).sum + st.openset.length

/-- Under the dimension hypothesis, an in-bounds grid access succeeds and
agrees with `cellFree`. -/
theorem grid_access {grid : List (List Int)} (hdim : GridWF grid) {x y : Int}
    (hin : inbounds x y = true) :
    ∃ row v, pyIdx grid y = some row ∧ pyIdx row x = some v ∧
      (cellFree grid (x, y) = true ↔ (v == 1) = false) := by
  have hb : 0 ≤ x ∧ x < GRIDW ∧ 0 ≤ y ∧ y < GRIDH := by
    simpa [inbounds] using hin
  obtain ⟨hx0, hxw, hy0, hyh⟩ := hb
  have hyl : y.toNat < grid.length := by
    rw [hdim.1]
    simp only [GRIDH] at hyh
    omega
  obtain ⟨row, hrow⟩ : ∃ row, grid.get? y.toNat = some row :=
    ⟨_, List.get?_eq_get hyl⟩
  have hrowmem : row ∈ grid := List.get?_mem hrow
  have hxl : x.toNat < row.length := by
    rw [hdim.2 row hrowmem]
    simp only [GRIDW] at hxw
    omega
  obtain ⟨v, hv⟩ : ∃ v, row.get? x.toNat = some v := by
    rw [List.get?_eq_get hxl]
    exact ⟨_, rfl⟩
  refine ⟨row, v, ?_, ?_, ?_⟩
  · rw [pyIdx_nonneg hy0]; exact hrow
  · rw [pyIdx_nonneg hx0]; exact hv
  · simp only [cellFree, hin, Bool.true_and]
    rw [hrow]
    simp only [Option.getD_some]
    rw [hv]
    simp only [Option.getD_some]
    cases hv1 : (v == 1) with
    | true =>
      have : v = 1 := by simpa using hv1
      simp [this]
    | false =>
      have : ¬ v = 1 := by simpa using hv1
      simp [this]

/-- Complete case analysis of one neighbour relaxation. -/
theorem relaxNbr_cases {grid : List (List Int)} {goal cur : Cell} {st : AState}
    {d : Int × Int} (hdim : GridWF grid) :
    ∃ st', relaxNbr grid goal cur st d = some st' ∧
      ((st' = st ∧ (cellFree grid (cur.1 + d.1, cur.2 + d.2) = true →
          gval st (cur.1 + d.1, cur.2 + d.2) ≤ gval st cur + 1)) ∨
       (cellFree grid (cur.1 + d.1, cur.2 + d.2) = true ∧
        gval st cur + 1 < gval st (cur.1 + d.1, cur.2 + d.2) ∧
        st'.g = setA st.g (cur.1 + d.1, cur.2 + d.2) (gval st cur + 1) ∧
        st'.f = setA st.f (cur.1 + d.1, cur.2 + d.2)
          (gval st cur + 1 + manhattan (cur.1 + d.1, cur.2 + d.2) goal) ∧
        st'.came = setA st.came (cur.1 + d.1, cur.2 + d.2) cur ∧
        st'.openset = (if (cur.1 + d.1, cur.2 + d.2) ∈ st.openset then st.openset
          else st.openset ++ [(cur.1 + d.1, cur.2 + d.2)]))) := by
  by_cases hin : inbounds (cur.1 + d.1) (cur.2 + d.2) = true
  · obtain ⟨row, v, hrow, hv, hfree⟩ := grid_access hdim hin
    simp only [relaxNbr, hin, Bool.true_eq_false, if_false, Option.bind_eq_bind,
      hrow, Option.some_bind, hv]
    cases hv1 : (v == 1) with
    | true =>
      simp only [if_true]
      refine ⟨st, rfl, Or.inl ⟨rfl, ?_⟩⟩
      intro hcf
      rw [hfree] at hcf
      rw [hcf] at hv1
      cases hv1
    | false =>
      simp only [Bool.false_eq_true, if_false]
      split
      · next hlt =>
        exact ⟨_, rfl, Or.inr ⟨hfree.mpr hv1, hlt, rfl, rfl, rfl, rfl⟩⟩
      · next hge =>
        exact ⟨st, rfl, Or.inl ⟨rfl, fun _ => not_lt.mp hge⟩⟩
  · rw [Bool.not_eq_true] at hin
    simp only [relaxNbr, hin, if_true]
    refine ⟨st, rfl, Or.inl ⟨rfl, ?_⟩⟩
    intro hcf
    have : inbounds (cur.1 + d.1) (cur.2 + d.2) = true := by
      have := hcf
      simp only [cellFree, Bool.and_eq_true] at this
      exact this.1
    rw [hin] at this
    cases this

/-- Loop invariant of the astar main loop (at the top of each iteration). -/
structure AInv (grid : List (List Int)) (start goal : Cell) (st : AState) : Prop where
  nodup : st.openset.Nodup
  goalOpen : keyG st goal → goal ∈ st.openset
  openKeys : ∀ c ∈ st.openset, keyG st c
  fval : ∀ c, st.f.lookup c = (st.g.lookup c).map (fun v => v + manhattan c goal)
  gbounds : ∀ c v, st.g.lookup c = some v → 0 ≤ v ∧ v ≤ BIG
  gstart : st.g.lookup start = some 0
  keyFree : ∀ c, keyG st c → cellFree grid c = true
  settled : ∀ c, keyG st c → c ∉ st.openset →
    ∀ d ∈ DIRS, cellFree grid (c.1 + d.1, c.2 + d.2) = true →
      gval st (c.1 + d.1, c.2 + d.2) ≤ gval st c + 1
  cameProp : ∀ c prev, st.came.lookup c = some prev →
    adjacent prev c = true ∧ keyG st c ∧ keyG st prev ∧ gval st prev + 1 ≤ gval st c
  cameKeys : ∀ c, keyG st c → c ≠ start → (st.came.lookup c).isSome = true
  cameStart : st.came.lookup start = none

/-- The invariant during the expansion of `cur`: `cur` has been removed from
the open set but its neighbours are not all relaxed yet. -/
structure RelaxInv (grid : List (List Int)) (start goal cur : Cell) (st : AState) : Prop where
  nodup : st.openset.Nodup
  goalOpen : keyG st goal → goal ∈ st.openset
  openKeys : ∀ c ∈ st.openset, keyG st c
  fval : ∀ c, st.f.lookup c = (st.g.lookup c).map (fun v => v + manhattan c goal)
  gbounds : ∀ c v, st.g.lookup c = some v → 0 ≤ v ∧ v ≤ BIG
  gstart : st.g.lookup start = some 0
  keyFree : ∀ c, keyG st c → cellFree grid c = true
  settledX : ∀ c, keyG st c → c ∉ st.openset → c ≠ cur →
    ∀ d ∈ DIRS, cellFree grid (c.1 + d.1, c.2 + d.2) = true →
      gval st (c.1 + d.1, c.2 + d.2) ≤ gval st c + 1
  cameProp : ∀ c prev, st.came.lookup c = some prev →
    adjacent prev c = true ∧ keyG st c ∧ keyG st prev ∧ gval st prev + 1 ≤ gval st c
  cameKeys : ∀ c, keyG st c → c ≠ start → (st.came.lookup c).isSome = true
  cameStart : st.came.lookup start = none
  curKey : keyG st cur
  curOut : cur ∉ st.openset

theorem ainv_gval_nonneg {grid : List (List Int)} {start goal : Cell} {st : AState}
    (h : AInv grid start goal st) (c : Cell) : 0 ≤ gval st c := by
  unfold gval lookupD
  cases hl : st.g.lookup c with
  | none => simp [BIG]
  | some v => simpa using (h.gbounds c v hl).1

theorem ainv_gval_le_BIG {grid : List (List Int)} {start goal : Cell} {st : AState}
    (h : AInv grid start goal st) (c : Cell) : gval st c ≤ BIG := by
  unfold gval lookupD
  cases hl : st.g.lookup c with
  | none => simp
  | some v => simpa using (h.gbounds c v hl).2

theorem rinv_gval_nonneg {grid : List (List Int)} {start goal cur : Cell} {st : AState}
    (h : RelaxInv grid start goal cur st) (c : Cell) : 0 ≤ gval st c := by
  unfold gval lookupD
  cases hl : st.g.lookup c with
  | none => simp [BIG]
  | some v => simpa using (h.gbounds c v hl).1

theorem rinv_gval_le_BIG {grid : List (List Int)} {start goal cur : Cell} {st : AState}
    (h : RelaxInv grid start goal cur st) (c : Cell) : gval st c ≤ BIG := by
  unfold gval lookupD
  cases hl : st.g.lookup c with
  | none => simp
  | some v => simpa using (h.gbounds c v hl).2

theorem cellFree_inbounds {grid : List (List Int)} {c : Cell}
    (h : cellFree grid c = true) : 0 ≤ c.1 ∧ c.1 < 24 ∧ 0 ≤ c.2 ∧ c.2 < 11 := by
  simp only [cellFree, Bool.and_eq_true] at h
  have := h.1
  simpa [inbounds, GRIDW, GRIDH] using this

/-- One neighbour relaxation preserves the expansion invariant, is monotone
on g-values, keys and the open set, leaves `cur` untouched, relaxes the
processed neighbour, and does not increase the termination measure. -/
theorem relaxNbr_pres {grid : List (List Int)} {start goal cur : Cell} {st st' : AState}
    {d : Int × Int} (hdim : GridWF grid) (hd : d ∈ DIRS)
    (hinv : RelaxInv grid start goal cur st)
    (h : relaxNbr grid goal cur st d = some st') :
    RelaxInv grid start goal cur st' ∧
      (∀ x, gval st' x ≤ gval st x) ∧ gval st' cur = gval st cur ∧
      (∀ x, keyG st x → keyG st' x) ∧ (∀ x ∈ st.openset, x ∈ st'.openset) ∧
      (cellFree grid (cur.1 + d.1, cur.2 + d.2) = true →
        gval st' (cur.1 + d.1, cur.2 + d.2) ≤ gval st' cur + 1) ∧
      Msr st' ≤ Msr st := by
  obtain ⟨st', h2, hcase⟩ := @relaxNbr_cases grid goal cur st d hdim
  rw [h2] at h
  cases h
  rcases hcase with ⟨heq, hskip⟩ | ⟨hfree, hlt, hg, hf, hcame, hopen⟩
  · subst heq
    exact ⟨hinv, fun x => le_refl _, rfl, fun x hx => hx, fun x hx => hx, hskip,
      le_refl _⟩
  · -- the update case
    set s : Cell := (cur.1 + d.1, cur.2 + d.2) with hs
    set t : Int := gval st cur + 1 with ht
    have hsne : s ≠ cur := dirs_step_ne hd cur
    have h0cur : 0 ≤ gval st cur := rinv_gval_nonneg hinv cur
    have h0t : 0 ≤ t := by omega
    have hsB : gval st s ≤ BIG := rinv_gval_le_BIG hinv s
    have htB : t ≤ BIG := by omega
    have hsstart : s ≠ start := by
      intro he
      rw [he] at hlt
      rw [gval_eq_of_lookup hinv.gstart] at hlt
      omega
    have hgv : ∀ x, gval st' x = if x = s then t else gval st x := by
      intro x
      by_cases hx : x = s
      · subst hx
        simp [gval, hg, lookupD_setA_self, ht]
      · simp [gval, hg, lookupD_setA_other hx, hx]
    have hkey : ∀ x, keyG st' x ↔ (x = s ∨ keyG st x) := by
      intro x
      unfold keyG
      rw [hg]
      exact setA_isSome
    have hmemopen : ∀ x, x ∈ st'.openset ↔ (x ∈ st.openset ∨ x = s) := by
      intro x
      rw [hopen]
      split
      · next hmem =>
        constructor
        · exact Or.inl
        · rintro (hx | hx)
          · exact hx
          · rw [hx]; exact hmem
      · simp [List.mem_append]
    have hsopen : s ∈ st'.openset := (hmemopen s).mpr (Or.inr rfl)
    have hmono : ∀ x, gval st' x ≤ gval st x := by
      intro x
      rw [hgv]
      split
      · next hx => rw [hx]; omega
      · exact le_refl _
    have hcurval : gval st' cur = gval st cur := by
      rw [hgv]
      rw [if_neg (fun he => hsne (he.symm))]
    have hkmono : ∀ x, keyG st x → keyG st' x := fun x hx => (hkey x).mpr (Or.inr hx)
    have homono : ∀ x ∈ st.openset, x ∈ st'.openset := fun x hx => (hmemopen x).mpr (Or.inl hx)
    have hadjs : adjacent cur s = true := adjacent_iff.mpr ⟨d, hd, rfl⟩
    have hcurkey2 : keyG st' cur := hkmono cur hinv.curKey
    refine ⟨?_, hmono, hcurval, hkmono, homono, ?_, ?_⟩
    · refine ⟨?_, ?_, ?_, ?_, ?_, ?_, ?_, ?_, ?_, ?_, ?_, hcurkey2, ?_⟩
      · -- nodup
        rw [hopen]
        split
        · exact hinv.nodup
        · next hnm =>
          rw [List.nodup_append]
          exact ⟨hinv.nodup, List.nodup_singleton s, by
            intro x hx hx1
            rw [List.mem_singleton] at hx1
            rw [hx1] at hx
            exact hnm hx⟩
      · -- goalOpen
        intro hkgoal
        rcases (hkey goal).mp hkgoal with hx | hx
        · rw [hx]; exact hsopen
        · exact homono goal (hinv.goalOpen hx)
      · -- openKeys
        intro c hc
        rcases (hmemopen c).mp hc with hx | hx
        · exact hkmono c (hinv.openKeys c hx)
        · exact (hkey c).mpr (Or.inl hx)
      · -- fval
        intro c
        by_cases hc : c = s
        · subst hc
          rw [hf, hg, setA_lookup_self, setA_lookup_self]
          rfl
        · rw [hf, hg, setA_lookup_other hc, setA_lookup_other hc]
          exact hinv.fval c
      · -- gbounds
        intro c v hv
        rw [hg] at hv
        by_cases hc : c = s
        · subst hc
          rw [setA_lookup_self] at hv
          cases hv
          omega
        · rw [setA_lookup_other hc] at hv
          exact hinv.gbounds c v hv
      · -- gstart
        rw [hg, setA_lookup_other (fun he => hsstart he.symm)]
        exact hinv.gstart
      · -- keyFree
        intro c hc
        rcases (hkey c).mp hc with hx | hx
        · rw [hx]; exact hfree
        · exact hinv.keyFree c hx
      · -- settledX
        intro c hc hcopen hccur d' hd' hfree'
        by_cases hcs : c = s
        · exact absurd (hcs ▸ hsopen) hcopen
        · have hck : keyG st c := by
            rcases (hkey c).mp hc with hx | hx
            · exact absurd hx hcs
            · exact hx
          have hcopen0 : c ∉ st.openset := fun hx => hcopen (homono c hx)
          have hold := hinv.settledX c hck hcopen0 hccur d' hd' hfree'
          have h1 : gval st' (c.1 + d'.1, c.2 + d'.2) ≤ gval st (c.1 + d'.1, c.2 + d'.2) :=
            hmono _
          have h2' : gval st' c = gval st c := by
            rw [hgv, if_neg hcs]
          omega
      · -- cameProp
        intro c prev hprev
        rw [hcame] at hprev
        by_cases hc : c = s
        · subst hc
          rw [setA_lookup_self] at hprev
          cases hprev
          refine ⟨hadjs, (hkey s).mpr (Or.inl rfl), hcurkey2, ?_⟩
          rw [hcurval, hgv s, if_pos rfl]
        · rw [setA_lookup_other hc] at hprev
          obtain ⟨ha1, ha2, ha3, ha4⟩ := hinv.cameProp c prev hprev
          refine ⟨ha1, hkmono c ha2, hkmono prev ha3, ?_⟩
          have h1 := hmono prev
          have h2' : gval st' c = gval st c := by rw [hgv, if_neg hc]
          omega
      · -- cameKeys
        intro c hc hcstart
        rw [hcame]
        by_cases hcs : c = s
        · subst hcs
          rw [setA_lookup_self]
          rfl
        · rw [setA_lookup_other hcs]
          have hck : keyG st c := by
            rcases (hkey c).mp hc with hx | hx
            · exact absurd hx hcs
            · exact hx
          exact hinv.cameKeys c hck hcstart
      · -- cameStart
        rw [hcame, setA_lookup_other (fun he => hsstart he.symm)]
        exact hinv.cameStart
      · -- curOut
        intro hcur
        rcases (hmemopen cur).mp hcur with hx | hx
        · exact hinv.curOut hx
        · exact hsne hx.symm
    · -- the processed neighbour is relaxed
      intro _
      rw [hcurval, hgv s, if_pos rfl]
    · -- measure does not increase
      have hsum : ((allCells.map (fun c => (gval st' c).toNat)).sum ≤
          (allCells.map (fun c => (gval st c).toNat)).sum) := by
        apply List.sum_le_sum
        intro c hc
        have := hmono c
        omega
      unfold Msr
      rw [hopen]
      split
      · next hmem => omega
      · next hnm =>
        have hin : 0 ≤ s.1 ∧ s.1 < 24 ∧ 0 ≤ s.2 ∧ s.2 < 11 := cellFree_inbounds hfree
        have hsmem : s ∈ allCells := mem_allCells.mpr hin
        have hstrict : ((allCells.map (fun c => (gval st' c).toNat)).sum <
            (allCells.map (fun c => (gval st c).toNat)).sum) := by
          apply List.sum_lt_sum
          · intro c hc
            have := hmono c
            omega
          · refine ⟨s, hsmem, ?_⟩
            have h1 : gval st' s = t := by rw [hgv, if_pos rfl]
            omega
        simp only [List.length_append, List.length_singleton]
        omega

theorem relaxAll_pres {grid : List (List Int)} {start goal cur : Cell}
    (hdim : GridWF grid) :
    ∀ (ds : List (Int × Int)) (st st' : AState), (∀ d ∈ ds, d ∈ DIRS) →
    RelaxInv grid start goal cur st →
    relaxAll grid goal cur ds st = some st' →
    RelaxInv grid start goal cur st' ∧
      (∀ x, gval st' x ≤ gval st x) ∧ gval st' cur = gval st cur ∧
      (∀ x, keyG st x → keyG st' x) ∧ (∀ x ∈ st.openset, x ∈ st'.openset) ∧
      (∀ d ∈ ds, cellFree grid (cur.1 + d.1, cur.2 + d.2) = true →
        gval st' (cur.1 + d.1, cur.2 + d.2) ≤ gval st' cur + 1) ∧
      Msr st' ≤ Msr st := by
  intro ds
  induction ds with
  | nil =>
    intro st st' _ hinv h
    simp only [relaxAll, Option.some.injEq] at h
    subst h
    exact ⟨hinv, fun x => le_refl _, rfl, fun x hx => hx, fun x hx => hx,
      by simp, le_refl _⟩
  | cons d ds ih =>
    intro st st' hds hinv h
    simp only [relaxAll, Option.bind_eq_bind] at h
    obtain ⟨st1, h1, h2⟩ := Option.bind_eq_some.mp h
    obtain ⟨hinv1, hmono1, hcur1, hk1, ho1, hrel1, hm1⟩ :=
      relaxNbr_pres hdim (hds d (List.mem_cons_self _ _)) hinv h1
    obtain ⟨hinv2, hmono2, hcur2, hk2, ho2, hrel2, hm2⟩ :=
      ih st1 st' (fun d' hd' => hds d' (List.mem_cons_of_mem _ hd')) hinv1 h2
    refine ⟨hinv2, fun x => le_trans (hmono2 x) (hmono1 x), by rw [hcur2, hcur1],
      fun x hx => hk2 x (hk1 x hx), fun x hx => ho2 x (ho1 x hx), ?_,
      le_trans hm2 hm1⟩
    intro d' hd' hfree
    rcases List.mem_cons.mp hd' with he | he
    · subst he
      have ha := hrel1 hfree
      have hb := hmono2 (cur.1 + d'.1, cur.2 + d'.2)
      rw [hcur2]
      omega
    · exact hrel2 d' he hfree

theorem pathOk_head_free {grid : List (List Int)} {x : Cell} {l : List Cell}
    (h : pathOk grid (x :: l) = true) : cellFree grid x = true := by
  cases l with
  | nil => simpa [pathOk] using h
  | cons a b => exact (pathOk_cons_inv h).1

/-- Frontier property: along any valid path, either the end cell's g-value
is at most the entry bound plus the number of steps, or some cell on the
path is open with g-value at most its position. -/
theorem chain_lemma {grid : List (List Int)} {start goal : Cell} {st : AState}
    (hinv : AInv grid start goal st) :
    ∀ (q : List Cell) (c0 : Cell) (n : Int), pathOk grid (c0 :: q) = true →
      gval st c0 ≤ n → 0 ≤ n → n + q.length < BIG →
      (∀ z, (c0 :: q).getLast? = some z → gval st z ≤ n + q.length) ∨
      ∃ c q1 q2, c0 :: q = q1 ++ c :: q2 ∧ c ∈ st.openset ∧
        gval st c ≤ n + q1.length := by
  intro q
  induction q with
  | nil =>
    intro c0 n hp hg hn hB
    left
    intro z hz
    have hz0 : c0 = z := by simpa using hz
    subst hz0
    simpa using hg
  | cons c1 q' ih =>
    intro c0 n hp hg hn hB
    by_cases hopen : c0 ∈ st.openset
    · right
      exact ⟨c0, [], c1 :: q', rfl, hopen, by simpa using hg⟩
    · have hkey : keyG st c0 := by
        apply keyG_of_gval_lt
        have h1 : (0:Int) ≤ ((c1 :: q').length : Int) := by positivity
        omega
      obtain ⟨hf0, hadj, hp'⟩ := pathOk_cons_inv hp
      obtain ⟨d, hd, hc1⟩ := adjacent_iff.mp hadj
      have hfree1 : cellFree grid c1 = true := pathOk_head_free hp'
      have hstep := hinv.settled c0 hkey hopen d hd (by rw [← hc1]; exact hfree1)
      rw [← hc1] at hstep
      have hg1 : gval st c1 ≤ n + 1 := by omega
      have hB' : (n + 1) + (q'.length : Int) < BIG := by
        simp only [List.length_cons] at hB
        push_cast at hB ⊢
        omega
      rcases ih c1 (n + 1) hp' hg1 (by omega) hB' with hL | ⟨c, q1, q2, hsplit, hco, hcg⟩
      · left
        intro z hz
        have hz' : (c1 :: q').getLast? = some z := by
          simpa [List.getLast?_cons_cons] using hz
        have h2 := hL z hz'
        simp only [List.length_cons]
        push_cast
        push_cast at h2
        omega
      · right
        refine ⟨c, c0 :: q1, q2, by rw [List.cons_append, hsplit], hco, ?_⟩
        simp only [List.length_cons]
        push_cast
        push_cast at hcg
        omega

theorem head?_append_left {l l' : List α} {a : α} (h : l.head? = some a) :
    (l ++ l').head? = some a := by
  cases l with
  | nil => cases h
  | cons x xs => simpa using h

/-- Reconstruction follows the `came` chain back to `start`, producing a
valid path from `start` to `c` with at most `gval c` steps. -/
theorem reconstruct_sound {grid : List (List Int)} {start goal : Cell} {st : AState}
    (hinv : AInv grid start goal st) (hstart : cellFree grid start = true) :
    ∀ (fuel : Nat) (c : Cell) (acc : List Cell), keyG st c →
      (gval st c).toNat < fuel →
      ∃ p, reconstruct st.came fuel c acc = some (p ++ (c :: acc)) ∧
        pathOk grid (p ++ [c]) = true ∧ (p ++ [c]).head? = some start ∧
        ((p ++ [c]).length : Int) ≤ gval st c + 1 := by
  intro fuel
  induction fuel with
  | zero =>
    intro c acc _ h
    exact absurd h (Nat.not_lt_zero _)
  | succ fuel ih =>
    intro c acc hkey hfuel
    by_cases hc : c = start
    · subst hc
      simp only [reconstruct, hinv.cameStart]
      refine ⟨[], rfl, by simpa using pathOk_single hstart, rfl, ?_⟩
      rw [gval_eq_of_lookup hinv.gstart]
      simp
    · have hcame := hinv.cameKeys c hkey hc
      obtain ⟨prev, hprev⟩ := Option.isSome_iff_exists.mp hcame
      obtain ⟨hadj, hck, hpk, hgltp⟩ := hinv.cameProp c prev hprev
      have h0p := ainv_gval_nonneg hinv prev
      have hprevfuel : (gval st prev).toNat < fuel := by omega
      obtain ⟨p, hrec, hpath, hhead, hlen⟩ := ih prev (c :: acc) hpk hprevfuel
      refine ⟨p ++ [prev], ?_, ?_, ?_, ?_⟩
      · simp only [reconstruct, hprev]
        rw [hrec]
        simp [List.append_assoc]
      · refine pathOk_snoc (p ++ [prev]) prev c hpath ?_ hadj (hinv.keyFree c hck)
        simp
      · exact head?_append_left hhead
      · simp only [List.length_append, List.length_singleton] at hlen ⊢
        push_cast at hlen ⊢
        omega

theorem fval_eq {grid : List (List Int)} {start goal : Cell} {st : AState}
    (hinv : AInv grid start goal st) {x : Cell} (hx : keyG st x) :
    lookupD st.f x BIG = gval st x + manhattan x goal := by
  obtain ⟨v, hv⟩ := Option.isSome_iff_exists.mp hx
  have hf := hinv.fval x
  rw [hv] at hf
  simp only [Option.map_some'] at hf
  rw [lookupD, hf, Option.getD_some, gval_eq_of_lookup hv]

theorem minF_le_of_mem {f : List (Cell × Int)} {l : List Cell} {best x : Cell}
    (hx : x ∈ best :: l) :
    lookupD f (minF f l best) BIG ≤ lookupD f x BIG := by
  obtain ⟨-, hle, hall⟩ := minF_spec f l best
  rcases List.mem_cons.mp hx with h | h
  · rw [h]; exact hle
  · exact hall x h

theorem minF_mem_cons {f : List (Cell × Int)} {l : List Cell} {best : Cell} :
    minF f l best ∈ best :: l := by
  obtain ⟨hmem, -, -⟩ := minF_spec f l best
  rcases hmem with h | h
  · rw [h]; exact List.mem_cons_self _ _
  · exact List.mem_cons_of_mem _ h

theorem getLast?_append_right {l : List α} :
    ∀ (l' : List α), l' ≠ [] → (l ++ l').getLast? = l'.getLast? := by
  induction l with
  | nil => intro l' h; rfl
  | cons x xs ih =>
    intro l' h
    cases hxs : xs ++ l' with
    | nil => exact absurd (List.append_eq_nil.mp hxs).2 h
    | cons a l2 =>
      have h1 : ((x :: xs) ++ l').getLast? = (a :: l2).getLast? := by
        rw [List.cons_append, hxs]
        rw [List.getLast?_cons_cons]
      rw [h1, ← hxs, ih l' h]

/-- Every valid path from `start` to `goal` either certifies
`gval goal ≤ steps`, or crosses the open frontier at a cell whose g-value
plus Manhattan distance to `goal` is at most the number of steps. -/
theorem gval_goal_le {grid : List (List Int)} {start goal : Cell} {st : AState}
    (hinv : AInv grid start goal st) {q : List Cell} (hq : pathOk grid q = true)
    (hh : q.head? = some start) (hl : q.getLast? = some goal)
    (hlen : (q.length : Int) < BIG) :
    (gval st goal ≤ (q.length : Int) - 1) ∨
    ∃ cc, cc ∈ st.openset ∧ gval st cc + manhattan cc goal ≤ (q.length : Int) - 1 := by
  cases q with
  | nil => cases hh
  | cons c0 t =>
    have hc0 : c0 = start := by simpa using hh
    subst hc0
    have h0 : gval st c0 ≤ 0 := by rw [gval_eq_of_lookup hinv.gstart]
    have hB : (0:Int) + (t.length : Int) < BIG := by
      simp only [List.length_cons] at hlen
      push_cast at hlen
      omega
    rcases chain_lemma hinv t c0 0 hq h0 (le_refl 0) hB with
      hL | ⟨cc, q1, q2, hsplit, hco, hcg⟩
    · left
      have := hL goal hl
      simp only [List.length_cons]
      push_cast
      omega
    · right
      refine ⟨cc, hco, ?_⟩
      have hq2 : pathOk grid (cc :: q2) = true :=
        pathOk_suffix q1 (cc :: q2) (by rw [← hsplit]; exact hq) (List.cons_ne_nil _ _)
      have hl2 : (cc :: q2).getLast? = some goal := by
        rw [hsplit] at hl
        rw [← getLast?_append_right (cc :: q2) (List.cons_ne_nil _ _)]
        exact hl
      have hman := pathOk_man_last (cc :: q2) hq2 cc goal rfl hl2
      have hlen1 : (c0 :: t).length = q1.length + (cc :: q2).length := by
        rw [hsplit, List.length_append]
      simp only [List.length_cons] at hman hlen1 ⊢
      push_cast at hman hlen1 hcg ⊢
      omega

theorem relaxAll_total {grid : List (List Int)} {goal cur : Cell}
    (hdim : GridWF grid) :
    ∀ (ds : List (Int × Int)) (st : AState), ∃ st', relaxAll grid goal cur ds st = some st' := by
  intro ds
  induction ds with
  | nil => exact fun st => ⟨st, rfl⟩
  | cons d ds ih =>
    intro st
    obtain ⟨st1, h1, -⟩ := @relaxNbr_cases grid goal cur st d hdim
    obtain ⟨st2, h2⟩ := ih st1
    exact ⟨st2, by simp only [relaxAll, Option.bind_eq_bind, h1, Option.some_bind]; exact h2⟩

/-- Main-loop correctness: from any invariant state with enough fuel, the
loop returns a valid optimal path from `start` to `goal`, provided some
valid path of bounded length exists. -/
theorem astarLoop_correct {grid : List (List Int)} {start goal : Cell}
    (hdim : GridWF grid) (hstart : cellFree grid start = true)
    {q0 : List Cell} (hq0 : pathOk grid q0 = true) (hq0h : q0.head? = some start)
    (hq0l : q0.getLast? = some goal) (hq0len : (q0.length : Int) < BIG) :
    ∀ fuel (st : AState), AInv grid start goal st → Msr st < fuel →
    ∃ p, astarLoop grid goal fuel st = some p ∧ p ≠ [] ∧
      p.head? = some start ∧ p.getLast? = some goal ∧ pathOk grid p = true ∧
      ∀ q, pathOk grid q = true → q.head? = some start → q.getLast? = some goal →
        (q.length : Int) < BIG → p.length ≤ q.length := by
  intro fuel
  induction fuel with
  | zero =>
    intro st _ hM
    exact absurd hM (Nat.not_lt_zero _)
  | succ fuel ih =>
    intro st hinv hM
    obtain ⟨os, cm, gg, ff⟩ := st
    cases os with
    | nil =>
      exfalso
      rcases gval_goal_le hinv hq0 hq0h hq0l hq0len with hL | ⟨cc, hco, -⟩
      · have hq0pos : (0:Int) ≤ (q0.length : Int) := by positivity
        have hkg : keyG ⟨[], cm, gg, ff⟩ goal := keyG_of_gval_lt (by omega)
        have hmem := hinv.goalOpen hkg
        cases hmem
      · cases hco
    | cons c rest =>
      by_cases hpop : (minF ff rest c == goal) = true
      · have hgc : minF ff rest c = goal := by simpa using hpop
        have hcmemo : goal ∈ (⟨c :: rest, cm, gg, ff⟩ : AState).openset := by
          rw [← hgc]
          exact minF_mem_cons
        have hkeygoal : keyG ⟨c :: rest, cm, gg, ff⟩ goal := hinv.openKeys goal hcmemo
        have hgB := ainv_gval_le_BIG hinv goal
        have hg0 := ainv_gval_nonneg hinv goal
        have hfuelrec : (gval ⟨c :: rest, cm, gg, ff⟩ goal).toNat < Int.toNat BIG + 1 := by
          omega
        obtain ⟨p, hrec, hpath, hhead, hlen⟩ :=
          reconstruct_sound hinv hstart (Int.toNat BIG + 1) goal [] hkeygoal hfuelrec
        refine ⟨p ++ [goal], ?_, by simp, hhead, ?_, hpath, ?_⟩
        · simp only [astarLoop, hpop, if_true]
          rw [hgc]
          exact hrec
        · rw [getLast?_append_right [goal] (List.cons_ne_nil _ _)]
          rfl
        · intro q hq hqh hql hqlen
          rcases gval_goal_le hinv hq hqh hql hqlen with hL | ⟨cc, hco, hcle⟩
          · simp only [List.length_append, List.length_singleton] at hlen ⊢
            push_cast at hlen ⊢
            omega
          · have hkc : keyG ⟨c :: rest, cm, gg, ff⟩ cc := hinv.openKeys cc hco
            have hfmin : lookupD ff (minF ff rest c) BIG ≤ lookupD ff cc BIG :=
              minF_le_of_mem hco
            rw [hgc] at hfmin
            have hfg := fval_eq hinv hkeygoal
            have hfc := fval_eq hinv hkc
            rw [hfg, hfc, man_self] at hfmin
            simp only [List.length_append, List.length_singleton] at hlen ⊢
            push_cast at hlen ⊢
            omega
      · have hgne : minF ff rest c ≠ goal := by simpa using hpop
        have hcmem : minF ff rest c ∈ (⟨c :: rest, cm, gg, ff⟩ : AState).openset :=
          minF_mem_cons
        have hrinv : RelaxInv grid start goal (minF ff rest c)
            ⟨(c :: rest).erase (minF ff rest c), cm, gg, ff⟩ := by
          refine ⟨hinv.nodup.erase _, ?_, ?_, hinv.fval, hinv.gbounds, hinv.gstart,
            hinv.keyFree, ?_, hinv.cameProp, hinv.cameKeys, hinv.cameStart,
            hinv.openKeys _ hcmem, ?_⟩
          · intro hkg
            exact (List.mem_erase_of_ne (fun he => hgne he.symm)).mpr (hinv.goalOpen hkg)
          · intro c' hc'
            exact hinv.openKeys c' (List.mem_of_mem_erase hc')
          · intro c' hk' hc'open hc'cur d hd hfree
            refine hinv.settled c' hk' ?_ d hd hfree
            intro hc'mem
            exact hc'open ((List.mem_erase_of_ne hc'cur).mpr hc'mem)
          · intro hmem
            obtain ⟨hne, -⟩ := (List.Nodup.mem_erase_iff hinv.nodup).mp hmem
            exact hne rfl
        obtain ⟨st1, hst1⟩ := relaxAll_total hdim DIRS
          ⟨(c :: rest).erase (minF ff rest c), cm, gg, ff⟩
        obtain ⟨hinv1, hmono, hcurval, hkeys, hopens, hrelax, hMle⟩ :=
          relaxAll_pres hdim DIRS _ st1 (fun d hd => hd) hrinv hst1
        have hainv1 : AInv grid start goal st1 := by
          refine ⟨hinv1.nodup, hinv1.goalOpen, hinv1.openKeys, hinv1.fval, hinv1.gbounds,
            hinv1.gstart, hinv1.keyFree, ?_, hinv1.cameProp, hinv1.cameKeys,
            hinv1.cameStart⟩
          intro c' hk' hopen' d hd hfree
          by_cases hcc : c' = minF ff rest c
          · subst hcc
            exact hrelax d hd hfree
          · exact hinv1.settledX c' hk' hopen' hcc d hd hfree
        have hsames : (allCells.map (fun x =>
            (gval (⟨(c :: rest).erase (minF ff rest c), cm, gg, ff⟩ : AState) x).toNat))
            = allCells.map (fun x =>
              (gval (⟨c :: rest, cm, gg, ff⟩ : AState) x).toNat) := rfl
        have hMer : Msr ⟨(c :: rest).erase (minF ff rest c), cm, gg, ff⟩ <
            Msr ⟨c :: rest, cm, gg, ff⟩ := by
          unfold Msr
          rw [hsames]
          have hlene : ((c :: rest).erase (minF ff rest c)).length
              = (c :: rest).length - 1 := List.length_erase_of_mem hcmem
          simp only [List.length_cons] at hlene ⊢
          omega
        have hM1 : Msr st1 < fuel := by omega
        obtain ⟨p, hloop, hpne, hph, hpl, hppath, hpopt⟩ := ih st1 hainv1 hM1
        refine ⟨p, ?_, hpne, hph, hpl, hppath, hpopt⟩
        have hpopf : (minF ff rest c == goal) = false := by
          simpa using hpop
        simp only [astarLoop, hpopf, Bool.false_eq_true, if_false, Option.bind_eq_bind,
          hst1, Option.some_bind]
        exact hloop

theorem pathOk_mem_free {grid : List (List Int)} :
    ∀ q, pathOk grid q = true → ∀ c ∈ q, cellFree grid c = true := by
  intro q
  induction q with
  | nil => intro _ c hc; cases hc
  | cons a t ih =>
    intro h c hc
    rcases List.mem_cons.mp hc with he | he
    · rw [he]; exact pathOk_head_free h
    · cases t with
      | nil => cases he
      | cons b t' => exact ih (pathOk_cons_inv h).2.2 c he

/-- Any valid path can be shortened to a duplicate-free valid path with the
same endpoints. -/
theorem path_dedup {grid : List (List Int)} :
    ∀ (n : Nat) (q : List Cell), q.length ≤ n → pathOk grid q = true →
      ∃ q', pathOk grid q' = true ∧ q'.head? = q.head? ∧ q'.getLast? = q.getLast? ∧
        q'.length ≤ q.length ∧ q'.Nodup := by
  intro n
  induction n with
  | zero =>
    intro q hlen hq
    cases q with
    | nil => simp [pathOk] at hq
    | cons a t => simp at hlen
  | succ n ih =>
    intro q hlen hq
    by_cases hnd : q.Nodup
    · exact ⟨q, hq, rfl, rfl, le_refl _, hnd⟩
    · cases q with
      | nil => simp at hnd
      | cons a t =>
        by_cases hat : a ∈ t
        · obtain ⟨u1, u2, hu⟩ := List.append_of_mem hat
          have hq' : pathOk grid ((a :: u1) ++ (a :: u2)) = true := by
            rw [show (a :: u1) ++ (a :: u2) = a :: (u1 ++ a :: u2) from rfl, ← hu]
            exact hq
          have hsuf : pathOk grid (a :: u2) = true :=
            pathOk_suffix (a :: u1) (a :: u2) hq' (List.cons_ne_nil _ _)
          have hlen2 : (a :: u2).length ≤ n := by
            subst hu
            simp only [List.length_cons, List.length_append] at hlen ⊢
            omega
          obtain ⟨q', h1, h2, h3, h4, h5⟩ := ih (a :: u2) hlen2 hsuf
          refine ⟨q', h1, by rw [h2]; rfl, ?_, ?_, h5⟩
          · rw [h3]
            subst hu
            rw [show a :: (u1 ++ a :: u2) = (a :: u1) ++ (a :: u2) from rfl]
            rw [getLast?_append_right (a :: u2) (List.cons_ne_nil _ _)]
          · subst hu
            simp only [List.length_cons, List.length_append] at h4 ⊢
            omega
        · have hndt : ¬ t.Nodup := by
            intro h
            exact hnd (List.nodup_cons.mpr ⟨hat, h⟩)
          cases t with
          | nil => simp at hndt
          | cons b t' =>
            obtain ⟨hfa, hadj, hpt⟩ := pathOk_cons_inv hq
            have hlent : (b :: t').length ≤ n := by
              simp only [List.length_cons] at hlen ⊢
              omega
            obtain ⟨q', h1, h2, h3, h4, h5⟩ := ih (b :: t') hlent hpt
            cases q' with
            | nil => cases h2
            | cons b2 t2 =>
              have hb : b2 = b := by simpa using h2
              subst hb
              by_cases hax : a ∈ b2 :: t2
              · obtain ⟨u1, u2, hu⟩ := List.append_of_mem hax
                have hsuf : pathOk grid (a :: u2) = true := by
                  refine pathOk_suffix u1 (a :: u2) ?_ (List.cons_ne_nil _ _)
                  rw [← hu]
                  exact h1
                have hlen3 : (a :: u2).length ≤ n := by
                  have h6 : (b2 :: t2).length = u1.length + (a :: u2).length := by
                    rw [hu, List.length_append]
                  simp only [List.length_cons] at h4 h6 hlen ⊢
                  omega
                obtain ⟨q2, k1, k2, k3, k4, k5⟩ := ih (a :: u2) hlen3 hsuf
                refine ⟨q2, k1, by rw [k2]; rfl, ?_, ?_, k5⟩
                · rw [k3]
                  have h7 : (b2 :: t2).getLast? = (a :: u2).getLast? := by
                    rw [hu, getLast?_append_right (a :: u2) (List.cons_ne_nil _ _)]
                  rw [← h7, h3, List.getLast?_cons_cons]
                · have h6 : (b2 :: t2).length = u1.length + (a :: u2).length := by
                    rw [hu, List.length_append]
                  simp only [List.length_cons] at h4 h6 k4 ⊢
                  omega
              · refine ⟨a :: b2 :: t2, ?_, rfl, ?_, ?_, List.nodup_cons.mpr ⟨hax, h5⟩⟩
                · have hadj2 : adjacent a b2 = true := hadj
                  have hfree2 : pathOk grid (b2 :: t2) = true := h1
                  simp only [pathOk, Bool.and_eq_true]
                  exact ⟨⟨hfa, hadj2⟩, hfree2⟩
                · rw [List.getLast?_cons_cons, List.getLast?_cons_cons]
                  exact h3
                · simp only [List.length_cons] at h4 ⊢
                  omega

theorem allCells_length : allCells.length = 264 := by
  simp [allCells]

theorem nodup_path_le {grid : List (List Int)} {q : List Cell}
    (hq : pathOk grid q = true) (hn : q.Nodup) : q.length ≤ 264 := by
  have hsub : ∀ x ∈ q.toFinset, x ∈ allCells.toFinset := by
    intro x hx
    rw [List.mem_toFinset] at hx ⊢
    have hf := pathOk_mem_free q hq x hx
    have hb := cellFree_inbounds hf
    have h1 : (x.1, x.2) ∈ allCells := mem_allCells.mpr hb
    exact h1
  calc q.length = q.toFinset.card := (List.toFinset_card_of_nodup hn).symm
    _ ≤ allCells.toFinset.card := Finset.card_le_card hsub
    _ ≤ allCells.length := allCells.toFinset_card_le
    _ = 264 := allCells_length

/-- **C2.** For every `GRIDH x GRIDW` grid with an unblocked border, and
every in-bounds unblocked start and goal cells joined by some 4-connected
path of unblocked cells, `astar` returns a path: it is non-empty, begins at
`start`, ends at `goal`, is itself a valid 4-connected path of unblocked
cells, and no valid path from `start` to `goal` is shorter — its number of
steps is the true shortest path length. -/
theorem C2_astar_optimal (grid : List (List Int)) (start goal : Cell)
    (hdim : GridWF grid) (hborder : BorderFree grid)
    (hsfree : cellFree grid start = true) (hgfree : cellFree grid goal = true)
    (hreach : ∃ q, pathOk grid q = true ∧ q.head? = some start ∧
      q.getLast? = some goal) :
    ∃ p, astar grid start goal = some p ∧ p ≠ [] ∧ p.head? = some start ∧
      p.getLast? = some goal ∧ pathOk grid p = true ∧
      ∀ q, pathOk grid q = true → q.head? = some start → q.getLast? = some goal →
        p.length ≤ q.length := by
  obtain ⟨qr, hqr, hqrh, hqrl⟩ := hreach
  obtain ⟨q0, hq0, hq0h, hq0l, hq0le, hq0nd⟩ := path_dedup qr.length qr (le_refl _) hqr
  rw [hqrh] at hq0h
  rw [hqrl] at hq0l
  have hq0b : q0.length ≤ 264 := nodup_path_le hq0 hq0nd
  have hq0len : (q0.length : Int) < BIG := by
    have h1 : (q0.length : Int) ≤ 264 := by exact_mod_cast hq0b
    simp only [BIG]
    omega
  by_cases hsg : start = goal
  · subst hsg
    refine ⟨[start], by simp [astar], by simp, rfl, rfl, pathOk_single hsfree, ?_⟩
    intro q hq hqh hql
    cases q with
    | nil => cases hqh
    | cons a t => simp
  · have hgs : (goal == start) = false := beq_eq_false_iff_ne.mpr (fun h => hsg h.symm)
    have hkstart : ∀ c : Cell,
        (List.lookup c [(start, (0:Int))]).isSome = true → c = start := by
      intro c hc
      by_cases h1 : (c == start) = true
      · exact eq_of_beq h1
      · have h2 : (c == start) = false := by simpa using h1
        simp [List.lookup, h2] at hc
    have hinv0 : AInv grid start goal
        ⟨[start], [], [(start, 0)], [(start, manhattan start goal)]⟩ := by
      refine ⟨List.nodup_singleton _, ?_, ?_, ?_, ?_, ?_, ?_, ?_, ?_, ?_, rfl⟩
      · intro hkg
        have := hkstart goal hkg
        exact absurd this.symm hsg
      · intro c hc
        have hc1 : c = start := by simpa using hc
        subst hc1
        simp [keyG, List.lookup]
      · intro c
        by_cases h1 : (c == start) = true
        · have hc1 : c = start := eq_of_beq h1
          subst hc1
          simp [List.lookup]
        · have h2 : (c == start) = false := by simpa using h1
          simp [List.lookup, h2]
      · intro c v hv
        by_cases h1 : (c == start) = true
        · simp only [List.lookup, h1] at hv
          cases hv
          exact ⟨le_refl 0, by norm_num [BIG]⟩
        · have h2 : (c == start) = false := by simpa using h1
          simp [List.lookup, h2] at hv
      · simp [List.lookup]
      · intro c hc
        have hc1 : c = start := hkstart c hc
        subst hc1
        exact hsfree
      · intro c hc hcopen d hd hfree
        exfalso
        have hc1 : c = start := hkstart c hc
        subst hc1
        exact hcopen (List.mem_singleton.mpr rfl)
      · intro c prev h
        cases h
      · intro c hc hcs
        exact absurd (hkstart c hc) hcs
    have hM0 : Msr ⟨[start], [], [(start, 0)], [(start, manhattan start goal)]⟩
        < AFUEL := by
      have hbound : ∀ v ∈ (allCells.map (fun c => (gval
          (⟨[start], [], [(start, 0)], [(start, manhattan start goal)]⟩ : AState)
          c).toNat)), v ≤ 1000000000 := by
        intro v hv
        obtain ⟨c, hc, hveq⟩ := List.mem_map.mp hv
        rw [← hveq]
        unfold gval lookupD
        by_cases h1 : (c == start) = true
        · simp [List.lookup, h1]
        · have h2 : (c == start) = false := by simpa using h1
          simp [List.lookup, h2, BIG]
      have hsum := List.sum_le_card_nsmul _ 1000000000 hbound
      rw [List.length_map, allCells_length, smul_eq_mul] at hsum
      unfold Msr AFUEL
      simp only [List.length_singleton]
      omega
    obtain ⟨p, hloop, hpne, hph, hpl, hppath, hpopt⟩ :=
      astarLoop_correct hdim hsfree hq0 hq0h hq0l hq0len AFUEL
        ⟨[start], [], [(start, 0)], [(start, manhattan start goal)]⟩ hinv0 hM0
    have hsgf : (start == goal) = false := beq_eq_false_iff_ne.mpr hsg
    refine ⟨p, ?_, hpne, hph, hpl, hppath, ?_⟩
    · simp only [astar, hsgf, Bool.false_eq_true, if_false]
      exact hloop
    · intro q hq hqh hql
      by_cases hqb : (q.length : Int) < BIG
      · exact hpopt q hq hqh hql hqb
      · have h1 := hpopt q0 hq0 hq0h hq0l hq0len
        have h2 : ¬ (q.length : Int) < BIG := hqb
        simp only [BIG] at h2
        omega

/-- The empty 24x11 arena grid. -/
def c2grid : List (List Int) := List.replicate 11 (List.replicate 24 0)

/-- Witness for `C2_astar_optimal` on the empty arena grid with adjacent
start and goal cells. -/
theorem C2_astar_optimal_witness :
    ∃ p, astar c2grid (0, 0) (1, 0) = some p ∧ p ≠ [] ∧ p.head? = some ((0:Int), (0:Int)) ∧
      p.getLast? = some ((1:Int), (0:Int)) ∧ pathOk c2grid p = true ∧
      ∀ q, pathOk c2grid q = true → q.head? = some ((0:Int), (0:Int)) →
        q.getLast? = some ((1:Int), (0:Int)) → p.length ≤ q.length :=
  C2_astar_optimal c2grid (0, 0) (1, 0) (by decide) (by decide) (by decide) (by decide)
    ⟨[(0, 0), (1, 0)], by decide, by decide, by decide⟩

/-! ## Claim C10 : `decide_action` does not mutate its inputs

Python objects are mutable and passed by reference, so input immutability is
a heap property: a shallow-clone bug (sharing Pokemon objects, the elixirs
dict or the battle state between a real agent and a simulation) would let
the search corrupt live game state.  The call graph of `decide_action` is
re-embedded over an explicit store: `Pokemon` objects, elixir dicts and
`BattleState` objects live in a `Heap` and are reached through indices;
`Agent` attribute reads stay value-level (nothing in this call graph
assigns agent attributes).  Each heap function mirrors the corresponding
Python statements; mutation is `List.set` at the object's index. -/

structure Heap where
  pokes : List Pokemon
  dicts : List (List (String × Int))
  bstates : List BattleState
deriving Repr, DecidableEq

/-- An agent whose mutable members are references into the heap. -/
structure AgentR where
  name : String
  team : List Nat
  coins : Int := 0
  fuel : Int := 0
  elixirs : Nat
  position : ℚ × ℚ := (0, 0)
  targetpos : ℚ × ℚ := (0, 0)
deriving Repr, DecidableEq

def Heap.poke (h : Heap) (i : Nat) : Option Pokemon := h.pokes.get? i

def Heap.setPoke (h : Heap) (i : Nat) (p : Pokemon) : Heap :=
  { h with pokes := h.pokes.set i p }

def Heap.dict (h : Heap) (i : Nat) : Option (List (String × Int)) := h.dicts.get? i

def Heap.setDict (h : Heap) (i : Nat) (d : List (String × Int)) : Heap :=
  { h with dicts := h.dicts.set i d }

def Heap.bstate (h : Heap) (i : Nat) : Option BattleState := h.bstates.get? i

def Heap.setBState (h : Heap) (i : Nat) (b : BattleState) : Heap :=
  { h with bstates := h.bstates.set i b }

/-- `agent.team[idx]` : Python list indexing followed by dereference. -/
def teamPoke (h : Heap) (team : List Nat) (idx : Int) : Option Pokemon := do
  let pid ← pyIdx team idx
  h.poke pid

/-- `agent.team[idx].method(...)` : in-place mutation of the referenced
Pokemon object. -/
def mutPokeAt (h : Heap) (team : List Nat) (idx : Int) (f : Pokemon → Pokemon) :
    Option Heap := do
  let pid ← pyIdx team idx
  let p ← h.poke pid
  some (h.setPoke pid (f p))

/-- The inner `apply(agent, act, activeidxref)` of the simulated turn, over
the heap. -/
def applyH (h : Heap) (agent : AgentR) (act : BattleAction) (activeidx : Int) :
    Option (Heap × Int) :=
  match act.kind, act.arg with
  | BActEnum.SWAP, some (Sum.inl j) =>
    if 0 ≤ j ∧ j < agent.team.length then do
      let p ← teamPoke h agent.team j
      if p.alive then some (h, j) else some (h, activeidx)
    else some (h, activeidx)
  | BActEnum.HEAL, some (Sum.inr sname) => do
    let d ← h.dict agent.elixirs
    if (d.lookup sname).getD 0 > 0 then
      match ELIXIRS.lookup sname with
      | none => none
      | some (healamt, _) => do
        let h1 ← mutPokeAt h agent.team activeidx (fun p => p.heal healamt)
        some (h1.setDict agent.elixirs (decElixir d sname), activeidx)
    else some (h, activeidx)
  | _, _ => some (h, activeidx)

/-- `for i, p in enumerate(team): if p.alive: return i` over references. -/
def findAliveH (h : Heap) : List Nat → Nat → Option (Option Nat)
  | [], _ => some none
  | pid :: rest, k => do
    let p ← h.poke pid
    if p.alive then some (some k) else findAliveH h rest (k + 1)

def advanceIdxH (h : Heap) (team : List Nat) (idx : Int) : Option Int := do
  let p ← teamPoke h team idx
  if !p.alive then do
    let r ← findAliveH h team 0
    match r with
    | some i => pure (i : Int)
    | none => pure idx
  else pure idx

/-- `stepbattle_simulation` over the heap: mutates only the Pokemon objects
of the two argument agents, their elixir dicts, and the argument battle
state. -/
def stepbattleH (h : Heap) (ash rocket : AgentR) (bsid : Nat)
    (ashact rocketact : BattleAction) (u1 u2 : ℚ) : Option Heap := do
  let bs ← h.bstate bsid
  let (h1, ashidx) ← applyH h ash ashact bs.ashactive
  let (h2, rocidx) ← applyH h1 rocket rocketact bs.rocketactive
  let ashdef := ashact.kind == BActEnum.DEFEND
  let rocdef := rocketact.kind == BActEnum.DEFEND
  let h3 ← (if ashact.kind == BActEnum.ATTACK then do
      let ap ← teamPoke h2 ash.team ashidx
      if ap.alive then do
        let dp ← teamPoke h2 rocket.team rocidx
        if dp.alive then
          let dmg := computedamage ap dp bs.fieldtype u1
          let dmg := if rocdef then pytrunc ((dmg : ℚ) * (1/2)) else dmg
          mutPokeAt h2 rocket.team rocidx (fun q => q.takedamage dmg)
        else pure h2
      else pure h2
    else pure h2)
  let h4 ← (if rocketact.kind == BActEnum.ATTACK then do
      let rp ← teamPoke h3 rocket.team rocidx
      if rp.alive then do
        let adp ← teamPoke h3 ash.team ashidx
        if adp.alive then
          let dmg := computedamage rp adp bs.fieldtype u2
          let dmg := if ashdef then pytrunc ((dmg : ℚ) * (1/2)) else dmg
          mutPokeAt h3 ash.team ashidx (fun q => q.takedamage dmg)
        else pure h3
      else pure h3
    else pure h3)
  let ashidx2 ← advanceIdxH h4 ash.team ashidx
  let rocidx2 ← advanceIdxH h4 rocket.team rocidx
  let bs4 ← h4.bstate bsid
  some (h4.setBState bsid
    { fieldtype := bs4.fieldtype, ashactive := ashidx2, rocketactive := rocidx2 })

/-- `cloneagent`: allocates fresh Pokemon objects and a fresh elixirs dict. -/
def cloneagentH (h : Heap) (a : AgentR) : Option (Heap × AgentR) := do
  let ps ← a.team.mapM h.poke
  let d ← h.dict a.elixirs
  some ({ h with
      pokes := h.pokes ++ ps.map (fun p =>
        { name := p.name, ptype := p.ptype, maxhp := p.maxhp, hp := p.hp,
          atk := p.atk, dfn := p.dfn, alive := p.alive }),
      dicts := h.dicts ++ [d] },
    { name := a.name, team := List.range' h.pokes.length ps.length,
      coins := a.coins, fuel := a.fuel, elixirs := h.dicts.length,
      position := a.position, targetpos := a.targetpos })

/-- `BattleState(s.fieldtype, s.ashactive, s.rocketactive)` : fresh object. -/
def allocBS (h : Heap) (bs : BattleState) : Heap × Nat :=
  ({ h with bstates := h.bstates ++ [bs] }, h.bstates.length)

/-- Read an agent's current value out of the heap (for the read-only calls
`evalstate` and `legalactions`). -/
def matAgent (h : Heap) (a : AgentR) : Option Agent := do
  let ps ← a.team.mapM h.poke
  let d ← h.dict a.elixirs
  some { name := a.name, team := ps, coins := a.coins, fuel := a.fuel,
         elixirs := d, position := a.position, targetpos := a.targetpos }

def searchChildH (stepRec : Heap → List Nat → AgentR → AgentR → Nat → Bool →
      Int → Int → Option (Heap × Int × Option BattleAction))
    (uo : UOracle) (path : List Nat) (a b : AgentR) (bsid : Nat)
    (maximizing : Bool) (h : Heap) (k : Nat) (act : BattleAction) (alpha beta : Int) :
    Option (Heap × Int) := do
  let (h1, aclone) ← cloneagentH h a
  let (h2, bclone) ← cloneagentH h1 b
  let bs ← h2.bstate bsid
  let (h3, sid) := allocBS h2 ⟨bs.fieldtype, bs.ashactive, bs.rocketactive⟩
  let oppact : BattleAction := { kind := BActEnum.ATTACK }
  let ashact := if maximizing then act else oppact
  let rocketact := if maximizing then oppact else act
  let u := uo (path ++ [k])
  let h4 ← stepbattleH h3 aclone bclone sid ashact rocketact u.1 u.2
  let (h5, val, _) ← stepRec h4 (path ++ [k]) aclone bclone sid (!maximizing) alpha beta
  some (h5, val)

def abLoopH (child : Heap → Nat → BattleAction → Int → Int → Option (Heap × Int))
    (maximizing : Bool) :
    Heap → List BattleAction → Nat → Int → Option BattleAction → Int → Int →
    Option (Heap × Int × Option BattleAction)
  | h, [], _, bestval, bestact, _, _ => some (h, bestval, bestact)
  | h, act :: rest, k, bestval, bestact, alpha, beta => do
    let (h', val) ← child h k act alpha beta
    let bestval' := if maximizing then (if val > bestval then val else bestval)
      else (if val < bestval then val else bestval)
    let bestact' := if maximizing then (if val > bestval then some act else bestact)
      else (if val < bestval then some act else bestact)
    let alpha' := if maximizing then max alpha bestval' else alpha
    let beta' := if maximizing then beta else min beta bestval'
    if beta' ≤ alpha' then some (h', bestval', bestact')
    else abLoopH child maximizing h' rest (k+1) bestval' bestact' alpha' beta'

def recurseH (meisash : Bool) (ord : OrdOracle) (uo : UOracle) :
    Nat → Heap → List Nat → AgentR → AgentR → Nat → Bool → Int → Int →
    Option (Heap × Int × Option BattleAction)
  | 0, h, _, a, b, sid, _, _, _ => do
    let av ← matAgent h a
    let bv ← matAgent h b
    let bs ← h.bstate sid
    some (h, leafScore meisash av bv bs, none)
  | ply+1, h, path, a, b, sid, maximizing, alpha, beta => do
    let av ← matAgent h a
    let bv ← matAgent h b
    let bs ← h.bstate sid
    if (av.team.all fun p => !p.alive) || (bv.team.all fun p => !p.alive) then
      some (h, leafScore meisash av bv bs, none)
    else do
      let currentactiveidx := if maximizing then bs.ashactive else bs.rocketactive
      let oppactiveidx := if maximizing then bs.rocketactive else bs.ashactive
      let agentforactions := if maximizing then av else bv
      let oppforactions := if maximizing then bv else av
      let oppPoke ← pyIdx oppforactions.team oppactiveidx
      let actions0 ← legalactions agentforactions currentactiveidx oppPoke
      let actions := ord path actions0
      abLoopH (searchChildH (recurseH meisash ord uo ply) uo path a b sid maximizing)
        maximizing h actions 0 (if maximizing then -SENT else SENT) none alpha beta

def decide_actionH (h : Heap) (me opp : AgentR) (bsid : Nat) (meisash : Bool)
    (ord : OrdOracle) (uo : UOracle) (depth : Nat) : Option (Heap × BattleAction) := do
  let (h', _, actopt) ← recurseH meisash ord uo depth h []
    (if meisash then me else opp) (if meisash then opp else me) bsid meisash
    (-SENT) SENT
  some (h', actopt.getD { kind := BActEnum.ATTACK })

/-! ### Frame reasoning: which addresses a call may write -/

/-- The heap is unchanged at every address below the given bounds. -/
def PresBelow (np nd nb : Nat) (h h' : Heap) : Prop :=
  (∀ i, i < np → h'.pokes.get? i = h.pokes.get? i) ∧
  (∀ i, i < nd → h'.dicts.get? i = h.dicts.get? i) ∧
  (∀ i, i < nb → h'.bstates.get? i = h.bstates.get? i)

def SameLen (h h' : Heap) : Prop :=
  h'.pokes.length = h.pokes.length ∧ h'.dicts.length = h.dicts.length ∧
    h'.bstates.length = h.bstates.length

def Grows (h h' : Heap) : Prop :=
  h.pokes.length ≤ h'.pokes.length ∧ h.dicts.length ≤ h'.dicts.length ∧
    h.bstates.length ≤ h'.bstates.length

theorem presBelow_refl (np nd nb : Nat) (h : Heap) : PresBelow np nd nb h h :=
  ⟨fun _ _ => rfl, fun _ _ => rfl, fun _ _ => rfl⟩

theorem presBelow_trans {np nd nb : Nat} {h1 h2 h3 : Heap}
    (p : PresBelow np nd nb h1 h2) (q : PresBelow np nd nb h2 h3) :
    PresBelow np nd nb h1 h3 :=
  ⟨fun i hi => (q.1 i hi).trans (p.1 i hi),
   fun i hi => (q.2.1 i hi).trans (p.2.1 i hi),
   fun i hi => (q.2.2 i hi).trans (p.2.2 i hi)⟩

theorem presBelow_mono {np nd nb np' nd' nb' : Nat} {h h' : Heap}
    (h1 : np' ≤ np) (h2 : nd' ≤ nd) (h3 : nb' ≤ nb)
    (p : PresBelow np nd nb h h') : PresBelow np' nd' nb' h h' :=
  ⟨fun i hi => p.1 i (lt_of_lt_of_le hi h1),
   fun i hi => p.2.1 i (lt_of_lt_of_le hi h2),
   fun i hi => p.2.2 i (lt_of_lt_of_le hi h3)⟩

theorem grows_refl (h : Heap) : Grows h h := ⟨le_refl _, le_refl _, le_refl _⟩

theorem grows_trans {h1 h2 h3 : Heap} (p : Grows h1 h2) (q : Grows h2 h3) :
    Grows h1 h3 :=
  ⟨le_trans p.1 q.1, le_trans p.2.1 q.2.1, le_trans p.2.2 q.2.2⟩

theorem sameLen_grows {h h' : Heap} (p : SameLen h h') : Grows h h' :=
  ⟨le_of_eq p.1.symm, le_of_eq p.2.1.symm, le_of_eq p.2.2.symm⟩

theorem setPoke_pres {h : Heap} {pid : Nat} {p : Pokemon} {np nd nb : Nat}
    (hge : np ≤ pid) :
    PresBelow np nd nb h (h.setPoke pid p) ∧ SameLen h (h.setPoke pid p) := by
  refine ⟨⟨?_, fun _ _ => rfl, fun _ _ => rfl⟩, by simp [Heap.setPoke], rfl, rfl⟩
  intro i hi
  show (h.pokes.set pid p).get? i = h.pokes.get? i
  rw [List.get?_set_ne]
  omega

theorem setDict_pres {h : Heap} {did : Nat} {d : List (String × Int)} {np nd nb : Nat}
    (hge : nd ≤ did) :
    PresBelow np nd nb h (h.setDict did d) ∧ SameLen h (h.setDict did d) := by
  refine ⟨⟨fun _ _ => rfl, ?_, fun _ _ => rfl⟩, rfl, by simp [Heap.setDict], rfl⟩
  intro i hi
  show (h.dicts.set did d).get? i = h.dicts.get? i
  rw [List.get?_set_ne]
  omega

theorem setBState_pres {h : Heap} {bid : Nat} {b : BattleState} {np nd nb : Nat}
    (hge : nb ≤ bid) :
    PresBelow np nd nb h (h.setBState bid b) ∧ SameLen h (h.setBState bid b) := by
  refine ⟨⟨fun _ _ => rfl, fun _ _ => rfl, ?_⟩, rfl, rfl, by simp [Heap.setBState]⟩
  intro i hi
  show (h.bstates.set bid b).get? i = h.bstates.get? i
  rw [List.get?_set_ne]
  omega

theorem pyIdx_mem {l : List α} {i : Int} {a : α} (h : pyIdx l i = some a) : a ∈ l := by
  unfold pyIdx at h
  split at h
  · exact List.get?_mem h
  · split at h
    · exact List.get?_mem h
    · cases h

theorem mutPokeAt_pres {h h' : Heap} {team : List Nat} {idx : Int}
    {f : Pokemon → Pokemon} {np nd nb : Nat} (hteam : ∀ pid ∈ team, np ≤ pid)
    (hm : mutPokeAt h team idx f = some h') :
    PresBelow np nd nb h h' ∧ SameLen h h' := by
  simp only [mutPokeAt, Option.bind_eq_bind] at hm
  obtain ⟨pid, hpid, hm⟩ := Option.bind_eq_some.mp hm
  obtain ⟨p, hp, hm⟩ := Option.bind_eq_some.mp hm
  simp only [Option.some.injEq] at hm
  subst hm
  exact setPoke_pres (hteam pid (pyIdx_mem hpid))

theorem applyH_pres {h h' : Heap} {agent : AgentR} {act : BattleAction}
    {activeidx idx' : Int} {np nd nb : Nat}
    (hteam : ∀ pid ∈ agent.team, np ≤ pid) (hdict : nd ≤ agent.elixirs)
    (ha : applyH h agent act activeidx = some (h', idx')) :
    PresBelow np nd nb h h' ∧ SameLen h h' := by
  obtain ⟨kind, arg⟩ := act
  cases kind <;> rcases arg with _ | ⟨j | t⟩ <;>
    first
    | · cases ha
        exact ⟨presBelow_refl _ _ _ _, rfl, rfl, rfl⟩
    | skip
  · -- SWAP with integer arg
    simp only [applyH] at ha
    split at ha
    · obtain ⟨p, hp, ha⟩ := Option.bind_eq_some.mp ha
      split at ha <;> (cases ha; exact ⟨presBelow_refl _ _ _ _, rfl, rfl, rfl⟩)
    · cases ha
      exact ⟨presBelow_refl _ _ _ _, rfl, rfl, rfl⟩
  · -- HEAL with tier arg
    simp only [applyH, Option.bind_eq_bind] at ha
    obtain ⟨d, hd, ha⟩ := Option.bind_eq_some.mp ha
    split at ha
    · split at ha
      · cases ha
      · obtain ⟨h1, hh1, ha⟩ := Option.bind_eq_some.mp ha
        simp only [Option.some.injEq, Prod.mk.injEq] at ha
        obtain ⟨ha1, -⟩ := ha
        subst ha1
        obtain ⟨p1, s1⟩ := mutPokeAt_pres hteam hh1
        obtain ⟨p2, s2⟩ := @setDict_pres h1 agent.elixirs _ np nd nb hdict
        exact ⟨presBelow_trans p1 p2, s2.1.trans s1.1, s2.2.1.trans s1.2.1,
          s2.2.2.trans s1.2.2⟩
    · cases ha
      exact ⟨presBelow_refl _ _ _ _, rfl, rfl, rfl⟩

theorem sameLen_trans {h1 h2 h3 : Heap} (p : SameLen h1 h2) (q : SameLen h2 h3) :
    SameLen h1 h3 :=
  ⟨q.1.trans p.1, q.2.1.trans p.2.1, q.2.2.trans p.2.2⟩

theorem stepbattleH_pres {h h' : Heap} {ash rocket : AgentR} {bsid : Nat}
    {ashact rocketact : BattleAction} {u1 u2 : ℚ} {np nd nb : Nat}
    (hat : ∀ pid ∈ ash.team, np ≤ pid) (had : nd ≤ ash.elixirs)
    (hrt : ∀ pid ∈ rocket.team, np ≤ pid) (hrd : nd ≤ rocket.elixirs)
    (hbs : nb ≤ bsid)
    (hs : stepbattleH h ash rocket bsid ashact rocketact u1 u2 = some h') :
    PresBelow np nd nb h h' ∧ SameLen h h' := by
  simp only [stepbattleH, Option.bind_eq_bind] at hs
  obtain ⟨bs, hbs0, hs⟩ := Option.bind_eq_some.mp hs
  obtain ⟨⟨h1, ashidx⟩, hA, hs⟩ := Option.bind_eq_some.mp hs
  obtain ⟨⟨h2, rocidx⟩, hR, hs⟩ := Option.bind_eq_some.mp hs
  obtain ⟨h3, hH3, hs⟩ := Option.bind_eq_some.mp hs
  obtain ⟨h4, hH4, hs⟩ := Option.bind_eq_some.mp hs
  obtain ⟨ai2, hAI, hs⟩ := Option.bind_eq_some.mp hs
  obtain ⟨ri2, hRI, hs⟩ := Option.bind_eq_some.mp hs
  obtain ⟨bs4, hBS4, hs⟩ := Option.bind_eq_some.mp hs
  simp only [Option.some.injEq] at hs
  subst hs
  obtain ⟨p1, s1⟩ := applyH_pres hat had hA
  obtain ⟨p2, s2⟩ := applyH_pres hrt hrd hR
  have hstep3 : PresBelow np nd nb h2 h3 ∧ SameLen h2 h3 := by
    split at hH3
    · simp only [Option.bind_eq_bind] at hH3
      obtain ⟨ap, hap, hH3⟩ := Option.bind_eq_some.mp hH3
      split at hH3
      · obtain ⟨dp, hdp, hH3⟩ := Option.bind_eq_some.mp hH3
        split at hH3
        · exact mutPokeAt_pres hrt hH3
        · simp only [Option.pure_def, Option.some.injEq] at hH3
          subst hH3
          exact ⟨presBelow_refl _ _ _ _, rfl, rfl, rfl⟩
      · simp only [Option.pure_def, Option.some.injEq] at hH3
        subst hH3
        exact ⟨presBelow_refl _ _ _ _, rfl, rfl, rfl⟩
    · cases hH3
      exact ⟨presBelow_refl _ _ _ _, rfl, rfl, rfl⟩
  have hstep4 : PresBelow np nd nb h3 h4 ∧ SameLen h3 h4 := by
    split at hH4
    · simp only [Option.bind_eq_bind] at hH4
      obtain ⟨rp, hrp, hH4⟩ := Option.bind_eq_some.mp hH4
      split at hH4
      · obtain ⟨adp, hadp, hH4⟩ := Option.bind_eq_some.mp hH4
        split at hH4
        · exact mutPokeAt_pres hat hH4
        · simp only [Option.pure_def, Option.some.injEq] at hH4
          subst hH4
          exact ⟨presBelow_refl _ _ _ _, rfl, rfl, rfl⟩
      · simp only [Option.pure_def, Option.some.injEq] at hH4
        subst hH4
        exact ⟨presBelow_refl _ _ _ _, rfl, rfl, rfl⟩
    · cases hH4
      exact ⟨presBelow_refl _ _ _ _, rfl, rfl, rfl⟩
  obtain ⟨p5, s5⟩ := @setBState_pres h4 bsid
    { fieldtype := bs4.fieldtype, ashactive := ai2, rocketactive := ri2 } np nd nb hbs
  exact ⟨presBelow_trans p1 (presBelow_trans p2 (presBelow_trans hstep3.1
      (presBelow_trans hstep4.1 p5))),
    sameLen_trans s1 (sameLen_trans s2 (sameLen_trans hstep3.2
      (sameLen_trans hstep4.2 s5)))⟩

theorem cloneagentH_spec {h h' : Heap} {a a' : AgentR}
    (hc : cloneagentH h a = some (h', a')) :
    PresBelow h.pokes.length h.dicts.length h.bstates.length h h' ∧ Grows h h' ∧
      (∀ pid ∈ a'.team, h.pokes.length ≤ pid) ∧ h.dicts.length ≤ a'.elixirs := by
  simp only [cloneagentH, Option.bind_eq_bind] at hc
  obtain ⟨ps, hps, hc⟩ := Option.bind_eq_some.mp hc
  obtain ⟨d, hd, hc⟩ := Option.bind_eq_some.mp hc
  simp only [Option.some.injEq, Prod.mk.injEq] at hc
  obtain ⟨hh, ha⟩ := hc
  subst hh
  subst ha
  refine ⟨⟨?_, ?_, fun _ _ => rfl⟩, ⟨?_, ?_, le_refl _⟩, ?_, le_refl _⟩
  · intro i hi
    show (h.pokes ++ _).get? i = h.pokes.get? i
    exact List.get?_append hi
  · intro i hi
    show (h.dicts ++ _).get? i = h.dicts.get? i
    exact List.get?_append hi
  · show h.pokes.length ≤ (h.pokes ++ _).length
    simp
  · show h.dicts.length ≤ (h.dicts ++ _).length
    simp
  · intro pid hpid
    exact (List.mem_range'_1.mp hpid).1

theorem allocBS_pres (h : Heap) (bs : BattleState) :
    PresBelow h.pokes.length h.dicts.length h.bstates.length h (allocBS h bs).1 ∧
      Grows h (allocBS h bs).1 ∧ (allocBS h bs).2 = h.bstates.length := by
  refine ⟨⟨fun _ _ => rfl, fun _ _ => rfl, ?_⟩, ⟨le_refl _, le_refl _, ?_⟩, rfl⟩
  · intro i hi
    show (h.bstates ++ [bs]).get? i = h.bstates.get? i
    exact List.get?_append hi
  · show h.bstates.length ≤ (h.bstates ++ [bs]).length
    simp

theorem ite_some_or {α : Type} {c : Prop} [Decidable c] {x y z : Option α}
    (h : (if c then x else y) = z) : x = z ∨ y = z := by
  split at h
  · exact Or.inl h
  · exact Or.inr h

theorem abLoopH_frame {child : Heap → Nat → BattleAction → Int → Int →
      Option (Heap × Int)} {maximizing : Bool}
    (hc : ∀ h1 k act α β h2 v, child h1 k act α β = some (h2, v) →
      PresBelow h1.pokes.length h1.dicts.length h1.bstates.length h1 h2 ∧ Grows h1 h2) :
    ∀ acts h k bv ba α β h' v' a',
      abLoopH child maximizing h acts k bv ba α β = some (h', v', a') →
      PresBelow h.pokes.length h.dicts.length h.bstates.length h h' ∧ Grows h h' := by
  intro acts
  induction acts with
  | nil =>
    intro h k bv ba α β h' v' a' he
    simp only [abLoopH, Option.some.injEq, Prod.mk.injEq] at he
    obtain ⟨hh, -⟩ := he
    subst hh
    exact ⟨presBelow_refl _ _ _ _, grows_refl _⟩
  | cons act rest ih =>
    intro h k bv ba α β h' v' a' he
    simp only [abLoopH, Option.bind_eq_bind] at he
    obtain ⟨⟨h1, val⟩, hch, he⟩ := Option.bind_eq_some.mp he
    dsimp only at he
    obtain ⟨p1, g1⟩ := hc h k act α β h1 val hch
    rcases ite_some_or he with he | he
    · simp only [Option.some.injEq, Prod.mk.injEq] at he
      obtain ⟨hh, -⟩ := he
      subst hh
      exact ⟨p1, g1⟩
    · obtain ⟨p2, g2⟩ := ih h1 (k+1) _ _ _ _ _ _ _ he
      exact ⟨presBelow_trans p1 (presBelow_mono g1.1 g1.2.1 g1.2.2 p2),
        grows_trans g1 g2⟩

theorem searchChildH_frame {stepRec : Heap → List Nat → AgentR → AgentR → Nat →
      Bool → Int → Int → Option (Heap × Int × Option BattleAction)}
    (hrec : ∀ h1 path a b sid m α β h2 v act,
      stepRec h1 path a b sid m α β = some (h2, v, act) →
      PresBelow h1.pokes.length h1.dicts.length h1.bstates.length h1 h2 ∧ Grows h1 h2)
    {uo : UOracle} {path : List Nat} {a b : AgentR} {bsid : Nat} {maximizing : Bool}
    {h : Heap} {k : Nat} {act : BattleAction} {alpha beta : Int} {h' : Heap} {v : Int}
    (hs : searchChildH stepRec uo path a b bsid maximizing h k act alpha beta
      = some (h', v)) :
    PresBelow h.pokes.length h.dicts.length h.bstates.length h h' ∧ Grows h h' := by
  simp only [searchChildH, Option.bind_eq_bind] at hs
  obtain ⟨⟨h1, ac⟩, hc1, hs⟩ := Option.bind_eq_some.mp hs
  obtain ⟨⟨h2, bc⟩, hc2, hs⟩ := Option.bind_eq_some.mp hs
  obtain ⟨bs, hbs2, hs⟩ := Option.bind_eq_some.mp hs
  obtain ⟨h4, hstep, hs⟩ := Option.bind_eq_some.mp hs
  obtain ⟨⟨h5, val, x⟩, hr5, hs⟩ := Option.bind_eq_some.mp hs
  simp only [Option.some.injEq, Prod.mk.injEq] at hs
  obtain ⟨hh, -⟩ := hs
  subst hh
  obtain ⟨p1, g1, hacteam, hacd⟩ := cloneagentH_spec hc1
  obtain ⟨p2, g2, hbcteam, hbcd⟩ := cloneagentH_spec hc2
  obtain ⟨p3, g3, hsid⟩ := allocBS_pres h2 ⟨bs.fieldtype, bs.ashactive, bs.rocketactive⟩
  have hstep' : PresBelow h.pokes.length h.dicts.length h.bstates.length
      (allocBS h2 ⟨bs.fieldtype, bs.ashactive, bs.rocketactive⟩).1 h4 ∧
      SameLen (allocBS h2 ⟨bs.fieldtype, bs.ashactive, bs.rocketactive⟩).1 h4 := by
    refine stepbattleH_pres ?_ ?_ ?_ ?_ ?_ hstep
    · exact hacteam
    · exact hacd
    · intro pid hpid
      exact le_trans g1.1 (hbcteam pid hpid)
    · exact le_trans g1.2.1 hbcd
    · rw [hsid]
      exact le_trans g1.2.2 g2.2.2
  obtain ⟨p4, s4⟩ := hstep'
  have g4 : Grows (allocBS h2 ⟨bs.fieldtype, bs.ashactive, bs.rocketactive⟩).1 h4 :=
    sameLen_grows s4
  have g03 : Grows h (allocBS h2 ⟨bs.fieldtype, bs.ashactive, bs.rocketactive⟩).1 :=
    grows_trans g1 (grows_trans g2 g3)
  have g04 : Grows h h4 := grows_trans g03 g4
  obtain ⟨p5, g5⟩ := hrec h4 (path ++ [k]) ac bc
    (allocBS h2 ⟨bs.fieldtype, bs.ashactive, bs.rocketactive⟩).2 (!maximizing)
    alpha beta _ val x hr5
  refine ⟨?_, grows_trans g04 g5⟩
  refine presBelow_trans p1 (presBelow_trans
    (presBelow_mono g1.1 g1.2.1 g1.2.2 p2) (presBelow_trans
    (presBelow_mono (grows_trans g1 g2).1 (grows_trans g1 g2).2.1
      (grows_trans g1 g2).2.2 p3) (presBelow_trans p4
    (presBelow_mono g04.1 g04.2.1 g04.2.2 p5))))

theorem recurseH_frame (meisash : Bool) (ord : OrdOracle) (uo : UOracle) :
    ∀ ply h path a b sid m α β h' v act,
      recurseH meisash ord uo ply h path a b sid m α β = some (h', v, act) →
      PresBelow h.pokes.length h.dicts.length h.bstates.length h h' ∧ Grows h h' := by
  intro ply
  induction ply with
  | zero =>
    intro h path a b sid m α β h' v act hr
    simp only [recurseH, Option.bind_eq_bind] at hr
    obtain ⟨av, -, hr⟩ := Option.bind_eq_some.mp hr
    obtain ⟨bv, -, hr⟩ := Option.bind_eq_some.mp hr
    obtain ⟨bs, -, hr⟩ := Option.bind_eq_some.mp hr
    simp only [Option.some.injEq, Prod.mk.injEq] at hr
    obtain ⟨hh, -⟩ := hr
    subst hh
    exact ⟨presBelow_refl _ _ _ _, grows_refl _⟩
  | succ ply ih =>
    intro h path a b sid m α β h' v act hr
    simp only [recurseH, Option.bind_eq_bind] at hr
    obtain ⟨av, -, hr⟩ := Option.bind_eq_some.mp hr
    obtain ⟨bv, -, hr⟩ := Option.bind_eq_some.mp hr
    obtain ⟨bs, -, hr⟩ := Option.bind_eq_some.mp hr
    split at hr
    · simp only [Option.some.injEq, Prod.mk.injEq] at hr
      obtain ⟨hh, -⟩ := hr
      subst hh
      exact ⟨presBelow_refl _ _ _ _, grows_refl _⟩
    · obtain ⟨op, -, hr⟩ := Option.bind_eq_some.mp hr
      obtain ⟨acts0, -, hr⟩ := Option.bind_eq_some.mp hr
      refine abLoopH_frame ?_ _ h 0 _ none α β h' v act hr
      intro h1 k act1 α1 β1 h2 v1 hch
      exact searchChildH_frame (ih) hch

theorem decide_actionH_frame {h h' : Heap} {me opp : AgentR} {bsid : Nat}
    {meisash : Bool} {ord : OrdOracle} {uo : UOracle} {depth : Nat} {act : BattleAction}
    (hd : decide_actionH h me opp bsid meisash ord uo depth = some (h', act)) :
    PresBelow h.pokes.length h.dicts.length h.bstates.length h h' ∧ Grows h h' := by
  simp only [decide_actionH, Option.bind_eq_bind] at hd
  obtain ⟨⟨h1, v, a⟩, hr, hd⟩ := Option.bind_eq_some.mp hd
  simp only [Option.some.injEq, Prod.mk.injEq] at hd
  obtain ⟨hh, -⟩ := hd
  subst hh
  exact recurseH_frame meisash ord uo depth h [] _ _ bsid meisash (-SENT) SENT _ _ _ hr

/-- **C10.** Every call to `decide_action` leaves its inputs unmutated: for
every heap, agents `me`/`opp` whose Pokemon, elixir-dict and battle-state
references are valid addresses, every depth, ordering oracle and
random-multiplier oracle, if `decide_action` returns then every Pokemon
object of either team, both elixir dicts and the battle state hold exactly
the same values in the resulting heap as before the call: the search
mutates only the freshly allocated clones (agent attributes `coins`,
`fuel`, `name`, positions are never assigned anywhere in the call graph
and are value-copied, so they are unchanged by construction). -/
theorem C10_input_immutable {h h' : Heap} {me opp : AgentR} {bsid : Nat}
    {meisash : Bool} {ord : OrdOracle} {uo : UOracle} {depth : Nat}
    {act : BattleAction}
    (hme : ∀ pid ∈ me.team, pid < h.pokes.length)
    (hop : ∀ pid ∈ opp.team, pid < h.pokes.length)
    (hmd : me.elixirs < h.dicts.length) (hod : opp.elixirs < h.dicts.length)
    (hb : bsid < h.bstates.length)
    (hd : decide_actionH h me opp bsid meisash ord uo depth = some (h', act)) :
    (∀ pid ∈ me.team, h'.poke pid = h.poke pid) ∧
      (∀ pid ∈ opp.team, h'.poke pid = h.poke pid) ∧
      h'.dict me.elixirs = h.dict me.elixirs ∧
      h'.dict opp.elixirs = h.dict opp.elixirs ∧
      h'.bstate bsid = h.bstate bsid := by
  obtain ⟨p, -⟩ := decide_actionH_frame hd
  exact ⟨fun pid hp => p.1 pid (hme pid hp), fun pid hp => p.1 pid (hop pid hp),
    p.2.1 _ hmd, p.2.1 _ hod, p.2.2 _ hb⟩

def c10h : Heap :=
  ⟨[⟨"Pikachu", "Electric", 100, 60, 12, 3, true⟩,
    ⟨"Koffing", "Poison", 90, 90, 10, 2, true⟩],
   [[("Small", 2)], []], [⟨"Grass", 0, 0⟩]⟩

def c10me : AgentR := ⟨"Ash", [0], 0, 0, 0, (0, 0), (0, 0)⟩

def c10opp : AgentR := ⟨"Rocket", [1], 0, 0, 1, (0, 0), (0, 0)⟩

def c10ord : OrdOracle := fun _ l => l

def c10uo : UOracle := fun _ => (1, 1)

/-- Witness for `C10_input_immutable` at a concrete heap and agents. -/
theorem C10_input_immutable_witness :
    decide_actionH c10h c10me c10opp 0 true c10ord c10uo 0
        = some (c10h, { kind := BActEnum.ATTACK, arg := none }) ∧
      ((∀ pid ∈ c10me.team, Heap.poke c10h pid = Heap.poke c10h pid) ∧
        (∀ pid ∈ c10opp.team, Heap.poke c10h pid = Heap.poke c10h pid) ∧
        Heap.dict c10h c10me.elixirs = Heap.dict c10h c10me.elixirs ∧
        Heap.dict c10h c10opp.elixirs = Heap.dict c10h c10opp.elixirs ∧
        Heap.bstate c10h 0 = Heap.bstate c10h 0) :=
  ⟨rfl, C10_input_immutable (by decide) (by decide) (by decide) (by decide)
    (by decide)
    (rfl : decide_actionH c10h c10me c10opp 0 true c10ord c10uo 0
      = some (c10h, { kind := BActEnum.ATTACK, arg := none }))⟩

/-- A concrete agent for the C9 witness: one living creature, an owned
"Small" tier with zero count. -/
def c9wAgent : Agent :=
  { name := "A", team := [{ name := "P", ptype := "Fire" }], elixirs := [("Small", 0)] }

/-- Witness for `C9_illegal_action_noop` at a concrete input. -/
theorem C9_illegal_action_noop_witness :
    applyAct c9wAgent { kind := BActEnum.SWAP, arg := some (Sum.inl 5) } 0
        = some (c9wAgent, 0) ∧
      applyAct c9wAgent { kind := BActEnum.SWAP, arg := some (Sum.inr "Small") } 0
        = some (c9wAgent, 0) ∧
      applyAct c9wAgent { kind := BActEnum.SWAP, arg := none } 0
        = some (c9wAgent, 0) ∧
      applyAct c9wAgent { kind := BActEnum.HEAL, arg := some (Sum.inr "Small") } 0
        = some (c9wAgent, 0) ∧
      applyAct c9wAgent { kind := BActEnum.HEAL, arg := some (Sum.inl 5) } 0
        = some (c9wAgent, 0) ∧
      applyAct c9wAgent { kind := BActEnum.HEAL, arg := none } 0
        = some (c9wAgent, 0) :=
  C9_illegal_action_noop c9wAgent 0 5 "Small" (by decide) (by decide)

end PBA
